import Mathlib

/-!
# Code_Examples: dynamic array, intrusive list and calculator

A shallow embedding of `src/vector.h` (class `Vector`), of
`src/intrusive_list.h` (classes `ListHook` and `List<T>`) and of
`src/calculator.h` (`Tokenizer`, `Expression`, `ParseExpression`), with the
properties of the specification stated and settled over it.

## Memory model of `Vector`

* A pointer `int*` is `none` (the null pointer) or `some cells`, the array
  obtained from `new int[cells.length]`.  `new int[0]` is a non-null pointer
  to an array of no elements, so it is `some []`.
* A cell is `none` while its value is indeterminate (fresh from `new`) and
  `some x` once an `int` has been stored.
* An access `std::span(p, extent)[i]` is defined when `p` is non-null,
  `i < extent` and `i` lies inside the array; every other access is
  undefined behaviour, and the embedding returns `none` for the whole
  operation.
* `size_t` is a natural number below `2 ^ 64`; `capacity_ * 2`, `size_++`
  and `size_--` wrap modulo `2 ^ 64` as in the source.
* Memory exhaustion is outside the model: `new` always returns an array.
* `delete[]` releases storage and has no effect on the state observed here.
-/

namespace CodeExamples

/-- One `int` slot of an array: `none` is an indeterminate value. -/
abbrev Cell := Option Int

/-- An `int*`: `none` is `nullptr`, `some cells` is the array it points to. -/
abbrev Ptr := Option (List Cell)

/-- The number of values of `size_t`. -/
def SIZE_MOD : Nat := 18446744073709551616

/-- The expression `new int[n]`: a fresh array of `n` indeterminate cells. -/
def newInts (n : Nat) : Ptr := some (List.replicate n none)

/-- Reading `std::span(p, extent)[i]`; `none` is undefined behaviour. -/
def spanLoad (p : Ptr) (extent i : Nat) : Option Cell :=
  match p with
  | none => none
  | some cells => if i < extent then cells[i]? else none

/-- Writing `std::span(p, extent)[i] = x`; `none` is undefined behaviour. -/
def spanStore (p : Ptr) (extent i : Nat) (x : Cell) : Option Ptr :=
  match p with
  | none => none
  | some cells =>
    if i < extent ∧ i < cells.length then some (some (cells.set i x)) else none

/-- The loop `for (size_t i = 0; i < n; i++) span(dst, dext)[i] = span(src, sext)[i];`
of the copy constructor, the copy assignment and `Reserve`: iterations
`0 .. n-1` in order, the last one peeled off. -/
def copyLoop (src : Ptr) (sext dext : Nat) : Nat → Ptr → Option Ptr
  | 0, dst => some dst
  | n + 1, dst => do
    let dst ← copyLoop src sext dext n dst
    let x ← spanLoad src sext n
    spanStore dst dext n x

/-- The loop `for (size_t i = 0; i < n; i++) span(p, ext)[i] = 0;` of the
sized constructor. -/
def zeroLoop (ext : Nat) : Nat → Ptr → Option Ptr
  | 0, p => some p
  | n + 1, p => do
    let p ← zeroLoop ext n p
    spanStore p ext n (some 0)

/-- The loop `for (auto j : data) { span(p, ext)[i] = j; i++; }` of the
initializer-list constructor, started at index `i`. -/
def initLoop (ext : Nat) : List Int → Nat → Ptr → Option Ptr
  | [], _, p => some p
  | j :: rest, i, p => do
    let p ← spanStore p ext i (some j)
    initLoop ext rest (i + 1) p

/-- The data members of `class Vector`. -/
structure Vector where
  begin_ : Ptr
  size_ : Nat
  capacity_ : Nat
deriving DecidableEq, Repr

namespace Vector

/-- `Vector()`. -/
def default : Vector := { begin_ := none, size_ := 0, capacity_ := 0 }

/-- `explicit Vector(size_t n)`. -/
def sized (n : Nat) : Option Vector := do
  let p ← zeroLoop n n (newInts n)
  pure { begin_ := p, size_ := n, capacity_ := n }

/-- `Vector(std::initializer_list<int> data)`. -/
def fromList (data : List Int) : Option Vector := do
  let p ← initLoop data.length data 0 (newInts data.length)
  pure { begin_ := p, size_ := data.length, capacity_ := data.length }

/-- `Vector(const Vector& data)`. -/
def copy (data : Vector) : Option Vector := do
  let p ← copyLoop data.begin_ data.capacity_ data.capacity_ data.size_
    (newInts data.capacity_)
  pure { begin_ := p, size_ := data.size_, capacity_ := data.capacity_ }

/-- `Vector(Vector&& data)`: the new object and the state `data` is left in. -/
def move (data : Vector) : Vector × Vector :=
  ({ begin_ := data.begin_, size_ := data.size_, capacity_ := data.capacity_ },
   { data with begin_ := none })

/-- `operator=(const Vector& data)` on `self`, for `&data != this` (for
`&data == this` the source returns `*this` unchanged). -/
def copyAssign (_self data : Vector) : Option Vector := do
  let p ← copyLoop data.begin_ data.capacity_ data.capacity_ data.size_
    (newInts data.capacity_)
  pure { begin_ := p, size_ := data.size_, capacity_ := data.capacity_ }

/-- `operator=(Vector&& data)` on `self`, for `&data != this`: the new state
of `self` and the state `data` is left in. -/
def moveAssign (_self data : Vector) : Vector × Vector :=
  ({ begin_ := data.begin_, size_ := data.size_, capacity_ := data.capacity_ },
   { data with begin_ := none })

/-- Reading `operator[](i)`: `none` when the access is undefined or the
value is indeterminate. -/
def get (v : Vector) (i : Nat) : Option Int :=
  (spanLoad v.begin_ v.capacity_ i).bind id

/-- Writing `operator[](i) = x`. -/
def set (v : Vector) (i : Nat) (x : Int) : Option Vector := do
  let p ← spanStore v.begin_ v.capacity_ i (some x)
  pure { v with begin_ := p }

/-- `Size()`. -/
def Size (v : Vector) : Nat := v.size_

/-- `Capacity()`. -/
def Capacity (v : Vector) : Nat := v.capacity_

/-- `Reserve(capacity)`. -/
def Reserve (v : Vector) (capacity : Nat) : Option Vector :=
  if capacity > v.capacity_ then do
    let new_begin ← copyLoop v.begin_ v.capacity_ v.capacity_ v.size_ (newInts capacity)
    pure { begin_ := new_begin, size_ := v.size_, capacity_ := capacity }
  else
    pure v

/-- `PushBack(x)`. -/
def PushBack (v : Vector) (x : Int) : Option Vector := do
  let v ← if v.size_ = v.capacity_ then
      (if v.capacity_ = 0 then v.Reserve 1 else v.Reserve (v.capacity_ * 2 % SIZE_MOD))
    else pure v
  let p ← spanStore v.begin_ v.capacity_ v.size_ (some x)
  pure { v with begin_ := p, size_ := (v.size_ + 1) % SIZE_MOD }

/-- `PopBack()`: `size_--` on a `size_t`, which wraps from 0 to `SIZE_MAX`. -/
def PopBack (v : Vector) : Vector :=
  { v with size_ := if v.size_ = 0 then SIZE_MOD - 1 else v.size_ - 1 }

/-- `Clear()`. -/
def Clear (v : Vector) : Vector := { v with size_ := 0 }

/-- `Swap(data)` on `self`, for two different objects: the new states of
`self` and of `data`.  The value returned by the source, a copy of `*this`,
is constructed and dropped. -/
def Swap (self data : Vector) : Option (Vector × Vector) := do
  let capacity1 := self.capacity_
  let capacity2 := data.capacity_
  let tmp ← copy self
  let self ← copyAssign self data
  let data ← copyAssign data tmp
  let self ← self.Reserve (max capacity1 self.size_)
  let data ← data.Reserve (max capacity2 data.size_)
  let _ ← copy self
  pure (self, data)

/-- The array behind `begin_`, empty for a null pointer. -/
def cells (v : Vector) : List Cell := v.begin_.getD []

/-- The elements `[0, size_)` as stored. -/
def live (v : Vector) : List Cell := v.cells.take v.size_

/-- The buffer agrees with `capacity_`: `begin_` is null with capacity 0, or
points to an array of exactly `capacity_` cells (what `new int[capacity_]`
returned). -/
def Owned (v : Vector) : Prop :=
  match v.begin_ with
  | none => v.capacity_ = 0
  | some cells => cells.length = v.capacity_

/-- The state `Reserve` leaves when it reallocates to `c` cells: the live
elements copied, the rest of the new array indeterminate. -/
def grown (v : Vector) (c : Nat) : Vector :=
  { begin_ := some (v.live ++ List.replicate (c - v.size_) none), size_ := v.size_,
    capacity_ := c }

/-- The exchange the specification describes for `Swap`: the buffer, size
and capacity fields of the two vectors change places.  The new states of the
first and of the second vector. -/
def exchange (a b : Vector) : Vector × Vector :=
  ({ begin_ := b.begin_, size_ := b.size_, capacity_ := b.capacity_ },
   { begin_ := a.begin_, size_ := a.size_, capacity_ := a.capacity_ })

/-- A null buffer only with capacity 0. -/
def NullOnlyIfEmpty (v : Vector) : Prop := v.begin_ = none → v.capacity_ = 0

/-- The capacity reached by doubling from 1: a power of two, at least the
size and below twice the size. -/
def Doubled (v : Vector) : Prop :=
  ∃ k, v.capacity_ = 2 ^ k ∧ v.size_ ≤ v.capacity_ ∧ v.capacity_ < 2 * v.size_

/-- `PushBack` of each value of `xs` in order. -/
def pushAll (v : Vector) : List Int → Option Vector
  | [] => some v
  | x :: xs => (v.PushBack x).bind (fun w => pushAll w xs)

/-- `PopBack` called `m` times. -/
def popN (v : Vector) (m : Nat) : Vector := PopBack^[m] v

end Vector

/-! ## Memory model of `Vector` with addresses

For the properties that speak of two vectors at once the arrays are kept in
a store under their addresses, and a `Vector` object holds the address of
its array.

* The store lists the arrays that are allocated; `new int[n]` enters a fresh
  array of `n` indeterminate cells under the address the allocator returns,
  `delete[] p` removes the array at `p`, and `delete[] nullptr` does nothing.
* The allocator is a parameter: any function that returns an address at
  which no array is allocated, so an address that was released may be
  returned again.
* An access through a pointer to no allocated array, and `delete[]` of such
  a pointer, is undefined behaviour (`none`).
* The `Vector` objects are kept under their own addresses, so that
  `&data != this` of the copy assignment can be evaluated.
-/

namespace Addr

/-- The store: the allocated arrays, each with its address; the first entry
for an address is the array at that address. -/
abbrev Store := List (Nat × List Cell)

/-- The array allocated at address `p`; `none` when there is none. -/
def Store.load : Store → Nat → Option (List Cell)
  | [], _ => none
  | (q, c) :: S, p => if q = p then some c else Store.load S p

/-- The store with the array `c` at address `p`. -/
def Store.put (S : Store) (p : Nat) (c : List Cell) : Store := (p, c) :: S

/-- The store without an array at address `p`. -/
def Store.free (S : Store) (p : Nat) : Store := S.filter (fun e => e.1 != p)

/-- The address `new int[n]` returns in a store. -/
abbrev Allocator := Store → Nat → Nat

/-- The allocator returns addresses at which no array is allocated. -/
def Allocator.Fresh (alloc : Allocator) : Prop :=
  ∀ S n, Store.load S (alloc S n) = none

/-- An allocator: an address above every address in the store. -/
def bump : Allocator := fun S _ => (S.map (fun e => e.1)).sum + 1

/-- The expression `new int[n]`: the address and the store afterwards. -/
def newIntsAt (alloc : Allocator) (S : Store) (n : Nat) : Nat × Store :=
  (alloc S n, Store.put S (alloc S n) (List.replicate n none))

/-- The statement `delete[] p`. -/
def deleteAt (S : Store) (p : Option Nat) : Option Store :=
  match p with
  | none => some S
  | some a => if (Store.load S a).isSome then some (Store.free S a) else none

/-- Reading `std::span(p, extent)[i]`. -/
def spanLoadAt (S : Store) (p : Option Nat) (extent i : Nat) : Option Cell :=
  match p with
  | none => none
  | some a =>
    match Store.load S a with
    | none => none
    | some cells => if i < extent then cells[i]? else none

/-- Writing `std::span(p, extent)[i] = x`. -/
def spanStoreAt (S : Store) (p : Option Nat) (extent i : Nat) (x : Cell) : Option Store :=
  match p with
  | none => none
  | some a =>
    match Store.load S a with
    | none => none
    | some cells =>
      if i < extent ∧ i < cells.length then some (Store.put S a (cells.set i x)) else none

/-- The loop `for (size_t i = 0; i < n; i++) span(dst, dext)[i] = span(src, sext)[i];`
of the copy constructor, the copy assignment and `Reserve`. -/
def copyLoopAt (src : Option Nat) (sext : Nat) (dst : Option Nat) (dext : Nat) :
    Nat → Store → Option Store
  | 0, S => some S
  | n + 1, S => do
    let S ← copyLoopAt src sext dst dext n S
    let x ← spanLoadAt S src sext n
    spanStoreAt S dst dext n x

/-- The data members of `class Vector`, `begin_` being an address. -/
structure Vector where
  begin_ : Option Nat
  size_ : Nat
  capacity_ : Nat
deriving DecidableEq, Repr

namespace Vector

/-- `Vector(const Vector& data)`: the store afterwards and the new object. -/
def copy (alloc : Allocator) (S : Store) (data : Vector) : Option (Store × Vector) := do
  let (p, S) := newIntsAt alloc S data.capacity_
  let S ← copyLoopAt data.begin_ data.capacity_ (some p) data.capacity_ data.size_ S
  pure (S, { begin_ := some p, size_ := data.size_, capacity_ := data.capacity_ })

/-- The body of `operator=(const Vector& data)` on `self`, entered when
`&data != this`. -/
def copyAssign (alloc : Allocator) (S : Store) (self data : Vector) :
    Option (Store × Vector) := do
  let S ← deleteAt S self.begin_
  let (p, S) := newIntsAt alloc S data.capacity_
  let S ← copyLoopAt data.begin_ data.capacity_ (some p) data.capacity_ data.size_ S
  pure (S, { begin_ := some p, size_ := data.size_, capacity_ := data.capacity_ })

/-- Reading `operator[](i)`: `none` when the access is undefined or the
value is indeterminate. -/
def get (S : Store) (v : Vector) (i : Nat) : Option Int :=
  (spanLoadAt S v.begin_ v.capacity_ i).bind id

/-- Writing `operator[](i) = x`. -/
def set (S : Store) (v : Vector) (i : Nat) (x : Int) : Option (Store × Vector) := do
  let S ← spanStoreAt S v.begin_ v.capacity_ i (some x)
  pure (S, v)

/-- `Reserve(capacity)`. -/
def Reserve (alloc : Allocator) (S : Store) (v : Vector) (capacity : Nat) :
    Option (Store × Vector) :=
  if capacity > v.capacity_ then do
    let (new_begin, S) := newIntsAt alloc S capacity
    let S ← copyLoopAt v.begin_ v.capacity_ (some new_begin) v.capacity_ v.size_ S
    let S ← deleteAt S v.begin_
    pure (S, { begin_ := some new_begin, size_ := v.size_, capacity_ := capacity })
  else
    pure (S, v)

/-- `PushBack(x)`. -/
def PushBack (alloc : Allocator) (S : Store) (v : Vector) (x : Int) :
    Option (Store × Vector) := do
  let (S, v) ← if v.size_ = v.capacity_ then
      (if v.capacity_ = 0 then Reserve alloc S v 1
       else Reserve alloc S v (v.capacity_ * 2 % SIZE_MOD))
    else pure (S, v)
  let S ← spanStoreAt S v.begin_ v.capacity_ v.size_ (some x)
  pure (S, { v with size_ := (v.size_ + 1) % SIZE_MOD })

/-- `PopBack()`. -/
def PopBack (v : Vector) : Vector :=
  { v with size_ := if v.size_ = 0 then SIZE_MOD - 1 else v.size_ - 1 }

/-- `Clear()`. -/
def Clear (v : Vector) : Vector := { v with size_ := 0 }

/-- The buffer agrees with `capacity_`: `begin_` is null with capacity 0, or
is the address of an allocated array of exactly `capacity_` cells. -/
def OwnedAt (S : Store) (v : Vector) : Prop :=
  match v.begin_ with
  | none => v.capacity_ = 0
  | some p => (Store.load S p).map List.length = some v.capacity_

end Vector

/-- The state of a program: the store of arrays and the `Vector` objects by
address. -/
structure Memory where
  store : Store
  objs : Nat → Vector

namespace Memory

/-- The state in which the object at `this` is `r.2` and the store is `r.1`. -/
def update (σ : Memory) (this : Nat) (r : Store × Vector) : Memory :=
  { store := r.1, objs := fun o => if o = this then r.2 else σ.objs o }

/-- `Vector(const Vector& data)` constructing the object at `this`. -/
def copy (alloc : Allocator) (σ : Memory) (this data : Nat) : Option Memory :=
  (Vector.copy alloc σ.store (σ.objs data)).map (σ.update this)

/-- `operator=(const Vector& data)` on the object at `this`. -/
def copyAssign (alloc : Allocator) (σ : Memory) (this data : Nat) : Option Memory :=
  if data ≠ this then
    (Vector.copyAssign alloc σ.store (σ.objs this) (σ.objs data)).map (σ.update this)
  else some σ

/-- `Size()` of the object at `this`. -/
def Size (σ : Memory) (this : Nat) : Nat := (σ.objs this).size_

/-- `Capacity()` of the object at `this`. -/
def Capacity (σ : Memory) (this : Nat) : Nat := (σ.objs this).capacity_

/-- Reading `operator[](i)` of the object at `this`. -/
def get (σ : Memory) (this i : Nat) : Option Int := Vector.get σ.store (σ.objs this) i

/-- Writing `operator[](i) = x` of the object at `this`. -/
def set (σ : Memory) (this i : Nat) (x : Int) : Option Memory :=
  (Vector.set σ.store (σ.objs this) i x).map (σ.update this)

/-- `PushBack(x)` on the object at `this`. -/
def PushBack (alloc : Allocator) (σ : Memory) (this : Nat) (x : Int) : Option Memory :=
  (Vector.PushBack alloc σ.store (σ.objs this) x).map (σ.update this)

/-- `PopBack()` on the object at `this`. -/
def PopBack (σ : Memory) (this : Nat) : Memory :=
  σ.update this (σ.store, (σ.objs this).PopBack)

/-- `Clear()` on the object at `this`. -/
def Clear (σ : Memory) (this : Nat) : Memory :=
  σ.update this (σ.store, (σ.objs this).Clear)

end Memory

/-- A call that changes a vector: a write through `operator[]`, `PushBack`,
`PopBack` or `Clear`. -/
inductive Mutation where
  | write (i : Nat) (x : Int)
  | PushBack (x : Int)
  | PopBack
  | Clear
deriving DecidableEq, Repr

/-- The call `m` on the object at `this`. -/
def Mutation.apply (alloc : Allocator) (this : Nat) : Mutation → Memory → Option Memory
  | Mutation.write i x, σ => σ.set this i x
  | Mutation.PushBack x, σ => σ.PushBack alloc this x
  | Mutation.PopBack, σ => some (σ.PopBack this)
  | Mutation.Clear, σ => some (σ.Clear this)

/-- The calls `ms` in order on the object at `this`. -/
def mutate (alloc : Allocator) (this : Nat) : List Mutation → Memory → Option Memory
  | [], σ => some σ
  | m :: ms, σ => (m.apply alloc this σ).bind (mutate alloc this ms)

/-- The calls `ms` in order, each on the object at the address given with it. -/
def mutateEach (alloc : Allocator) : List (Nat × Mutation) → Memory → Option Memory
  | [], σ => some σ
  | (o, m) :: ms, σ => (m.apply alloc o σ).bind (mutateEach alloc ms)

/-- The object at `o` has in `τ` the `Size()`, the `Capacity()` and the value
of every `operator[](i)` it has in `σ`. -/
def Unchanged (σ τ : Memory) (o : Nat) : Prop :=
  τ.Size o = σ.Size o ∧ τ.Capacity o = σ.Capacity o ∧ ∀ i, τ.get o i = σ.get o i

/-- The buffer of the object at `o`, if it has one, is an allocated array and
is not the buffer of the object at `this`. -/
def Apart (σ : Memory) (o this : Nat) : Prop :=
  ∀ q, (σ.objs o).begin_ = some q →
    (Store.load σ.store q).isSome = true ∧ (σ.objs this).begin_ ≠ some q

/-- In `τ` the object at `b` is a copy of the object at `a` as it is in `σ`,
and the two are independent: `b` has the size, the capacity and the elements
of `a`; `a` is as it was; calls that change one of the two from `τ` on leave
the other as it is in `τ`; and in every state reached from `τ` by calls on
the two, in any order, a call on one of them leaves the other unchanged. -/
def CopyOf (alloc : Allocator) (σ τ : Memory) (a b : Nat) : Prop :=
  τ.Size b = σ.Size a ∧ τ.Capacity b = σ.Capacity a ∧
  (∀ i, i < σ.Size a → τ.get b i = σ.get a i) ∧
  Unchanged σ τ a ∧
  (∀ ms ρ, mutate alloc b ms τ = some ρ → Unchanged τ ρ a) ∧
  (∀ ms ρ, mutate alloc a ms τ = some ρ → Unchanged τ ρ b) ∧
  (∀ (ms : List (Nat × Mutation)) (ρ : Memory),
    (∀ e, e ∈ ms → e.1 = a ∨ e.1 = b) → mutateEach alloc ms τ = some ρ →
    ∀ (m : Mutation) (ρ2 : Memory), (m.apply alloc b ρ = some ρ2 → Unchanged ρ ρ2 a) ∧
      (m.apply alloc a ρ = some ρ2 → Unchanged ρ ρ2 b))

/-- A state with two vectors: at address 0 a vector of size 2 and capacity 3
with the elements 1, 2 in the array at 7, at address 1 a vector of size 1 and
capacity 1 with the element 5 in the array at 9. -/
def exampleMemory : Memory :=
  { store := [(7, [some 1, some 2, none]), (9, [some 5])],
    objs := fun o =>
      if o = 0 then { begin_ := some 7, size_ := 2, capacity_ := 3 }
      else { begin_ := some 9, size_ := 1, capacity_ := 1 } }

end Addr

/-! ## Memory model of `ListHook` and `List<T>`

Hooks are identified by their addresses, natural numbers.  The state of the
program is the pair of fields `prev_`, `next_` of every hook; a hook as
constructed has both fields pointing to itself.  A `List<T>` is given by the
address of its sentinel `dummy_`; an element is given by the address of the
`ListHook` it derives from.  The counter of `Size()` is a natural number:
the hooks of a ring have different addresses, fewer than `2 ^ 64` of them,
so the `size_t` counter does not wrap.
-/

/-- The fields `prev_` and `next_` of every hook, by address. -/
structure Heap where
  prev_ : Nat → Nat
  next_ : Nat → Nat

namespace Heap

/-- Every hook as constructed: `prev_ = this`, `next_ = this`. -/
def init : Heap := { prev_ := fun a => a, next_ := fun a => a }

/-- The assignment `a->prev_ = v`. -/
def setPrev (h : Heap) (a v : Nat) : Heap :=
  { h with prev_ := fun x => if x = a then v else h.prev_ x }

/-- The assignment `a->next_ = v`. -/
def setNext (h : Heap) (a v : Nat) : Heap :=
  { h with next_ := fun x => if x = a then v else h.next_ x }

end Heap

namespace ListHook

/-- `IsLinked()`. -/
def IsLinked (h : Heap) (this : Nat) : Bool := h.next_ this != this

/-- `Unlink()`. -/
def Unlink (h : Heap) (this : Nat) : Heap :=
  let h := h.setNext (h.prev_ this) (h.next_ this)
  let h := h.setPrev (h.next_ this) (h.prev_ this)
  let h := h.setPrev this this
  h.setNext this this

/-- `LinkAfter(other)`. -/
def LinkAfter (h : Heap) (this other : Nat) : Heap :=
  let h := Unlink h other
  let h := h.setPrev other this
  let h := h.setNext other (h.next_ this)
  let h := h.setPrev (h.next_ this) other
  h.setNext this other

end ListHook

namespace List

/-- `IsEmpty()`. -/
def IsEmpty (h : Heap) (dummy : Nat) : Bool := !ListHook.IsLinked h dummy

/-- The loop of `Size()`, `while (k != &dummy_) { k = k->next_; count++; }`,
run for at most `fuel` tests of its condition; `none` when they do not
suffice. -/
def SizeLoop (h : Heap) (dummy : Nat) : Nat → Nat → Nat → Option Nat
  | 0, _, _ => none
  | fuel + 1, k, count =>
    if k ≠ dummy then SizeLoop h dummy fuel (h.next_ k) (count + 1) else some count

/-- `Size()`. -/
def Size (h : Heap) (dummy : Nat) (fuel : Nat) : Option Nat :=
  SizeLoop h dummy fuel (h.next_ dummy) 0

/-- `PushBack(elem)`. -/
def PushBack (h : Heap) (dummy elem : Nat) : Heap :=
  ListHook.LinkAfter h (h.prev_ dummy) elem

/-- `PushFront(elem)`. -/
def PushFront (h : Heap) (dummy elem : Nat) : Heap :=
  ListHook.LinkAfter h dummy elem

/-- `Front()`, as the address of the element's hook. -/
def Front (h : Heap) (dummy : Nat) : Nat := h.next_ dummy

/-- `Back()`, as the address of the element's hook. -/
def Back (h : Heap) (dummy : Nat) : Nat := h.prev_ dummy

/-- `PopBack()`. -/
def PopBack (h : Heap) (dummy : Nat) : Heap := ListHook.Unlink h (h.prev_ dummy)

/-- `PopFront()`. -/
def PopFront (h : Heap) (dummy : Nat) : Heap := ListHook.Unlink h (h.next_ dummy)

/-- `IteratorTo(element)`: the iterator holding the address of the element's
hook (`it_ = static_cast<ListHook*>(element)`). -/
def IteratorTo (element : Nat) : Nat := element

/-- `Iterator::operator*`: the element whose hook the iterator holds
(`*static_cast<T*>(it_)`). -/
def deref (it : Nat) : Nat := it

/-- The loop `while (dummy_.next_ != &dummy_) dummy_.next_->Unlink();` of the
destructor and of the move assignment, run for at most `fuel` tests of its
condition. -/
def unlinkAll (dummy : Nat) : Nat → Heap → Option Heap
  | 0, _ => none
  | fuel + 1, h =>
    if h.next_ dummy ≠ dummy then unlinkAll dummy fuel (ListHook.Unlink h (h.next_ dummy))
    else some h

/-- `~List()`: the loop, then the destructor of the member `dummy_`, which
calls `Unlink()` on it. -/
def destroy (dummy : Nat) (fuel : Nat) (h : Heap) : Option Heap :=
  (unlinkAll dummy fuel h).map (fun g => ListHook.Unlink g dummy)

/-- The six assignments shared by `List(List&& other)` and
`operator=(List&& other)`. -/
def steal (h : Heap) (dummy other : Nat) : Heap :=
  let h := h.setPrev dummy (h.prev_ other)
  let h := h.setNext dummy (h.next_ other)
  let h := h.setNext (h.prev_ other) dummy
  let h := h.setPrev (h.next_ other) dummy
  let h := h.setPrev other other
  h.setNext other other

/-- `List(List&& other)` for the new list at `dummy`: the member `dummy_` is
first constructed self-linked, then the body runs. -/
def moveCtor (h : Heap) (dummy other : Nat) : Heap :=
  let h := h.setPrev dummy dummy
  let h := h.setNext dummy dummy
  steal h dummy other

/-- `operator=(List&& other)` on the list at `dummy`. -/
def moveAssign (h : Heap) (dummy other : Nat) (fuel : Nat) : Option Heap :=
  if other = dummy then some h
  else do
    let h ← unlinkAll dummy fuel h
    pure (steal h dummy other)

end List

/-- A call on the lists and elements of a program. -/
inductive Op where
  | PushBack (list elem : Nat)
  | PushFront (list elem : Nat)
  | PopBack (list : Nat)
  | PopFront (list : Nat)
  | Unlink (elem : Nat)

/-- The effect of one call. -/
def Op.apply (h : Heap) : Op → Heap
  | Op.PushBack l e => List.PushBack h l e
  | Op.PushFront l e => List.PushFront h l e
  | Op.PopBack l => List.PopBack h l
  | Op.PopFront l => List.PopFront h l
  | Op.Unlink e => ListHook.Unlink h e

/-- The state after the calls `ops`, in order, started from empty lists and
unlinked elements. -/
def run (ops : List Op) : Heap := ops.foldl Op.apply Heap.init

/-- Following `next_` from the hook `k`, the hooks `s` are met in order, none
of them the sentinel `d`, and after them the sentinel `d`. -/
def Chain (h : Heap) (d : Nat) : Nat → List Nat → Prop
  | k, [] => k = d
  | k, x :: s => k = x ∧ x ≠ d ∧ Chain h d (h.next_ x) s

/-- `Chain` is decidable. -/
instance Chain.dec (h : Heap) (d : Nat) : ∀ (k : Nat) (s : List Nat), Decidable (Chain h d k s)
  | k, [] => inferInstanceAs (Decidable (k = d))
  | k, x :: s =>
    have := Chain.dec h d (h.next_ x) s
    inferInstanceAs (Decidable (k = x ∧ x ≠ d ∧ Chain h d (h.next_ x) s))

/-- The iteration of the list at `dummy` from `Begin()` by `++` reaches
`End()` after exactly the elements `s`, front to back. -/
def List.Iterates (h : Heap) (dummy : Nat) (s : List Nat) : Prop :=
  Chain h dummy (h.next_ dummy) s

/-- `List.Iterates` is decidable. -/
instance List.Iterates.dec (h : Heap) (dummy : Nat) (s : List Nat) :
    Decidable (List.Iterates h dummy s) :=
  Chain.dec h dummy (h.next_ dummy) s

/-- The loop `for (it = Begin(); it != End(); ++it)` collecting the elements,
run from the hook `k` for at most `fuel` tests of its condition. -/
def List.walk (h : Heap) (dummy : Nat) : Nat → Nat → Option (List Nat)
  | 0, _ => none
  | fuel + 1, k =>
    if k ≠ dummy then (List.walk h dummy fuel (h.next_ k)).map (fun r => k :: r) else some []

/-- The hooks form rings: `prev_` and `next_` are inverse to each other, and
all hooks from some address on are as constructed. -/
def Heap.WF (h : Heap) : Prop :=
  (∀ a, h.prev_ (h.next_ a) = a) ∧ (∀ a, h.next_ (h.prev_ a) = a) ∧
    ∃ N, ∀ a, N ≤ a → h.next_ a = a

/-! ## Model of the calculator (`src/calculator.h`)

* The stream `in_` is the list of characters not yet read; a stream at end
  of file or with its fail bit set is the empty list (`peek()` then returns
  `-1`).
* `(*in_) >> number_` reads the longest run of decimal digits; when the value
  does not fit `int64_t` it stores the largest `int64_t` and sets the fail
  bit.  `(*in_) >> symbol_` skips white space and reads one character.
* An `Expression` is its tree; `Evaluate` returns `none` where the source has
  undefined behaviour: signed overflow of `int64_t` and division by zero.
* The recursion of `Mult`, `Item` and `Expr` and their loops are bounded by
  `fuel`; `none` is returned when it does not suffice.
-/

namespace Calculator

/-- The largest `int64_t`. -/
def INT64_MAX : Int := 9223372036854775807

/-- The smallest `int64_t`. -/
def INT64_MIN : Int := -9223372036854775808

/-- The result of an `int64_t` operation whose mathematical value is `x`:
`none` on overflow. -/
def int64 (x : Int) : Option Int :=
  if INT64_MIN ≤ x ∧ x ≤ INT64_MAX then some x else none

/-- `Tokenizer::TokenType`. -/
inductive TokenType where
  | kNumber
  | kSymbol
  | kEnd
deriving DecidableEq, Repr

/-- The white space skipped by `operator>>`. -/
def isspace (c : Char) : Bool := c = ' ' || (9 ≤ c.toNat && c.toNat ≤ 13)

/-- The value of a run of decimal digits. -/
def digitsValue (ds : List Char) : Nat :=
  ds.foldl (fun acc c => 10 * acc + (c.toNat - 48)) 0

/-- The data members of `class Tokenizer`. -/
structure Tokenizer where
  in_ : List Char
  type_ : TokenType
  number_ : Int
  symbol_ : Char
deriving DecidableEq, Repr

namespace Tokenizer

/-- `Consume()`. -/
def Consume (t : Tokenizer) : Tokenizer :=
  let s := t.in_.dropWhile (fun c => c = ' ')
  match s with
  | [] => { t with in_ := [], type_ := TokenType.kEnd }
  | c :: _ =>
    if c.isDigit then
      let v := digitsValue (s.takeWhile Char.isDigit)
      if (v : Int) ≤ INT64_MAX then
        { t with in_ := s.dropWhile Char.isDigit, type_ := TokenType.kNumber, number_ := v }
      else
        { t with in_ := [], type_ := TokenType.kNumber, number_ := INT64_MAX }
    else
      match s.dropWhile isspace with
      | [] => { t with in_ := [], type_ := TokenType.kSymbol }
      | x :: rest => { t with in_ := rest, type_ := TokenType.kSymbol, symbol_ := x }

/-- `Tokenizer(std::istream* in)`. -/
def make (input : List Char) : Tokenizer :=
  Consume { in_ := input, type_ := TokenType.kEnd, number_ := 0, symbol_ := '0' }

/-- `GetType()`. -/
def GetType (t : Tokenizer) : TokenType := t.type_

/-- `GetNumber()`. -/
def GetNumber (t : Tokenizer) : Int := t.number_

/-- `GetSymbol()`. -/
def GetSymbol (t : Tokenizer) : Char := t.symbol_

end Tokenizer

/-- The classes `JustNumber`, `UnaryExpression` and `BinaryExpression`. -/
inductive Expression where
  | JustNumber (arg : Int)
  | UnaryExpression (arg : Expression) (sign : Char)
  | BinaryExpression (arg1 arg2 : Expression) (sign : Char)
deriving DecidableEq, Repr

/-- `Evaluate()`. -/
def Expression.Evaluate : Expression → Option Int
  | Expression.JustNumber arg => some arg
  | Expression.UnaryExpression arg sign => do
    let a ← arg.Evaluate
    if sign = '-' then int64 (-a) else some a
  | Expression.BinaryExpression arg1 arg2 sign => do
    let a ← arg1.Evaluate
    let b ← arg2.Evaluate
    if sign = '+' then int64 (a + b)
    else if sign = '-' then int64 (a - b)
    else if sign = '*' then int64 (a * b)
    else if b = 0 then none else int64 (Int.tdiv a b)

mutual

/-- `Mult(tokenizer)`: the expression and the tokenizer afterwards. -/
def Mult : Nat → Tokenizer → Option (Expression × Tokenizer)
  | 0, _ => none
  | fuel + 1, t =>
    if t.GetType = TokenType.kNumber then
      some (Expression.JustNumber t.GetNumber, t.Consume)
    else
      if t.GetSymbol = '-' ∨ t.GetSymbol = '+' then
        match Mult fuel t.Consume with
        | none => none
        | some (b, t2) => some (Expression.UnaryExpression b t.GetSymbol, t2)
      else
        match Expr fuel t.Consume with
        | none => none
        | some (tmp, t2) => some (tmp, t2.Consume)

/-- The `while` loop of `Item`, entered with the expression `a`. -/
def ItemLoop : Nat → Expression → Tokenizer → Option (Expression × Tokenizer)
  | 0, _, _ => none
  | fuel + 1, a, t =>
    if t.GetType = TokenType.kSymbol ∧ (t.GetSymbol = '*' ∨ t.GetSymbol = '/') then
      match Mult fuel t.Consume with
      | none => none
      | some (b, t2) => ItemLoop fuel (Expression.BinaryExpression a b t.GetSymbol) t2
    else some (a, t)

/-- `Item(tokenizer)`. -/
def Item : Nat → Tokenizer → Option (Expression × Tokenizer)
  | 0, _ => none
  | fuel + 1, t =>
    match Mult fuel t with
    | none => none
    | some (a, t2) => ItemLoop fuel a t2

/-- The `while` loop of `Expr`, entered with the expression `a`. -/
def ExprLoop : Nat → Expression → Tokenizer → Option (Expression × Tokenizer)
  | 0, _, _ => none
  | fuel + 1, a, t =>
    if t.GetType = TokenType.kSymbol ∧ (t.GetSymbol = '+' ∨ t.GetSymbol = '-') then
      match Item fuel t.Consume with
      | none => none
      | some (b, t2) => ExprLoop fuel (Expression.BinaryExpression a b t.GetSymbol) t2
    else some (a, t)

/-- `Expr(tokenizer)`. -/
def Expr : Nat → Tokenizer → Option (Expression × Tokenizer)
  | 0, _ => none
  | fuel + 1, t =>
    match Item fuel t with
    | none => none
    | some (a, t2) => ExprLoop fuel a t2

end

/-- `ParseExpression(tokenizer)`. -/
def ParseExpression (fuel : Nat) (t : Tokenizer) : Option (Expression × Tokenizer) :=
  Expr fuel t

/-! ### The grammar of the specification

Addition and subtraction of multiplication-level terms, multiplication and
division of operands, an operand being a number, a signed operand or a
parenthesized expression.  The trees are left-nested: operators of one tier
associate left to right. -/

mutual

/-- An expression: items joined by `+` and `-`. -/
inductive GExpr where
  | item (i : GItem)
  | add (e : GExpr) (i : GItem)
  | sub (e : GExpr) (i : GItem)

/-- An item: operands joined by `*` and `/`. -/
inductive GItem where
  | mult (m : GMult)
  | mul (i : GItem) (m : GMult)
  | div (i : GItem) (m : GMult)

/-- An operand: a number, a signed operand, a parenthesized expression. -/
inductive GMult where
  | num (n : Nat)
  | pos (m : GMult)
  | neg (m : GMult)
  | paren (e : GExpr)

end

/-- A token of the input: a number or a one-character symbol. -/
inductive Tok where
  | num (n : Nat)
  | sym (c : Char)
deriving DecidableEq, Repr

mutual

/-- The tokens of an expression, in order. -/
def GExpr.toks : GExpr → List Tok
  | GExpr.item i => i.toks
  | GExpr.add e i => e.toks ++ Tok.sym '+' :: i.toks
  | GExpr.sub e i => e.toks ++ Tok.sym '-' :: i.toks

/-- The tokens of an item, in order. -/
def GItem.toks : GItem → List Tok
  | GItem.mult m => m.toks
  | GItem.mul i m => i.toks ++ Tok.sym '*' :: m.toks
  | GItem.div i m => i.toks ++ Tok.sym '/' :: m.toks

/-- The tokens of an operand, in order. -/
def GMult.toks : GMult → List Tok
  | GMult.num n => [Tok.num n]
  | GMult.pos m => Tok.sym '+' :: m.toks
  | GMult.neg m => Tok.sym '-' :: m.toks
  | GMult.paren e => Tok.sym '(' :: (e.toks ++ [Tok.sym ')'])

end

mutual

/-- The value of an expression in `int64_t` arithmetic; `none` where that
arithmetic overflows or divides by zero. -/
def GExpr.value : GExpr → Option Int
  | GExpr.item i => i.value
  | GExpr.add e i => do
    let a ← e.value
    let b ← i.value
    int64 (a + b)
  | GExpr.sub e i => do
    let a ← e.value
    let b ← i.value
    int64 (a - b)

/-- The value of an item; division truncates toward zero. -/
def GItem.value : GItem → Option Int
  | GItem.mult m => m.value
  | GItem.mul i m => do
    let a ← i.value
    let b ← m.value
    int64 (a * b)
  | GItem.div i m => do
    let a ← i.value
    let b ← m.value
    if b = 0 then none else int64 (Int.tdiv a b)

/-- The value of an operand. -/
def GMult.value : GMult → Option Int
  | GMult.num n => some n
  | GMult.pos m => m.value
  | GMult.neg m => do
    let a ← m.value
    int64 (-a)
  | GMult.paren e => e.value

end

mutual

/-- The `Expression` tree the parser is to build for an expression. -/
def GExpr.tree : GExpr → Expression
  | GExpr.item i => i.tree
  | GExpr.add e i => Expression.BinaryExpression e.tree i.tree '+'
  | GExpr.sub e i => Expression.BinaryExpression e.tree i.tree '-'

/-- The `Expression` tree the parser is to build for an item. -/
def GItem.tree : GItem → Expression
  | GItem.mult m => m.tree
  | GItem.mul i m => Expression.BinaryExpression i.tree m.tree '*'
  | GItem.div i m => Expression.BinaryExpression i.tree m.tree '/'

/-- The `Expression` tree the parser is to build for an operand. -/
def GMult.tree : GMult → Expression
  | GMult.num n => Expression.JustNumber n
  | GMult.pos m => Expression.UnaryExpression m.tree '+'
  | GMult.neg m => Expression.UnaryExpression m.tree '-'
  | GMult.paren e => e.tree

end

/-- The characters `s` spell the tokens `T`: before each token any number of
spaces, a number written as a non-empty run of digits that fits `int64_t` and
is not followed by a digit, a symbol written as its character (not white
space, not a digit), and any number of spaces at the end. -/
inductive Spelled : List Tok → List Char → Prop where
  | nil (k : Nat) : Spelled [] (List.replicate k ' ')
  | num (k : Nat) (ds : List Char) (T : List Tok) (s : List Char) :
      ds ≠ [] → (∀ c, c ∈ ds → c.isDigit = true) → (digitsValue ds : Int) ≤ INT64_MAX →
      (∀ c, s.head? = some c → c.isDigit = false) → Spelled T s →
      Spelled (Tok.num (digitsValue ds) :: T) (List.replicate k ' ' ++ (ds ++ s))
  | sym (k : Nat) (c : Char) (T : List Tok) (s : List Char) :
      c.isDigit = false → isspace c = false → Spelled T s →
      Spelled (Tok.sym c :: T) (List.replicate k ' ' ++ c :: s)

/-- The tokenizer has the first token of `T` as its current token and the
rest of `T` spelled in its stream. -/
def Holds (t : Tokenizer) : List Tok → Prop
  | [] => t.type_ = TokenType.kEnd ∧ Spelled [] t.in_
  | Tok.num n :: T => t.type_ = TokenType.kNumber ∧ t.number_ = n ∧ Spelled T t.in_
  | Tok.sym c :: T => t.type_ = TokenType.kSymbol ∧ t.symbol_ = c ∧ Spelled T t.in_

/-- The tokens do not begin with the symbol `a` or the symbol `b`. -/
def NotAhead (a b : Char) (T : List Tok) : Prop :=
  ∀ c, T.head? = some (Tok.sym c) → c ≠ a ∧ c ≠ b

/-- `ParseExpression` on a tokenizer constructed over `input`, followed by
`Evaluate()`; the outer `none` is a parse that needs more `fuel`. -/
def calculate (fuel : Nat) (input : String) : Option (Option Int) :=
  (ParseExpression fuel (Tokenizer.make input.toList)).map (fun r => r.1.Evaluate)

end Calculator

/-! ## Lemmas on the array loops -/

theorem set_take_drop {α : Type} (sc dc : List α) (n : Nat) (x : α)
    (hs : sc[n]? = some x) (hd : n < dc.length) :
    (sc.take n ++ dc.drop n).set n x = sc.take (n + 1) ++ dc.drop (n + 1) := by
  have hlt : n < sc.length := by
    rcases Nat.lt_or_ge n sc.length with h | h
    · exact h
    · rw [List.getElem?_eq_none h] at hs; cases hs
  apply List.ext_getElem?
  intro i
  rw [List.getElem?_set]
  simp only [List.getElem?_append, List.length_take, List.getElem?_take, List.getElem?_drop,
    List.length_append, List.length_drop]
  have e1 : min n sc.length = n := by omega
  have e2 : min (n+1) sc.length = n + 1 := by omega
  simp only [e1, e2]
  by_cases h1 : n = i
  · subst h1
    simp [hs]; omega
  · by_cases h2 : i < n
    · have : i < n + 1 := by omega
      simp [h1, h2, this]
    · have : ¬ i < n + 1 := by omega
      simp [h1, h2, this]
      congr 1; omega

theorem take_set_succ {α : Type} (l : List α) (n : Nat) (y : α) (h : n < l.length) :
    (l.set n y).take (n + 1) = l.take n ++ [y] := by
  induction l generalizing n with
  | nil => simp at h
  | cons a t ih =>
    cases n with
    | zero => simp
    | succ k =>
      simp only [List.length_cons] at h
      simp [ih k (by omega)]

theorem copyLoop_some (sc dc : List Cell) (sext dext : Nat) :
    ∀ n, n ≤ sext → n ≤ sc.length → n ≤ dext → n ≤ dc.length →
      copyLoop (some sc) sext dext n (some dc) = some (some (sc.take n ++ dc.drop n))
  | 0, _, _, _, _ => by simp [copyLoop]
  | n + 1, h1, h2, h3, h4 => by
    have ih := copyLoop_some sc dc sext dext n (by omega) (by omega) (by omega) (by omega)
    have hx : sc[n]? = some sc[n] := List.getElem?_eq_getElem (by omega)
    have hl : n < (sc.take n ++ dc.drop n).length := by
      simp only [List.length_append, List.length_take, List.length_drop]; omega
    simp only [copyLoop, ih, Option.bind_eq_bind, Option.some_bind, spanLoad, spanStore,
      show n < sext from by omega, show n < dext from by omega, hx, hl, if_true, and_self]
    rw [set_take_drop sc dc n _ hx (by omega)]

namespace Vector

theorem copyLoop_owned (v : Vector) (ho : v.Owned) (hs : v.size_ ≤ v.capacity_)
    (m : Nat) (hm : v.size_ ≤ m) :
    copyLoop v.begin_ v.capacity_ v.capacity_ v.size_ (newInts m) =
      some (some (v.live ++ List.replicate (m - v.size_) none)) := by
  unfold Owned at ho
  unfold live cells
  cases hb : v.begin_ with
  | none =>
    rw [hb] at ho
    have h0 : v.size_ = 0 := by simp at ho; omega
    simp [h0, copyLoop, newInts]
  | some c =>
    rw [hb] at ho
    simp only at ho
    rw [newInts, copyLoop_some c _ _ _ _ (by omega) (by omega) (by omega) (by simp; omega)]
    simp [List.drop_replicate]

theorem live_length (v : Vector) (ho : v.Owned) (hs : v.size_ ≤ v.capacity_) :
    v.live.length = v.size_ := by
  unfold Owned at ho
  unfold live cells
  cases hb : v.begin_ with
  | none => rw [hb] at ho; simp at ho ⊢; omega
  | some c => rw [hb] at ho; simp at ho ⊢; omega

theorem grown_owned (v : Vector) (ho : v.Owned) (hs : v.size_ ≤ v.capacity_)
    (c : Nat) (hc : v.size_ ≤ c) : (v.grown c).Owned := by
  have := live_length v ho hs
  simp only [Owned, grown, List.length_append, List.length_replicate]
  omega

theorem grown_live (v : Vector) (ho : v.Owned) (hs : v.size_ ≤ v.capacity_) (c : Nat) :
    (v.grown c).live = v.live := by
  have hl := live_length v ho hs
  simp only [live, cells, grown, Option.getD_some]
  have : List.take v.size_ (List.take v.size_ (v.begin_.getD []) ++
      List.replicate (c - v.size_) none) = List.take v.size_ (v.begin_.getD []) := by
    have h2 : (List.take v.size_ (v.begin_.getD [])).length = v.size_ := hl
    conv_lhs => rw [← h2]
    rw [h2]
    rw [List.take_append_of_le_length (by omega)]
    simp
  exact this

theorem get_of_live (v : Vector) (ho : v.Owned) (hs : v.size_ ≤ v.capacity_)
    (i : Nat) (hi : i < v.size_) : v.get i = (v.live[i]?).bind id := by
  unfold Owned at ho
  unfold get live cells spanLoad
  cases hb : v.begin_ with
  | none => rw [hb] at ho; simp at ho; omega
  | some c =>
    simp only [Option.getD_some, show i < v.capacity_ from by omega, if_true,
      List.getElem?_take, hi]

theorem copy_spec (v : Vector) (ho : v.Owned) (hs : v.size_ ≤ v.capacity_) :
    v.copy = some (v.grown v.capacity_) := by
  simp [copy, copyLoop_owned v ho hs v.capacity_ hs, grown]

theorem copyAssign_spec (self v : Vector) (ho : v.Owned) (hs : v.size_ ≤ v.capacity_) :
    self.copyAssign v = some (v.grown v.capacity_) := by
  simp [copyAssign, copyLoop_owned v ho hs v.capacity_ hs, grown]

theorem Reserve_grow (v : Vector) (ho : v.Owned) (hs : v.size_ ≤ v.capacity_)
    (c : Nat) (hc : c > v.capacity_) : v.Reserve c = some (v.grown c) := by
  simp [Reserve, hc, copyLoop_owned v ho hs c (by omega), grown]

theorem Reserve_keep (v : Vector) (c : Nat) (hc : c ≤ v.capacity_) :
    v.Reserve c = some v := by
  simp [Reserve, Nat.not_lt.mpr hc]

theorem store_owned (v : Vector) (ho : v.Owned) (hs : v.size_ < v.capacity_) (x : Int) :
    ∃ c, v.begin_ = some c ∧ c.length = v.capacity_ ∧
      spanStore v.begin_ v.capacity_ v.size_ (some x) = some (some (c.set v.size_ (some x))) := by
  unfold Owned at ho
  cases hb : v.begin_ with
  | none => rw [hb] at ho; simp at ho; omega
  | some c =>
    rw [hb] at ho
    simp only at ho
    refine ⟨c, rfl, ho, ?_⟩
    simp [spanStore, hs, ho]

/-- The effect of `PushBack` on a vector whose buffer agrees with its
capacity. -/
theorem PushBack_spec (v : Vector) (x : Int) (ho : v.Owned) (hs : v.size_ ≤ v.capacity_)
    (hb : v.size_ < 2 ^ 63) :
    ∃ w, v.PushBack x = some w ∧ w.Owned ∧ w.size_ = v.size_ + 1 ∧
      w.capacity_ = (if v.size_ = v.capacity_ then
        (if v.capacity_ = 0 then 1 else 2 * v.capacity_) else v.capacity_) ∧
      w.live = v.live ++ [some x] := by
  have hM : SIZE_MOD = 18446744073709551616 := rfl
  have hb2 : v.size_ < 9223372036854775808 := by simpa using hb
  have key : ∀ u : Vector, u.Owned → u.size_ < u.capacity_ → u.size_ = v.size_ →
      ∃ w, (do
        let p ← spanStore u.begin_ u.capacity_ u.size_ (some x)
        pure { u with begin_ := p, size_ := (u.size_ + 1) % SIZE_MOD } : Option Vector) = some w ∧
        w.Owned ∧ w.size_ = u.size_ + 1 ∧ w.capacity_ = u.capacity_ ∧
        w.live = u.live ++ [some x] := by
    intro u huo hus hub
    obtain ⟨c, hc, hlen, hst⟩ := store_owned u huo hus x
    have hmod : (u.size_ + 1) % SIZE_MOD = u.size_ + 1 := by
      rw [hM]; omega
    refine ⟨_, by rw [hst]; rfl, ?_, ?_, ?_, ?_⟩
    · simp [Owned, hlen]
    · simp [hmod]
    · simp
    · simp only [live, cells, Option.getD_some, hmod, hc]
      exact take_set_succ c u.size_ (some x) (by omega)
  by_cases he : v.size_ = v.capacity_
  · by_cases h0 : v.capacity_ = 0
    · have hr : v.Reserve 1 = some (v.grown 1) := Reserve_grow v ho hs 1 (by omega)
      obtain ⟨w, hw, hwo, hws, hwc, hwl⟩ := key (v.grown 1)
        (grown_owned v ho hs 1 (by omega)) (by simp [grown]; omega) (by simp [grown])
      refine ⟨w, ?_, hwo, by simpa [grown] using hws, ?_, ?_⟩
      · simp only [PushBack, he, h0, if_true, hr, Option.bind_eq_bind, Option.some_bind]
        simpa [he, h0] using hw
      · simp [he, h0]; simpa [grown] using hwc
      · rw [hwl, grown_live v ho hs]
    · have hmod : v.capacity_ * 2 % SIZE_MOD = 2 * v.capacity_ := by rw [hM]; omega
      have hr : v.Reserve (2 * v.capacity_) = some (v.grown (2 * v.capacity_)) :=
        Reserve_grow v ho hs _ (by omega)
      obtain ⟨w, hw, hwo, hws, hwc, hwl⟩ := key (v.grown (2 * v.capacity_))
        (grown_owned v ho hs _ (by omega)) (by simp [grown]; omega)
        (by simp [grown])
      refine ⟨w, ?_, hwo, by simpa [grown] using hws, ?_, ?_⟩
      · simp only [PushBack, he, h0, if_true, if_false, hmod, hr, Option.bind_eq_bind,
          Option.some_bind]
        simpa [he, h0] using hw
      · simp [he, h0]; simpa [grown] using hwc
      · rw [hwl, grown_live v ho hs]
  · obtain ⟨w, hw, hwo, hws, hwc, hwl⟩ := key v ho (by omega) rfl
    refine ⟨w, ?_, hwo, hws, by simp [he, hwc], hwl⟩
    simp only [PushBack, he, if_false, Option.bind_eq_bind, Option.pure_def, Option.some_bind]
    exact hw

theorem pushAll_spec (xs : List Int) : ∀ (v : Vector), v.Owned → v.size_ ≤ v.capacity_ →
    v.size_ + xs.length ≤ 2 ^ 63 →
    ∃ w, v.pushAll xs = some w ∧ w.Owned ∧ w.size_ = v.size_ + xs.length ∧
      w.size_ ≤ w.capacity_ ∧ w.live = v.live ++ xs.map some := by
  induction xs with
  | nil => intro v ho hs _; exact ⟨v, rfl, ho, by simp, hs, by simp⟩
  | cons x xs ih =>
    intro v ho hs hb
    simp only [List.length_cons] at hb
    obtain ⟨w, hw, hwo, hws, hwc, hwl⟩ := PushBack_spec v x ho hs (by omega)
    have hwsc : w.size_ ≤ w.capacity_ := by
      rw [hws, hwc]; split_ifs <;> omega
    obtain ⟨u, hu, huo, hus, husc, hul⟩ := ih w hwo hwsc (by omega)
    refine ⟨u, ?_, huo, ?_, husc, ?_⟩
    · simp [pushAll, hw, hu]
    · simp only [List.length_cons]; omega
    · simp [hul, hwl]

theorem popN_step (v : Vector) (m : Nat) : v.popN (m + 1) = v.PopBack.popN m := by
  unfold popN; exact Function.iterate_succ_apply _ _ _

theorem PopBack_begin (v : Vector) : v.PopBack.begin_ = v.begin_ := by
  simp only [PopBack]

theorem PopBack_capacity (v : Vector) : v.PopBack.capacity_ = v.capacity_ := by
  simp only [PopBack]

theorem PopBack_size (v : Vector) (h : 0 < v.size_) : v.PopBack.size_ = v.size_ - 1 := by
  have : v.size_ ≠ 0 := by omega
  simp only [PopBack, this, if_false]

theorem popN_spec (m : Nat) : ∀ (v : Vector), m ≤ v.size_ →
    (v.popN m).begin_ = v.begin_ ∧ (v.popN m).capacity_ = v.capacity_ ∧
      (v.popN m).size_ = v.size_ - m := by
  induction m with
  | zero => intro v _; exact ⟨rfl, rfl, (Nat.sub_zero _).symm⟩
  | succ m ih =>
    intro v hm
    have hp : v.PopBack.size_ = v.size_ - 1 := PopBack_size v (by omega)
    obtain ⟨h1, h2, h3⟩ := ih v.PopBack (by omega)
    refine ⟨?_, ?_, ?_⟩
    · exact (congrArg Vector.begin_ (popN_step v m)).trans (h1.trans (PopBack_begin v))
    · exact (congrArg Vector.capacity_ (popN_step v m)).trans
        (h2.trans (PopBack_capacity v))
    · refine (congrArg Vector.size_ (popN_step v m)).trans (h3.trans ?_)
      omega

theorem Reserve_spec (v : Vector) (ho : v.Owned) (hs : v.size_ ≤ v.capacity_) (c : Nat) :
    ∃ w, v.Reserve c = some w ∧ w.Owned ∧ w.size_ = v.size_ ∧
      w.capacity_ = max v.capacity_ c ∧ w.live = v.live := by
  by_cases hc : c > v.capacity_
  · refine ⟨v.grown c, Reserve_grow v ho hs c hc, grown_owned v ho hs c (by omega), rfl, ?_,
      grown_live v ho hs c⟩
    simp only [grown]; omega
  · refine ⟨v, Reserve_keep v c (by omega), ho, rfl, ?_, rfl⟩
    omega

theorem copy_spec2 (v : Vector) (ho : v.Owned) (hs : v.size_ ≤ v.capacity_) :
    ∃ w, v.copy = some w ∧ w.Owned ∧ w.size_ = v.size_ ∧
      w.capacity_ = v.capacity_ ∧ w.live = v.live :=
  ⟨v.grown v.capacity_, copy_spec v ho hs, grown_owned v ho hs _ hs, rfl, rfl,
    grown_live v ho hs _⟩

theorem copyAssign_spec2 (self v : Vector) (ho : v.Owned) (hs : v.size_ ≤ v.capacity_) :
    ∃ w, self.copyAssign v = some w ∧ w.Owned ∧ w.size_ = v.size_ ∧
      w.capacity_ = v.capacity_ ∧ w.live = v.live :=
  ⟨v.grown v.capacity_, copyAssign_spec self v ho hs, grown_owned v ho hs _ hs, rfl, rfl,
    grown_live v ho hs _⟩

/-- The effect of `Swap` on two vectors whose buffers agree with their
capacities. -/
theorem Swap_spec (a b : Vector) (hao : a.Owned) (hbo : b.Owned)
    (has : a.size_ ≤ a.capacity_) (hbs : b.size_ ≤ b.capacity_) :
    ∃ a2 b2, a.Swap b = some (a2, b2) ∧ a2.Owned ∧ b2.Owned ∧
      a2.size_ = b.size_ ∧ a2.capacity_ = max a.capacity_ b.capacity_ ∧ a2.live = b.live ∧
      b2.size_ = a.size_ ∧ b2.capacity_ = max a.capacity_ b.capacity_ ∧ b2.live = a.live := by
  obtain ⟨tmp, ht, hto, hts, htc, htl⟩ := copy_spec2 a hao has
  obtain ⟨s1, hs1, hs1o, hs1s, hs1c, hs1l⟩ := copyAssign_spec2 a b hbo hbs
  obtain ⟨d1, hd1, hd1o, hd1s, hd1c, hd1l⟩ := copyAssign_spec2 b tmp hto (by omega)
  obtain ⟨s2, hs2, hs2o, hs2s, hs2c, hs2l⟩ := Reserve_spec s1 hs1o (by omega)
    (max a.capacity_ s1.size_)
  obtain ⟨d2, hd2, hd2o, hd2s, hd2c, hd2l⟩ := Reserve_spec d1 hd1o (by omega)
    (max b.capacity_ d1.size_)
  obtain ⟨r, hr, _⟩ := copy_spec2 s2 hs2o (by rw [hs2s, hs2c]; omega)
  refine ⟨s2, d2, ?_, hs2o, hd2o, by omega, ?_, by rw [hs2l, hs1l], by omega, ?_,
    by rw [hd2l, hd1l, htl]⟩
  · simp only [Swap, ht, hs1, hd1, hs2, hd2, hr, Option.bind_eq_bind, Option.some_bind,
      Option.pure_def]
  · rw [hs2c, hs1c, hs1s]; omega
  · rw [hd2c, hd1c, hd1s, htc, hts]; omega

theorem zeroLoop_length (ext : Nat) (c : List Cell) :
    ∀ n, n ≤ ext → n ≤ c.length →
      ∃ c2, zeroLoop ext n (some c) = some (some c2) ∧ c2.length = c.length
  | 0, _, _ => ⟨c, rfl, rfl⟩
  | n + 1, h1, h2 => by
    obtain ⟨c1, hc1, hl1⟩ := zeroLoop_length ext c n (by omega) (by omega)
    refine ⟨c1.set n (some 0), ?_, by simp [hl1]⟩
    simp [zeroLoop, hc1, spanStore, hl1, show n < ext from by omega,
      show n < c.length from by omega]

theorem initLoop_length (ext : Nat) : ∀ (data : List Int) (i : Nat) (c : List Cell),
    i + data.length ≤ ext → i + data.length ≤ c.length →
      ∃ c2, initLoop ext data i (some c) = some (some c2) ∧ c2.length = c.length
  | [], _, c, _, _ => ⟨c, rfl, rfl⟩
  | j :: rest, i, c, h1, h2 => by
    simp only [List.length_cons] at h1 h2
    obtain ⟨c2, hc2, hl2⟩ := initLoop_length ext rest (i + 1) (c.set i (some j))
      (by omega) (by simp; omega)
    refine ⟨c2, ?_, by simpa using hl2⟩
    simp [initLoop, spanStore, show i < ext from by omega, show i < c.length from by omega,
      hc2]

theorem sized_spec (n : Nat) :
    ∃ c, sized n = some (Vector.mk (some c) n n) ∧ c.length = n := by
  obtain ⟨c, hc, hl⟩ := zeroLoop_length n (List.replicate n none) n (le_refl _) (by simp)
  exact ⟨c, by simp [sized, newInts, hc], by simpa using hl⟩

theorem fromList_spec (data : List Int) :
    ∃ c, fromList data = some (Vector.mk (some c) data.length data.length) ∧
      c.length = data.length := by
  obtain ⟨c, hc, hl⟩ := initLoop_length data.length data 0
    (List.replicate data.length none) (by omega) (by simp)
  exact ⟨c, by simp [fromList, newInts, hc], by simpa using hl⟩

theorem owned_nullOnlyIfEmpty (v : Vector) (ho : v.Owned) : v.NullOnlyIfEmpty := by
  intro h
  unfold Owned at ho
  rw [h] at ho
  exact ho

theorem popN_capacity (m : Nat) : ∀ v : Vector, (v.popN m).capacity_ = v.capacity_ := by
  induction m with
  | zero => intro v; rfl
  | succ m ih =>
    intro v
    exact (congrArg Vector.capacity_ (popN_step v m)).trans
      ((ih v.PopBack).trans (PopBack_capacity v))

theorem PushBack_doubled (v : Vector) (x : Int) (ho : v.Owned) (hs : v.size_ ≤ v.capacity_)
    (hb : v.size_ < 2 ^ 63) (hd : v.Doubled ∨ (v.size_ = 0 ∧ v.capacity_ = 0)) :
    ∃ w, v.PushBack x = some w ∧ w.Owned ∧ w.size_ = v.size_ + 1 ∧
      w.size_ ≤ w.capacity_ ∧ w.Doubled := by
  obtain ⟨w, hw, hwo, hws, hwc, _⟩ := PushBack_spec v x ho hs hb
  have hle : w.size_ ≤ w.capacity_ := by
    rw [hws, hwc]; split_ifs <;> omega
  refine ⟨w, hw, hwo, hws, hle, ?_⟩
  rcases hd with ⟨k, hk, _, hlt⟩ | ⟨h0, hc0⟩
  · by_cases he : v.size_ = v.capacity_
    · have hne : v.capacity_ ≠ 0 := by omega
      refine ⟨k + 1, ?_, hle, ?_⟩
      · rw [hwc]; simp only [he, hne, if_true, if_false]; rw [hk, pow_succ]; omega
      · rw [hwc, hws]; simp only [he, hne, if_true, if_false]; omega
    · refine ⟨k, ?_, hle, ?_⟩
      · rw [hwc]; simp only [he, if_false]; exact hk
      · rw [hwc, hws]; simp only [he, if_false]; omega
  · refine ⟨0, ?_, hle, ?_⟩
    · rw [hwc]; simp [h0, hc0]
    · rw [hwc, hws]; simp [h0, hc0]

theorem pushAll_doubled (xs : List Int) : ∀ (v : Vector), v.Owned → v.size_ ≤ v.capacity_ →
    v.size_ + xs.length ≤ 2 ^ 63 → (v.Doubled ∨ (v.size_ = 0 ∧ v.capacity_ = 0)) →
    1 ≤ xs.length →
    ∃ w, v.pushAll xs = some w ∧ w.size_ = v.size_ + xs.length ∧ w.Doubled := by
  induction xs with
  | nil => intro v _ _ _ _ h; simp at h
  | cons x xs ih =>
    intro v ho hs hb hd _
    simp only [List.length_cons] at hb
    obtain ⟨w, hw, hwo, hws, hwle, hwd⟩ := PushBack_doubled v x ho hs (by omega) hd
    cases xs with
    | nil => exact ⟨w, by simp [pushAll, hw], by simpa using hws, hwd⟩
    | cons y ys =>
      obtain ⟨u, hu, hus, hud⟩ := ih w hwo hwle (by omega) (Or.inl hwd) (by simp)
      exact ⟨u, by simp [pushAll, hw] at hu ⊢; exact hu,
        by simp only [List.length_cons] at hus ⊢; omega, hud⟩

end Vector

/-! ## The dynamic array: claims -/

/-- C1: for every list `xs` of `n` integers (at most `2 ^ 63` of them, so that
no `size_t` counter wraps) and every `m ≤ n`, `PushBack` of each value of `xs`
in order on a default-constructed `Vector` followed by `m` calls of `PopBack`
returns a vector with `Size() == n - m` whose element `i`, for every
`i < n - m`, is `xs[i]`. -/
theorem C1_push_pop (xs : List Int) (m : Nat) (hm : m ≤ xs.length)
    (hn : xs.length ≤ 2 ^ 63) :
    ∃ w, Vector.default.pushAll xs = some w ∧ (w.popN m).Size = xs.length - m ∧
      ∀ i, i < xs.length - m → (w.popN m).get i = xs[i]? ∧ (xs[i]?).isSome := by
  obtain ⟨w, hw, hwo, hws, hwc, hwl⟩ := Vector.pushAll_spec xs Vector.default
    (by simp [Vector.Owned, Vector.default]) (by simp [Vector.default])
    (by simpa [Vector.default] using hn)
  have hsz : w.size_ = xs.length := by simpa [Vector.default] using hws
  obtain ⟨pb, pc, ps⟩ := Vector.popN_spec m w (by omega)
  refine ⟨w, hw, by simp [Vector.Size, ps, hsz], ?_⟩
  intro i hi
  have hlive : w.live = xs.map some := by
    simpa [Vector.default, Vector.live, Vector.cells] using hwl
  have hget : (w.popN m).get i = w.get i := by
    simp only [Vector.get, pb, pc]
  have hi2 : i < xs.length := by omega
  rw [hget, Vector.get_of_live w hwo hwc i (by omega), hlive]
  simp [List.getElem?_map, List.getElem?_eq_getElem hi2]

/-- Witness of C1: pushing 10, 20, 30 and popping once. -/
theorem C1_push_pop_witness :
    1 ≤ [10, 20, (30 : Int)].length ∧ [10, 20, (30 : Int)].length ≤ 2 ^ 63 ∧
    ∃ w, Vector.default.pushAll [10, 20, 30] = some w ∧
      (w.popN 1).Size = [10, 20, (30 : Int)].length - 1 ∧
      ∀ i, i < [10, 20, (30 : Int)].length - 1 →
        (w.popN 1).get i = [10, 20, (30 : Int)][i]? ∧ ([10, 20, (30 : Int)][i]?).isSome :=
  ⟨by decide, by norm_num, C1_push_pop [10, 20, 30] 1 (by decide) (by norm_num)⟩

/-- C2: for every `Vector` with `size <= capacity` (its buffer an array of
`capacity_` cells, fewer than `2 ^ 63` elements) and every integer `x`,
`PushBack(x)` returns, and: from `size == capacity == 0` the new
`Capacity()` is 1; from `size == capacity > 0` it is exactly twice the old
capacity; from `size < capacity` it is unchanged; in the growth cases it is at
least the old size plus one. -/
theorem C2_PushBack_capacity (v : Vector) (x : Int) (ho : v.Owned)
    (hs : v.size_ ≤ v.capacity_) (hb : v.size_ < 2 ^ 63) :
    ∃ w, v.PushBack x = some w ∧
      (v.size_ = v.capacity_ → v.capacity_ = 0 → w.Capacity = 1) ∧
      (v.size_ = v.capacity_ → 0 < v.capacity_ → w.Capacity = 2 * v.Capacity) ∧
      (v.size_ < v.capacity_ → w.Capacity = v.Capacity) ∧
      (v.size_ = v.capacity_ → v.Size + 1 ≤ w.Capacity) := by
  obtain ⟨w, hw, _, _, hwc, _⟩ := Vector.PushBack_spec v x ho hs hb
  refine ⟨w, hw, ?_, ?_, ?_, ?_⟩
  · intro he h0; simp [Vector.Capacity, hwc, he, h0]
  · intro he h0
    have : v.capacity_ ≠ 0 := by omega
    simp [Vector.Capacity, hwc, he, this]
  · intro hl
    have : v.size_ ≠ v.capacity_ := by omega
    simp [Vector.Capacity, hwc, this]
  · intro he
    simp only [Vector.Capacity, Vector.Size, hwc, he, if_true]
    split_ifs <;> omega

/-- Witness of C2: `PushBack(7)` on a default-constructed vector. -/
theorem C2_PushBack_capacity_witness :
    Vector.default.Owned ∧ Vector.default.size_ ≤ Vector.default.capacity_ ∧
    Vector.default.size_ < 2 ^ 63 ∧
    ∃ w, Vector.default.PushBack 7 = some w ∧
      (Vector.default.size_ = Vector.default.capacity_ → Vector.default.capacity_ = 0 →
        w.Capacity = 1) ∧
      (Vector.default.size_ = Vector.default.capacity_ → 0 < Vector.default.capacity_ →
        w.Capacity = 2 * Vector.default.Capacity) ∧
      (Vector.default.size_ < Vector.default.capacity_ → w.Capacity = Vector.default.Capacity) ∧
      (Vector.default.size_ = Vector.default.capacity_ →
        Vector.default.Size + 1 ≤ w.Capacity) :=
  ⟨by simp [Vector.Owned, Vector.default], by decide, by norm_num [Vector.default],
    C2_PushBack_capacity Vector.default 7 (by simp [Vector.Owned, Vector.default])
      (by decide) (by norm_num [Vector.default])⟩

/-- C3, the code at a failing input: the move constructor and the move
assignment copy `size_` and `capacity_` and reset only `begin_` of the
source, so the source keeps its `Size()` and `Capacity()`; moving from the
vector `{1, 2, 3}` leaves a source with a null buffer, `Size() == 3` and
`Capacity() == 3`. -/
theorem C3_moved_from_source :
    (∀ src : Vector, (Vector.move src).2.Size = src.Size ∧
      (Vector.move src).2.Capacity = src.Capacity) ∧
    (∀ dst src : Vector, (Vector.moveAssign dst src).2.Size = src.Size ∧
      (Vector.moveAssign dst src).2.Capacity = src.Capacity) ∧
    (Vector.fromList [1, 2, 3]).map (fun src =>
      ((Vector.move src).2.begin_, (Vector.move src).2.Size, (Vector.move src).2.Capacity)) =
      some (none, 3, 3) ∧
    (Vector.fromList [1, 2, 3]).map (fun src =>
      ((Vector.moveAssign Vector.default src).2.begin_,
        (Vector.moveAssign Vector.default src).2.Size,
        (Vector.moveAssign Vector.default src).2.Capacity)) = some (none, 3, 3) :=
  ⟨fun _ => ⟨rfl, rfl⟩, fun _ _ => ⟨rfl, rfl⟩, by decide, by decide⟩

/-- C9, counterexample: for `a = Vector(2)` and a default-constructed `b`,
both with `size <= capacity`, `a.Swap(b)` leaves `a` with `Capacity() == 2`,
where the exchange of the fields leaves it with `Capacity() == 0`. -/
theorem C9_counterexample :
    ∃ a b a2 b2, Vector.sized 2 = some a ∧ b = Vector.default ∧
      a.size_ ≤ a.capacity_ ∧ b.size_ ≤ b.capacity_ ∧
      a.Swap b = some (a2, b2) ∧
      a2.Capacity = 2 ∧ (Vector.exchange a b).1.Capacity = 0 ∧
      a2.Capacity ≠ (Vector.exchange a b).1.Capacity :=
  ⟨⟨some [some 0, some 0], 2, 2⟩, Vector.default, ⟨some [none, none], 0, 2⟩,
    ⟨some [some 0, some 0], 2, 2⟩, by decide, rfl, by decide, by decide, by decide,
    by decide, by decide, by decide⟩

/-- C9, amended: for all vectors `a` and `b` with `size <= capacity` (each
buffer the array of `capacity_` cells), `a.Swap(b)` returns and leaves `a` and
`b` with the same `Size()` and the same element at every index below
`Size()` as the exchange of the buffer, size and capacity fields would;
`Capacity()` of each is the larger of the two capacities before the call. -/
theorem C9_Swap_refines_exchange (a b : Vector) (hao : a.Owned) (hbo : b.Owned)
    (has : a.size_ ≤ a.capacity_) (hbs : b.size_ ≤ b.capacity_) :
    ∃ a2 b2, a.Swap b = some (a2, b2) ∧
      a2.Size = (Vector.exchange a b).1.Size ∧
      (∀ i, i < a2.Size → a2.get i = (Vector.exchange a b).1.get i) ∧
      a2.Capacity = max a.Capacity b.Capacity ∧
      b2.Size = (Vector.exchange a b).2.Size ∧
      (∀ i, i < b2.Size → b2.get i = (Vector.exchange a b).2.get i) ∧
      b2.Capacity = max a.Capacity b.Capacity := by
  obtain ⟨a2, b2, hsw, ha2o, hb2o, ha2s, ha2c, ha2l, hb2s, hb2c, hb2l⟩ :=
    Vector.Swap_spec a b hao hbo has hbs
  refine ⟨a2, b2, hsw, ha2s, ?_, ha2c, hb2s, ?_, hb2c⟩
  · intro i hi
    simp only [Vector.Size] at hi
    have e : (Vector.exchange a b).1 = b := rfl
    rw [e, Vector.get_of_live a2 ha2o (by rw [ha2s, ha2c]; omega) i hi,
      Vector.get_of_live b hbo hbs i (by omega), ha2l]
  · intro i hi
    simp only [Vector.Size] at hi
    have e : (Vector.exchange a b).2 = a := rfl
    rw [e, Vector.get_of_live b2 hb2o (by rw [hb2s, hb2c]; omega) i hi,
      Vector.get_of_live a hao has i (by omega), hb2l]

/-- Witness of the amended C9: the vector of size 2 and capacity 3 holding
`5, 6` swapped with the vector of size 1 and capacity 1 holding `9`.  The
first ends with size 1, the element `9` and capacity 3, the second with size
2, the elements `5, 6` and capacity 3: sizes and elements change places, both
capacities are the larger one, where the exchange of the fields would leave
the first with capacity 1. -/
theorem C9_Swap_refines_exchange_witness :
    (Vector.mk (some [some 5, some 6, none]) 2 3).Owned ∧
    (Vector.mk (some [some 9]) 1 1).Owned ∧
    (Vector.mk (some [some 5, some 6, none]) 2 3).size_ ≤
      (Vector.mk (some [some 5, some 6, none]) 2 3).capacity_ ∧
    (Vector.mk (some [some 9]) 1 1).size_ ≤ (Vector.mk (some [some 9]) 1 1).capacity_ ∧
    (Vector.mk (some [some 5, some 6, none]) 2 3).Swap (Vector.mk (some [some 9]) 1 1) =
      some (Vector.mk (some [some 9, none, none]) 1 3,
        Vector.mk (some [some 5, some 6, none]) 2 3) ∧
    (Vector.exchange (Vector.mk (some [some 5, some 6, none]) 2 3)
      (Vector.mk (some [some 9]) 1 1)).1.Capacity = 1 ∧
    ∃ a2 b2, (Vector.mk (some [some 5, some 6, none]) 2 3).Swap (Vector.mk (some [some 9]) 1 1) =
        some (a2, b2) ∧
      a2.Size = (Vector.exchange (Vector.mk (some [some 5, some 6, none]) 2 3)
        (Vector.mk (some [some 9]) 1 1)).1.Size ∧
      (∀ i, i < a2.Size →
        a2.get i = (Vector.exchange (Vector.mk (some [some 5, some 6, none]) 2 3)
          (Vector.mk (some [some 9]) 1 1)).1.get i) ∧
      a2.Capacity = max (Vector.mk (some [some 5, some 6, none]) 2 3).Capacity
        (Vector.mk (some [some 9]) 1 1).Capacity ∧
      b2.Size = (Vector.exchange (Vector.mk (some [some 5, some 6, none]) 2 3)
        (Vector.mk (some [some 9]) 1 1)).2.Size ∧
      (∀ i, i < b2.Size →
        b2.get i = (Vector.exchange (Vector.mk (some [some 5, some 6, none]) 2 3)
          (Vector.mk (some [some 9]) 1 1)).2.get i) ∧
      b2.Capacity = max (Vector.mk (some [some 5, some 6, none]) 2 3).Capacity
        (Vector.mk (some [some 9]) 1 1).Capacity :=
  ⟨by simp [Vector.Owned], by simp [Vector.Owned], by decide, by decide, by decide, by decide,
    C9_Swap_refines_exchange (Vector.mk (some [some 5, some 6, none]) 2 3)
      (Vector.mk (some [some 9]) 1 1) (by simp [Vector.Owned]) (by simp [Vector.Owned])
      (by decide) (by decide)⟩

/-- C10: for all vectors `a` and `b`, two different objects, with
`size <= capacity` (each buffer the array of `capacity_` cells), `a.Swap(b)`
returns and afterwards `a.Size()` is the former size of `b` with `a[i]` the
former element `i` of `b` for every `i` below it, and `b.Size()` is the
former size of `a` with `b[i]` the former element `i` of `a` for every `i`
below it. -/
theorem C10_Swap_contents (a b : Vector) (hao : a.Owned) (hbo : b.Owned)
    (has : a.size_ ≤ a.capacity_) (hbs : b.size_ ≤ b.capacity_) :
    ∃ a2 b2, a.Swap b = some (a2, b2) ∧
      a2.Size = b.Size ∧ (∀ i, i < b.Size → a2.get i = b.get i) ∧
      b2.Size = a.Size ∧ (∀ i, i < a.Size → b2.get i = a.get i) := by
  obtain ⟨a2, b2, hsw, ha2o, hb2o, ha2s, ha2c, ha2l, hb2s, hb2c, hb2l⟩ :=
    Vector.Swap_spec a b hao hbo has hbs
  refine ⟨a2, b2, hsw, ha2s, ?_, hb2s, ?_⟩
  · intro i hi
    simp only [Vector.Size] at hi
    rw [Vector.get_of_live a2 ha2o (by rw [ha2s, ha2c]; omega) i (by omega),
      Vector.get_of_live b hbo hbs i hi, ha2l]
  · intro i hi
    simp only [Vector.Size] at hi
    rw [Vector.get_of_live b2 hb2o (by rw [hb2s, hb2c]; omega) i (by omega),
      Vector.get_of_live a hao has i hi, hb2l]

/-- Witness of C10: the vector of capacity 2 holding `5` swapped with the
vector of capacity 1 holding `9`. -/
theorem C10_Swap_contents_witness :
    ∃ a2 b2, (Vector.mk (some [some 5, none]) 1 2).Swap (Vector.mk (some [some 9]) 1 1) =
        some (a2, b2) ∧
      a2.Size = (Vector.mk (some [some 9]) 1 1).Size ∧
      (∀ i, i < (Vector.mk (some [some 9]) 1 1).Size →
        a2.get i = (Vector.mk (some [some 9]) 1 1).get i) ∧
      b2.Size = (Vector.mk (some [some 5, none]) 1 2).Size ∧
      (∀ i, i < (Vector.mk (some [some 5, none]) 1 2).Size →
        b2.get i = (Vector.mk (some [some 5, none]) 1 2).get i) :=
  C10_Swap_contents (Vector.mk (some [some 5, none]) 1 2) (Vector.mk (some [some 9]) 1 1)
    (by simp [Vector.Owned]) (by simp [Vector.Owned]) (by decide) (by decide)

/-- C8: `size <= capacity` is an invariant.  It holds after the default,
sized and initializer-list constructors; and for operands that satisfy it
(each buffer the array of `capacity_` cells, so that the call is defined) the
copy and move constructors, the copy and move assignments, `PushBack` (of a
vector with fewer than `2 ^ 63` elements), `Reserve` and `Swap` return, and
it holds for every vector they leave, a moved-from source included; it also
holds after `Clear` and after `PopBack` called with `size > 0`. -/
theorem C8_size_le_capacity :
    Vector.default.size_ ≤ Vector.default.capacity_ ∧
    (∀ n, ∃ v, Vector.sized n = some v ∧ v.size_ ≤ v.capacity_) ∧
    (∀ data, ∃ v, Vector.fromList data = some v ∧ v.size_ ≤ v.capacity_) ∧
    (∀ d : Vector, d.Owned → d.size_ ≤ d.capacity_ →
      ∃ v, d.copy = some v ∧ v.size_ ≤ v.capacity_) ∧
    (∀ d : Vector, d.size_ ≤ d.capacity_ →
      (Vector.move d).1.size_ ≤ (Vector.move d).1.capacity_ ∧
      (Vector.move d).2.size_ ≤ (Vector.move d).2.capacity_) ∧
    (∀ s d : Vector, d.Owned → d.size_ ≤ d.capacity_ →
      ∃ v, s.copyAssign d = some v ∧ v.size_ ≤ v.capacity_) ∧
    (∀ s d : Vector, d.size_ ≤ d.capacity_ →
      (s.moveAssign d).1.size_ ≤ (s.moveAssign d).1.capacity_ ∧
      (s.moveAssign d).2.size_ ≤ (s.moveAssign d).2.capacity_) ∧
    (∀ (v : Vector) (x : Int), v.Owned → v.size_ ≤ v.capacity_ → v.size_ < 2 ^ 63 →
      ∃ w, v.PushBack x = some w ∧ w.size_ ≤ w.capacity_) ∧
    (∀ v : Vector, v.size_ ≤ v.capacity_ → 0 < v.size_ →
      v.PopBack.size_ ≤ v.PopBack.capacity_) ∧
    (∀ v : Vector, v.Clear.size_ ≤ v.Clear.capacity_) ∧
    (∀ (v : Vector) (c : Nat), v.Owned → v.size_ ≤ v.capacity_ →
      ∃ w, v.Reserve c = some w ∧ w.size_ ≤ w.capacity_) ∧
    (∀ a b : Vector, a.Owned → b.Owned → a.size_ ≤ a.capacity_ → b.size_ ≤ b.capacity_ →
      ∃ a2 b2, a.Swap b = some (a2, b2) ∧ a2.size_ ≤ a2.capacity_ ∧
        b2.size_ ≤ b2.capacity_) := by
  refine ⟨le_refl _, ?_, ?_, ?_, ?_, ?_, ?_, ?_, ?_, ?_, ?_, ?_⟩
  · intro n
    obtain ⟨c, hc, _⟩ := Vector.sized_spec n
    exact ⟨_, hc, le_refl _⟩
  · intro data
    obtain ⟨c, hc, _⟩ := Vector.fromList_spec data
    exact ⟨_, hc, le_refl _⟩
  · intro d ho hs
    obtain ⟨w, hw, _, hws, hwc, _⟩ := Vector.copy_spec2 d ho hs
    exact ⟨w, hw, by omega⟩
  · intro d hs
    exact ⟨hs, hs⟩
  · intro s d ho hs
    obtain ⟨w, hw, _, hws, hwc, _⟩ := Vector.copyAssign_spec2 s d ho hs
    exact ⟨w, hw, by omega⟩
  · intro s d hs
    exact ⟨hs, hs⟩
  · intro v x ho hs hb
    obtain ⟨w, hw, _, hws, hwc, _⟩ := Vector.PushBack_spec v x ho hs hb
    refine ⟨w, hw, ?_⟩
    rw [hws, hwc]
    split_ifs <;> omega
  · intro v hs hp
    rw [Vector.PopBack_size v hp, Vector.PopBack_capacity]
    omega
  · intro v
    exact Nat.zero_le _
  · intro v c ho hs
    obtain ⟨w, hw, _, hws, hwc, _⟩ := Vector.Reserve_spec v ho hs c
    exact ⟨w, hw, by omega⟩
  · intro a b hao hbo has hbs
    obtain ⟨a2, b2, hsw, _, _, ha2s, ha2c, _, hb2s, hb2c, _⟩ :=
      Vector.Swap_spec a b hao hbo has hbs
    exact ⟨a2, b2, hsw, by omega, by omega⟩

/-- Witness of C8: `PushBack(7)` on a default-constructed vector, then
`PopBack` on the vector of capacity 2 holding one element. -/
theorem C8_size_le_capacity_witness :
    (∃ w, Vector.default.PushBack 7 = some w ∧ w.size_ ≤ w.capacity_) ∧
    (Vector.mk (some [some 5, none]) 1 2).PopBack.size_ ≤
      (Vector.mk (some [some 5, none]) 1 2).PopBack.capacity_ :=
  ⟨C8_size_le_capacity.2.2.2.2.2.2.2.1 Vector.default 7
      (by simp [Vector.Owned, Vector.default]) (by decide) (by norm_num [Vector.default]),
    C8_size_le_capacity.2.2.2.2.2.2.2.2.1 (Vector.mk (some [some 5, none]) 1 2)
      (by decide) (by decide)⟩

/-- C7, counterexample: `Vector(0)` (and likewise the initializer-list
constructor on the empty list) returns a vector whose buffer `new int[0]` is
not null while its capacity is 0. -/
theorem C7_counterexample :
    (∃ v, Vector.sized 0 = some v ∧ ¬ (v.begin_ = none ↔ v.capacity_ = 0)) ∧
    (∃ v, Vector.fromList [] = some v ∧ ¬ (v.begin_ = none ↔ v.capacity_ = 0)) :=
  ⟨⟨⟨some [], 0, 0⟩, by decide, by decide⟩, ⟨⟨some [], 0, 0⟩, by decide, by decide⟩⟩

/-- C7, amended: a null buffer only with capacity 0.  A default-constructed
vector has a null buffer and capacity 0; after the sized, initializer-list
and copy constructors, the copy assignment, `PushBack`, `Reserve` and `Swap`
(on operands whose buffer is the array of `capacity_` cells, with
`size <= capacity`), and for the destination of a move construction or move
assignment, and after `PopBack` and `Clear`, every vector with a null buffer
has capacity 0.  (A moved-from source is not covered.) -/
theorem C7_null_only_if_empty :
    (Vector.default.begin_ = none ∧ Vector.default.capacity_ = 0) ∧
    (∀ n, ∃ v, Vector.sized n = some v ∧ v.NullOnlyIfEmpty) ∧
    (∀ data, ∃ v, Vector.fromList data = some v ∧ v.NullOnlyIfEmpty) ∧
    (∀ d : Vector, d.Owned → d.size_ ≤ d.capacity_ →
      ∃ v, d.copy = some v ∧ v.NullOnlyIfEmpty) ∧
    (∀ d : Vector, d.NullOnlyIfEmpty → (Vector.move d).1.NullOnlyIfEmpty) ∧
    (∀ s d : Vector, d.Owned → d.size_ ≤ d.capacity_ →
      ∃ v, s.copyAssign d = some v ∧ v.NullOnlyIfEmpty) ∧
    (∀ s d : Vector, d.NullOnlyIfEmpty → (s.moveAssign d).1.NullOnlyIfEmpty) ∧
    (∀ (v : Vector) (x : Int), v.Owned → v.size_ ≤ v.capacity_ → v.size_ < 2 ^ 63 →
      ∃ w, v.PushBack x = some w ∧ w.NullOnlyIfEmpty) ∧
    (∀ v : Vector, v.NullOnlyIfEmpty → v.PopBack.NullOnlyIfEmpty) ∧
    (∀ v : Vector, v.NullOnlyIfEmpty → v.Clear.NullOnlyIfEmpty) ∧
    (∀ (v : Vector) (c : Nat), v.Owned → v.size_ ≤ v.capacity_ →
      ∃ w, v.Reserve c = some w ∧ w.NullOnlyIfEmpty) ∧
    (∀ a b : Vector, a.Owned → b.Owned → a.size_ ≤ a.capacity_ → b.size_ ≤ b.capacity_ →
      ∃ a2 b2, a.Swap b = some (a2, b2) ∧ a2.NullOnlyIfEmpty ∧ b2.NullOnlyIfEmpty) := by
  refine ⟨⟨rfl, rfl⟩, ?_, ?_, ?_, ?_, ?_, ?_, ?_, ?_, ?_, ?_, ?_⟩
  · intro n
    obtain ⟨c, hc, _⟩ := Vector.sized_spec n
    exact ⟨_, hc, fun h => by simp at h⟩
  · intro data
    obtain ⟨c, hc, _⟩ := Vector.fromList_spec data
    exact ⟨_, hc, fun h => by simp at h⟩
  · intro d ho hs
    obtain ⟨w, hw, hwo, _⟩ := Vector.copy_spec2 d ho hs
    exact ⟨w, hw, Vector.owned_nullOnlyIfEmpty w hwo⟩
  · intro d hd
    exact hd
  · intro s d ho hs
    obtain ⟨w, hw, hwo, _⟩ := Vector.copyAssign_spec2 s d ho hs
    exact ⟨w, hw, Vector.owned_nullOnlyIfEmpty w hwo⟩
  · intro s d hd
    exact hd
  · intro v x ho hs hb
    obtain ⟨w, hw, hwo, _⟩ := Vector.PushBack_spec v x ho hs hb
    exact ⟨w, hw, Vector.owned_nullOnlyIfEmpty w hwo⟩
  · intro v hv h
    rw [Vector.PopBack_capacity]
    exact hv ((Vector.PopBack_begin v).symm.trans h)
  · intro v hv h
    exact hv h
  · intro v c ho hs
    obtain ⟨w, hw, hwo, _⟩ := Vector.Reserve_spec v ho hs c
    exact ⟨w, hw, Vector.owned_nullOnlyIfEmpty w hwo⟩
  · intro a b hao hbo has hbs
    obtain ⟨a2, b2, hsw, ha2o, hb2o, _⟩ := Vector.Swap_spec a b hao hbo has hbs
    exact ⟨a2, b2, hsw, Vector.owned_nullOnlyIfEmpty a2 ha2o,
      Vector.owned_nullOnlyIfEmpty b2 hb2o⟩

/-- Witness of the amended C7: `Reserve(4)` on the vector of capacity 1
holding `9`. -/
theorem C7_null_only_if_empty_witness :
    (Vector.mk (some [some 9]) 1 1).Owned ∧
    ∃ w, (Vector.mk (some [some 9]) 1 1).Reserve 4 = some w ∧ w.NullOnlyIfEmpty :=
  ⟨by simp [Vector.Owned],
    C7_null_only_if_empty.2.2.2.2.2.2.2.2.2.2.1 (Vector.mk (some [some 9]) 1 1) 4
      (by simp [Vector.Owned]) (by decide)⟩

/-- C14: for every vector `v` with `size <= capacity` (its buffer the array
of `capacity_` cells) and every `n`: when `n <= v.Capacity()`, `Reserve(n)`
returns `v` unchanged; when `n > v.Capacity()` it returns a vector with
`Capacity() == n`, the same `Size()` and the same element at every index
below `Size()`. -/
theorem C14_Reserve (v : Vector) (n : Nat) (ho : v.Owned) (hs : v.size_ ≤ v.capacity_) :
    (n ≤ v.Capacity → v.Reserve n = some v) ∧
    (v.Capacity < n → ∃ w, v.Reserve n = some w ∧ w.Capacity = n ∧ n ≤ w.Capacity ∧
      w.Size = v.Size ∧ ∀ i, i < v.Size → w.get i = v.get i) := by
  refine ⟨fun h => Vector.Reserve_keep v n h, ?_⟩
  intro h
  simp only [Vector.Capacity] at h
  obtain ⟨w, hw, hwo, hws, hwc, hwl⟩ := Vector.Reserve_spec v ho hs n
  have hcap : w.capacity_ = n := by rw [hwc]; omega
  refine ⟨w, hw, hcap, by simp [Vector.Capacity, hcap], hws, ?_⟩
  intro i hi
  simp only [Vector.Size] at hi
  rw [Vector.get_of_live w hwo (by omega) i (by omega), Vector.get_of_live v ho hs i hi, hwl]

/-- Witness of C14: `Reserve(4)` on the vector of capacity 2 holding `5`. -/
theorem C14_Reserve_witness :
    ((4 : Nat) ≤ (Vector.mk (some [some 5, none]) 1 2).Capacity →
      (Vector.mk (some [some 5, none]) 1 2).Reserve 4 =
        some (Vector.mk (some [some 5, none]) 1 2)) ∧
    ((Vector.mk (some [some 5, none]) 1 2).Capacity < 4 →
      ∃ w, (Vector.mk (some [some 5, none]) 1 2).Reserve 4 = some w ∧ w.Capacity = 4 ∧
        4 ≤ w.Capacity ∧ w.Size = (Vector.mk (some [some 5, none]) 1 2).Size ∧
        ∀ i, i < (Vector.mk (some [some 5, none]) 1 2).Size →
          w.get i = (Vector.mk (some [some 5, none]) 1 2).get i) :=
  C14_Reserve (Vector.mk (some [some 5, none]) 1 2) 4 (by simp [Vector.Owned]) (by decide)

/-- C15: capacity is monotonic.  For every vector with `size <= capacity`
(its buffer the array of `capacity_` cells): `PushBack` (with fewer than
`2 ^ 63` elements) and `Reserve` return a vector whose `Capacity()` is not
smaller; `PopBack` and `Clear` leave `Capacity()` unchanged; and `a.Swap(b)`
returns with the capacity of each of `a` and `b` at least its own capacity
before the call. -/
theorem C15_capacity_monotonic :
    (∀ (v : Vector) (x : Int), v.Owned → v.size_ ≤ v.capacity_ → v.size_ < 2 ^ 63 →
      ∃ w, v.PushBack x = some w ∧ v.Capacity ≤ w.Capacity) ∧
    (∀ v : Vector, v.PopBack.Capacity = v.Capacity) ∧
    (∀ v : Vector, v.Clear.Capacity = v.Capacity) ∧
    (∀ (v : Vector) (c : Nat), v.Owned → v.size_ ≤ v.capacity_ →
      ∃ w, v.Reserve c = some w ∧ v.Capacity ≤ w.Capacity) ∧
    (∀ a b : Vector, a.Owned → b.Owned → a.size_ ≤ a.capacity_ → b.size_ ≤ b.capacity_ →
      ∃ a2 b2, a.Swap b = some (a2, b2) ∧ a.Capacity ≤ a2.Capacity ∧
        b.Capacity ≤ b2.Capacity) := by
  refine ⟨?_, ?_, ?_, ?_, ?_⟩
  · intro v x ho hs hb
    obtain ⟨w, hw, _, _, hwc, _⟩ := Vector.PushBack_spec v x ho hs hb
    refine ⟨w, hw, ?_⟩
    simp only [Vector.Capacity, hwc]
    split_ifs <;> omega
  · intro v; exact Vector.PopBack_capacity v
  · intro v; simp only [Vector.Capacity, Vector.Clear]
  · intro v c ho hs
    obtain ⟨w, hw, _, _, hwc, _⟩ := Vector.Reserve_spec v ho hs c
    exact ⟨w, hw, by simp only [Vector.Capacity, hwc]; omega⟩
  · intro a b hao hbo has hbs
    obtain ⟨a2, b2, hsw, _, _, _, ha2c, _, _, hb2c, _⟩ := Vector.Swap_spec a b hao hbo has hbs
    exact ⟨a2, b2, hsw, by simp only [Vector.Capacity, ha2c]; omega,
      by simp only [Vector.Capacity, hb2c]; omega⟩

/-- Witness of C15: `Vector(2)`-like vector of capacity 2 swapped with a
default-constructed vector. -/
theorem C15_capacity_monotonic_witness :
    ∃ a2 b2, (Vector.mk (some [some 5, none]) 1 2).Swap Vector.default = some (a2, b2) ∧
      (Vector.mk (some [some 5, none]) 1 2).Capacity ≤ a2.Capacity ∧
      Vector.default.Capacity ≤ b2.Capacity :=
  C15_capacity_monotonic.2.2.2.2 (Vector.mk (some [some 5, none]) 1 2) Vector.default
    (by simp [Vector.Owned]) (by simp [Vector.Owned, Vector.default]) (by decide) (by decide)

/-- C19: for every `n >= 1` (at most `2 ^ 63`), `n` calls of `PushBack` on a
default-constructed vector return a vector whose `Capacity()` is the smallest
power of two that is at least `n`; no number of `PopBack` calls and no
`Clear` afterwards changes that capacity.  With no push the capacity is 0. -/
theorem C19_capacity_power_of_two (xs : List Int) (h1 : 1 ≤ xs.length)
    (hb : xs.length ≤ 2 ^ 63) :
    ∃ w, Vector.default.pushAll xs = some w ∧
      (∃ k, w.Capacity = 2 ^ k ∧ xs.length ≤ 2 ^ k ∧ ∀ j, xs.length ≤ 2 ^ j → 2 ^ k ≤ 2 ^ j) ∧
      (∀ m, (w.popN m).Capacity = w.Capacity) ∧
      (∀ m, (w.popN m).Clear.Capacity = w.Capacity) ∧
      (Vector.default.pushAll []).map Vector.Capacity = some 0 := by
  obtain ⟨w, hw, hws, k, hk, hle, hlt⟩ := Vector.pushAll_doubled xs Vector.default
    (by simp [Vector.Owned, Vector.default]) (by simp [Vector.default])
    (by simpa [Vector.default] using hb) (Or.inr ⟨rfl, rfl⟩) h1
  have hsz : w.size_ = xs.length := by simpa [Vector.default] using hws
  refine ⟨w, hw, ⟨k, hk, by omega, ?_⟩, ?_, ?_, rfl⟩
  · intro j hj
    by_contra hcon
    have hjk : j < k := by
      by_contra h
      exact hcon (Nat.pow_le_pow_right (by norm_num) (by omega))
    have h2 : 2 ^ (j + 1) ≤ 2 ^ k := Nat.pow_le_pow_right (by norm_num) (by omega)
    rw [pow_succ] at h2
    omega
  · intro m; exact Vector.popN_capacity m w
  · intro m
    simp only [Vector.Capacity, Vector.Clear]
    exact Vector.popN_capacity m w

/-- Witness of C19, the scenario of the specification: pushing 0, 1, 2, 3, 4
gives `Size() == 5` and `Capacity() == 8`; two `PopBack` give `Size() == 3`
with elements 0, 1, 2; `Clear` gives `Size() == 0` and `Capacity() == 8`. -/
theorem C19_capacity_power_of_two_witness :
    (∃ w, Vector.default.pushAll [0, 1, 2, 3, 4] = some w ∧
      (∃ k, w.Capacity = 2 ^ k ∧ [0, 1, 2, 3, (4 : Int)].length ≤ 2 ^ k ∧
        ∀ j, [0, 1, 2, 3, (4 : Int)].length ≤ 2 ^ j → 2 ^ k ≤ 2 ^ j) ∧
      (∀ m, (w.popN m).Capacity = w.Capacity) ∧
      (∀ m, (w.popN m).Clear.Capacity = w.Capacity) ∧
      (Vector.default.pushAll []).map Vector.Capacity = some 0) ∧
    (Vector.default.pushAll [0, 1, 2, 3, 4]).map
      (fun w => (w.Size, w.Capacity, (w.popN 2).Size, (w.popN 2).Clear.Size,
        (w.popN 2).Clear.Capacity)) = some (5, 8, 3, 0, 8) ∧
    (Vector.default.pushAll [0, 1, 2, 3, 4]).map
      (fun w => [(w.popN 2).get 0, (w.popN 2).get 1, (w.popN 2).get 2]) =
      some [some 0, some 1, some 2] :=
  ⟨C19_capacity_power_of_two [0, 1, 2, 3, 4] (by decide) (by norm_num), by decide, by decide⟩

/-! ## The intrusive list: lemmas -/

theorem Unlink_next (h : Heap) (t x : Nat) :
    (ListHook.Unlink h t).next_ x =
      if x = t then t else if x = h.prev_ t then h.next_ t else h.next_ x := by
  simp only [ListHook.Unlink, Heap.setNext, Heap.setPrev]

theorem Unlink_prev (h : Heap) (t x : Nat) :
    (ListHook.Unlink h t).prev_ x =
      if x = t then t else if x = h.next_ t then h.prev_ t else h.prev_ x := by
  simp only [ListHook.Unlink, Heap.setNext, Heap.setPrev]
  by_cases h1 : t = h.prev_ t
  · simp [← h1]
  · simp [h1]

theorem LinkAfter_next (h : Heap) (t o x : Nat) :
    (ListHook.LinkAfter h t o).next_ x =
      if x = t then o else if x = o then (ListHook.Unlink h o).next_ t
      else (ListHook.Unlink h o).next_ x := by
  simp only [ListHook.LinkAfter, Heap.setNext, Heap.setPrev]

theorem LinkAfter_prev (h : Heap) (t o x : Nat) :
    (ListHook.LinkAfter h t o).prev_ x =
      if x = (ListHook.Unlink h o).next_ t then o else if x = o then t
      else (ListHook.Unlink h o).prev_ x := by
  simp only [ListHook.LinkAfter, Heap.setNext, Heap.setPrev]
  by_cases h1 : t = o
  · simp [h1]
  · simp [h1]

theorem WF_init : Heap.init.WF :=
  ⟨fun _ => rfl, fun _ => rfl, 0, fun _ _ => rfl⟩

theorem Heap.WF.next_inj {h : Heap} (hw : h.WF) {a b : Nat} (hab : h.next_ a = h.next_ b) :
    a = b := by
  have := congrArg h.prev_ hab
  rwa [hw.1, hw.1] at this

theorem Heap.WF.prev_inj {h : Heap} (hw : h.WF) {a b : Nat} (hab : h.prev_ a = h.prev_ b) :
    a = b := by
  have := congrArg h.next_ hab
  rwa [hw.2.1, hw.2.1] at this

theorem Heap.WF.next_eq_iff {h : Heap} (hw : h.WF) (a b : Nat) :
    h.next_ a = b ↔ a = h.prev_ b := by
  constructor
  · intro e; rw [← e, hw.1]
  · intro e; rw [e, hw.2.1]

theorem Unlink_WF (h : Heap) (t : Nat) (hw : h.WF) : (ListHook.Unlink h t).WF := by
  obtain ⟨hpn, hnp, N, hN⟩ := hw
  have hw : h.WF := ⟨hpn, hnp, N, hN⟩
  have hn := Unlink_next h t
  have hp := Unlink_prev h t
  refine ⟨?_, ?_, max N (t + 1), ?_⟩
  · intro x
    by_cases h1 : x = t
    · rw [hn, if_pos h1, hp, if_pos rfl]; exact h1.symm
    · by_cases h2 : x = h.prev_ t
      · have h3 : h.next_ t ≠ t := by
          intro e
          have : t = h.prev_ t := (hw.next_eq_iff t t).1 e
          exact h1 (h2.trans this.symm)
        rw [hn, if_neg h1, if_pos h2, hp, if_neg h3, if_pos rfl]; exact h2.symm
      · have h3 : h.next_ x ≠ t := fun e => h2 ((hw.next_eq_iff x t).1 e)
        have h4 : h.next_ x ≠ h.next_ t := fun e => h1 (hw.next_inj e)
        rw [hn, if_neg h1, if_neg h2, hp, if_neg h3, if_neg h4, hpn]
  · intro x
    by_cases h1 : x = t
    · rw [hp, if_pos h1, hn, if_pos rfl]; exact h1.symm
    · by_cases h2 : x = h.next_ t
      · have h3 : h.prev_ t ≠ t := by
          intro e
          have : h.next_ t = t := (hw.next_eq_iff t t).2 e.symm
          exact h1 (h2.trans this)
        rw [hp, if_neg h1, if_pos h2, hn, if_neg h3, if_pos rfl]; exact h2.symm
      · have h3 : h.prev_ x ≠ t := by
          intro e
          apply h2
          rw [← e, hnp]
        have h4 : h.prev_ x ≠ h.prev_ t := fun e => h1 (hw.prev_inj e)
        rw [hp, if_neg h1, if_neg h2, hn, if_neg h3, if_neg h4, hnp]
  · intro a ha
    have h1 : a ≠ t := by omega
    have h2 : h.next_ a = a := hN a (by omega)
    have h3 : a ≠ h.prev_ t := by
      intro e
      have : h.next_ a = t := by rw [e, hnp]
      exact h1 (h2.symm.trans this)
    rw [hn, if_neg h1, if_neg h3, h2]

theorem Unlink_self (h : Heap) (t : Nat) :
    (ListHook.Unlink h t).next_ t = t ∧ (ListHook.Unlink h t).prev_ t = t := by
  simp [Unlink_next, Unlink_prev]

theorem LinkAfter_WF (h : Heap) (t o : Nat) (hw : h.WF) : (ListHook.LinkAfter h t o).WF := by
  have hg : (ListHook.Unlink h o).WF := Unlink_WF h o hw
  obtain ⟨hno, hpo⟩ := Unlink_self h o
  have hn := LinkAfter_next h t o
  have hp := LinkAfter_prev h t o
  generalize ListHook.Unlink h o = g at hg hno hpo hn hp
  generalize ListHook.LinkAfter h t o = f at hn hp
  obtain ⟨hpn, hnp, N, hN⟩ := hg
  have hg : g.WF := ⟨hpn, hnp, N, hN⟩
  by_cases hto : t = o
  · subst hto
    have e1 : ∀ x, f.next_ x = g.next_ x := by
      intro x
      by_cases hx : x = t
      · rw [hn, if_pos hx, hx, hno]
      · rw [hn, if_neg hx, if_neg hx]
    have e2 : ∀ x, f.prev_ x = g.prev_ x := by
      intro x
      rw [hp, hno]
      by_cases hx : x = t
      · rw [if_pos hx, hx, hpo]
      · rw [if_neg hx, if_neg hx]
    refine ⟨fun a => by rw [e1, e2, hpn], fun a => by rw [e2, e1, hnp], N, fun a ha => ?_⟩
    rw [e1]; exact hN a ha
  · have hnt : g.next_ t ≠ o := by
      intro e
      have : t = g.prev_ o := (hg.next_eq_iff t o).1 e
      rw [hpo] at this
      exact hto this
    refine ⟨?_, ?_, max N (max (t + 1) (o + 1)), ?_⟩
    · intro x
      by_cases h1 : x = t
      · rw [hn, if_pos h1, hp, if_neg (Ne.symm hnt), if_pos rfl]; exact h1.symm
      · by_cases h2 : x = o
        · rw [hn, if_neg h1, if_pos h2, hp, if_pos rfl]; exact h2.symm
        · have h3 : g.next_ x ≠ g.next_ t := fun e => h1 (hg.next_inj e)
          have h4 : g.next_ x ≠ o := by
            intro e
            have : x = g.prev_ o := (hg.next_eq_iff x o).1 e
            rw [hpo] at this
            exact h2 this
          rw [hn, if_neg h1, if_neg h2, hp, if_neg h3, if_neg h4, hpn]
    · intro x
      by_cases h1 : x = g.next_ t
      · rw [hp, if_pos h1, hn, if_neg (Ne.symm hto), if_pos rfl]; exact h1.symm
      · by_cases h2 : x = o
        · rw [hp, if_neg h1, if_pos h2, hn, if_pos rfl]; exact h2.symm
        · have h3 : g.prev_ x ≠ t := by
            intro e
            apply h1
            rw [← e, hnp]
          have h4 : g.prev_ x ≠ o := by
            intro e
            apply h2
            have : g.next_ (g.prev_ x) = g.next_ o := congrArg g.next_ e
            rw [hnp, hno] at this
            exact this
          rw [hp, if_neg h1, if_neg h2, hn, if_neg h3, if_neg h4, hnp]
    · intro a ha
      have h1 : a ≠ t := by omega
      have h2 : a ≠ o := by omega
      rw [hn, if_neg h1, if_neg h2]
      exact hN a (by omega)

theorem Op.apply_WF (h : Heap) (op : Op) (hw : h.WF) : (Op.apply h op).WF := by
  cases op with
  | PushBack l e => exact LinkAfter_WF h _ e hw
  | PushFront l e => exact LinkAfter_WF h l e hw
  | PopBack l => exact Unlink_WF h _ hw
  | PopFront l => exact Unlink_WF h _ hw
  | Unlink e => exact Unlink_WF h e hw

theorem foldl_WF (ops : List Op) : ∀ h : Heap, h.WF → (ops.foldl Op.apply h).WF := by
  induction ops with
  | nil => intro h hw; exact hw
  | cons op ops ih => intro h hw; exact ih _ (Op.apply_WF h op hw)

theorem run_WF (ops : List Op) : (run ops).WF := foldl_WF ops Heap.init WF_init

theorem Chain.congr {h g : Heap} {d : Nat} : ∀ {s : List Nat} {k : Nat},
    (∀ x, x ∈ s → g.next_ x = h.next_ x) → Chain h d k s → Chain g d k s
  | [], _, _, hc => hc
  | x :: s, k, hx, hc => by
    obtain ⟨h1, h2, h3⟩ := hc
    refine ⟨h1, h2, ?_⟩
    rw [hx x (List.mem_cons_self _ _)]
    exact Chain.congr (fun y hy => hx y (List.mem_cons_of_mem _ hy)) h3

theorem Chain.ne_dummy {h : Heap} {d : Nat} : ∀ {s : List Nat} {k : Nat},
    Chain h d k s → ∀ x, x ∈ s → x ≠ d
  | [], _, _, x, hx => by simp at hx
  | y :: s, k, hc, x, hx => by
    obtain ⟨_, h2, h3⟩ := hc
    rcases List.mem_cons.1 hx with e | e
    · rw [e]; exact h2
    · exact Chain.ne_dummy h3 x e

theorem Chain.next_mem {h : Heap} {d : Nat} : ∀ {s : List Nat} {k : Nat},
    Chain h d k s → ∀ x, x ∈ s → h.next_ x ∈ s ∨ h.next_ x = d
  | [], _, _, x, hx => by simp at hx
  | y :: s, k, hc, x, hx => by
    obtain ⟨_, _, h3⟩ := hc
    rcases List.mem_cons.1 hx with e | e
    · rw [e]
      cases s with
      | nil => right; exact h3
      | cons z s => left; rw [h3.1]; simp
    · rcases Chain.next_mem h3 x e with m | m
      · left; exact List.mem_cons_of_mem _ m
      · right; exact m

theorem Chain.mem_pred {h : Heap} {d : Nat} : ∀ {s : List Nat} {k : Nat},
    Chain h d k s → ∀ y, y ∈ s → y = k ∨ ∃ z, z ∈ s ∧ h.next_ z = y
  | [], _, _, y, hy => by simp at hy
  | x :: s, k, hc, y, hy => by
    obtain ⟨h1, _, h3⟩ := hc
    rcases List.mem_cons.1 hy with e | e
    · left; rw [e, h1]
    · right
      rcases Chain.mem_pred h3 y e with m | ⟨z, hz, hzy⟩
      · exact ⟨x, List.mem_cons_self _ _, m.symm⟩
      · exact ⟨z, List.mem_cons_of_mem _ hz, hzy⟩

theorem Chain.nodup {h : Heap} (hw : h.WF) {d : Nat} : ∀ {s : List Nat} {k : Nat},
    Chain h d k s → h.prev_ k ∉ s → s.Nodup
  | [], _, _, _ => List.nodup_nil
  | x :: s, k, hc, hk => by
    obtain ⟨h1, h2, h3⟩ := hc
    rw [h1] at hk
    have hxs : x ∉ s := by
      intro hx
      rcases Chain.mem_pred h3 x hx with m | ⟨z, hz, hzx⟩
      · have : x = h.prev_ x := (hw.next_eq_iff x x).1 m.symm
        apply hk
        rw [← this]
        exact List.mem_cons_self _ _
      · have : z = h.prev_ x := (hw.next_eq_iff z x).1 hzx
        apply hk
        rw [← this]
        exact List.mem_cons_of_mem _ hz
    refine List.nodup_cons.2 ⟨hxs, Chain.nodup hw h3 ?_⟩
    rw [hw.1]
    exact hxs

theorem Iterates.elems_nodup {h : Heap} (hw : h.WF) {d : Nat} {s : List Nat}
    (hi : List.Iterates h d s) : s.Nodup := by
  refine Chain.nodup hw hi ?_
  rw [hw.1]
  intro hd
  exact Chain.ne_dummy hi d hd rfl

theorem Chain.unique {h : Heap} {d : Nat} : ∀ {s t : List Nat} {k : Nat},
    Chain h d k s → Chain h d k t → s = t
  | [], [], _, _, _ => rfl
  | [], y :: t, k, h1, h2 => by
    exfalso
    have e1 : k = d := h1
    exact h2.2.1 (h2.1.symm.trans e1)
  | x :: s, [], k, h1, h2 => by
    exfalso
    have e2 : k = d := h2
    exact h1.2.1 (h1.1.symm.trans e2)
  | x :: s, y :: t, k, h1, h2 => by
    have e : x = y := h1.1.symm.trans h2.1
    subst e
    rw [Chain.unique h1.2.2 h2.2.2]

theorem SizeLoop_of_chain {h : Heap} {d : Nat} : ∀ {s : List Nat} {k : Nat} (c extra : Nat),
    Chain h d k s → List.SizeLoop h d (s.length + 1 + extra) k c = some (c + s.length)
  | [], k, c, extra, hc => by
    have e : k = d := hc
    simp [List.SizeLoop, e, Nat.add_comm 1 extra]
  | x :: s, k, c, extra, hc => by
    obtain ⟨h1, h2, h3⟩ := hc
    have ih := SizeLoop_of_chain (c + 1) extra h3
    have e : (x :: s).length + 1 + extra = (s.length + 1 + extra) + 1 := by
      simp only [List.length_cons]; omega
    rw [e, List.SizeLoop, h1, if_pos h2, ih]
    simp only [List.length_cons]
    congr 1
    omega

theorem walk_of_chain {h : Heap} {d : Nat} : ∀ {s : List Nat} {k : Nat} (extra : Nat),
    Chain h d k s → List.walk h d (s.length + 1 + extra) k = some s
  | [], k, extra, hc => by
    have e : k = d := hc
    simp [List.walk, e, Nat.add_comm 1 extra]
  | x :: s, k, extra, hc => by
    obtain ⟨h1, h2, h3⟩ := hc
    have ih := walk_of_chain extra h3
    have e : (x :: s).length + 1 + extra = (s.length + 1 + extra) + 1 := by
      simp only [List.length_cons]; omega
    rw [e, List.walk, h1, if_pos h2, ih]
    rfl

theorem chain_of_walk {h : Heap} {d : Nat} : ∀ (fuel : Nat) {k : Nat} {s : List Nat},
    List.walk h d fuel k = some s → Chain h d k s
  | 0, _, _, hw => by simp [List.walk] at hw
  | fuel + 1, k, s, hw => by
    rw [List.walk] at hw
    by_cases hk : k ≠ d
    · rw [if_pos hk] at hw
      cases hr : List.walk h d fuel (h.next_ k) with
      | none => rw [hr] at hw; simp at hw
      | some r =>
        rw [hr] at hw
        simp only [Option.map_some', Option.some.injEq] at hw
        subst hw
        exact ⟨rfl, hk, chain_of_walk fuel hr⟩
    · rw [if_neg hk] at hw
      simp only [Option.some.injEq] at hw
      subst hw
      exact not_not.1 hk

theorem Chain.iterate {h : Heap} {d : Nat} : ∀ {s : List Nat} {k : Nat},
    Chain h d k s → h.next_^[s.length] k = d ∧ ∀ j, j < s.length → h.next_^[j] k ≠ d
  | [], k, hc => ⟨hc, fun j hj => by simp at hj⟩
  | x :: s, k, hc => by
    obtain ⟨h1, h2, h3⟩ := hc
    obtain ⟨i1, i2⟩ := Chain.iterate h3
    subst h1
    refine ⟨?_, ?_⟩
    · rw [List.length_cons, Function.iterate_succ_apply]; exact i1
    · intro j hj
      cases j with
      | zero => exact h2
      | succ j =>
        rw [Function.iterate_succ_apply]
        exact i2 j (by simp only [List.length_cons] at hj; omega)

theorem chain_of_iterate {h : Heap} {d : Nat} : ∀ (n k : Nat),
    (∀ j, j < n → h.next_^[j] k ≠ d) → h.next_^[n] k = d →
      ∃ s, Chain h d k s ∧ s.length = n
  | 0, k, _, he => ⟨[], he, rfl⟩
  | n + 1, k, hne, he => by
    have hk : k ≠ d := hne 0 (by omega)
    obtain ⟨s, hs, hl⟩ := chain_of_iterate n (h.next_ k)
      (fun j hj => by
        have := hne (j + 1) (by omega)
        rwa [Function.iterate_succ_apply] at this)
      (by rwa [Function.iterate_succ_apply] at he)
    exact ⟨k :: s, ⟨rfl, hk, hs⟩, by simp [hl]⟩

theorem Heap.WF.periodic {h : Heap} (hw : h.WF) (d : Nat) :
    ∃ n, 0 < n ∧ h.next_^[n] d = d := by
  obtain ⟨hpn, hnp, N, hN⟩ := hw
  have hw : h.WF := ⟨hpn, hnp, N, hN⟩
  have hinj : Function.Injective h.next_ := fun a b e => hw.next_inj e
  by_cases hd : N ≤ d
  · exact ⟨1, by omega, by simpa using hN d hd⟩
  · have hlt : ∀ j, h.next_^[j] d < N := by
      intro j
      induction j with
      | zero => simpa using hd
      | succ j ih =>
        rw [Function.iterate_succ_apply']
        by_contra hcon
        have h1 : h.next_ (h.next_ (h.next_^[j] d)) = h.next_ (h.next_^[j] d) :=
          hN _ (by omega)
        have h2 := hinj h1
        omega
    obtain ⟨a, b, hab, he⟩ := Set.Finite.exists_lt_map_eq_of_forall_mem
      (t := Set.Iio N) (f := fun j => h.next_^[j] d) (fun j => hlt j) (Set.finite_Iio N)
    refine ⟨b - a, by omega, ?_⟩
    have hb : b = a + (b - a) := by omega
    rw [hb, Function.iterate_add_apply] at he
    exact (hinj.iterate a he).symm

theorem Heap.WF.exists_iterates {h : Heap} (hw : h.WF) (d : Nat) :
    ∃ s, List.Iterates h d s := by
  classical
  have hex := hw.periodic d
  have hp := Nat.find_spec hex
  have hmin := fun m (hm : m < Nat.find hex) => Nat.find_min hex hm
  generalize Nat.find hex = p at hp hmin
  obtain ⟨hp0, hpe⟩ := hp
  obtain ⟨q, rfl⟩ : ∃ q, p = q + 1 := ⟨p - 1, by omega⟩
  obtain ⟨s, hs, _⟩ := chain_of_iterate (h := h) (d := d) q (h.next_ d)
    (fun j hj hcon => by
      apply hmin (j + 1) (by omega)
      exact ⟨by omega, by rw [Function.iterate_succ_apply]; exact hcon⟩)
    (by rwa [Function.iterate_succ_apply] at hpe)
  exact ⟨s, hs⟩

theorem Chain.unlink {h : Heap} (hw : h.WF) {d x : Nat} (hx : x ≠ d) :
    ∀ {s : List Nat} {k : Nat}, Chain h d k s → s.Nodup →
      Chain (ListHook.Unlink h x) d (if k = x then h.next_ x else k) (s.erase x)
  | [], k, hc, _ => by
    have e : k = d := hc
    have hk : k ≠ x := by rw [e]; exact Ne.symm hx
    rw [if_neg hk]
    exact hc
  | y :: s, k, hc, hnd => by
    obtain ⟨h1, h2, h3⟩ := hc
    obtain ⟨hys, hnd2⟩ := List.nodup_cons.1 hnd
    have ih := Chain.unlink hw hx h3 hnd2
    by_cases hyx : y = x
    · subst hyx
      rw [h1, if_pos rfl, List.erase_cons_head]
      rw [List.erase_of_not_mem hys] at ih
      simpa using ih
    · have hk : k ≠ x := by rw [h1]; exact hyx
      rw [if_neg hk, List.erase_cons_tail (by simpa using hyx)]
      refine ⟨h1, h2, ?_⟩
      rw [Unlink_next, if_neg hyx]
      by_cases hp : y = h.prev_ x
      · have hn : h.next_ y = x := (hw.next_eq_iff y x).2 hp
        rw [if_pos hp]
        rw [if_pos hn] at ih
        exact ih
      · have hn : h.next_ y ≠ x := fun e => hp ((hw.next_eq_iff y x).1 e)
        rw [if_neg hp]
        rw [if_neg hn] at ih
        exact ih

theorem Iterates.after_unlink {h : Heap} (hw : h.WF) {d x : Nat} (hx : x ≠ d) {s : List Nat}
    (hs : List.Iterates h d s) : List.Iterates (ListHook.Unlink h x) d (s.erase x) := by
  have hc := Chain.unlink hw hx hs (Iterates.elems_nodup hw hs)
  unfold List.Iterates
  rw [Unlink_next, if_neg (Ne.symm hx)]
  by_cases hp : d = h.prev_ x
  · have hn : h.next_ d = x := (hw.next_eq_iff d x).2 hp
    rw [if_pos hp]
    rw [if_pos hn] at hc
    exact hc
  · have hn : h.next_ d ≠ x := fun e => hp ((hw.next_eq_iff d x).1 e)
    rw [if_neg hp]
    rw [if_neg hn] at hc
    exact hc

theorem Chain.not_mem_of_self {h : Heap} {d e : Nat} (he : h.next_ e = e) (hed : e ≠ d) :
    ∀ {s : List Nat} {k : Nat}, Chain h d k s → e ∉ s
  | [], _, _ => by simp
  | y :: s, k, hc => by
    obtain ⟨_, _, h3⟩ := hc
    have ih : e ∉ s := Chain.not_mem_of_self he hed h3
    intro hm
    rcases List.mem_cons.1 hm with e1 | e1
    · subst e1
      rw [he] at h3
      cases s with
      | nil => exact hed h3
      | cons z s => exact ih (by rw [h3.1]; exact List.mem_cons_self _ _)
    · exact ih e1

theorem Chain.last {h : Heap} {d : Nat} : ∀ {s : List Nat} {k l : Nat},
    Chain h d k (s ++ [l]) → h.next_ l = d
  | [], _, _, hc => hc.2.2
  | _ :: s, _, _, hc => Chain.last (s := s) hc.2.2

theorem Chain.push_back {h g : Heap} {d e : Nat} (hed : e ≠ d) (hge : g.next_ e = d) :
    ∀ {s : List Nat} {k : Nat}, Chain h d k s →
      (∀ x, x ∈ s → g.next_ x = if h.next_ x = d then e else h.next_ x) →
      Chain g d (if k = d then e else k) (s ++ [e])
  | [], k, hc, _ => by
    have e1 : k = d := hc
    rw [if_pos e1]
    exact ⟨rfl, hed, hge⟩
  | y :: s, k, hc, hg => by
    obtain ⟨h1, h2, h3⟩ := hc
    have hk : k ≠ d := by rw [h1]; exact h2
    rw [if_neg hk]
    refine ⟨h1, h2, ?_⟩
    rw [hg y (List.mem_cons_self _ _)]
    exact Chain.push_back hed hge h3 (fun x hx => hg x (List.mem_cons_of_mem _ hx))

/-- The effect on a list of linking the unlinked element `e` before its
sentinel. -/
theorem Iterates.after_push_back {h g : Heap} (hw : h.WF) {d e : Nat} {s : List Nat}
    (hs : List.Iterates h d s) (he : h.next_ e = e) (hed : e ≠ d)
    (hg : ∀ x, g.next_ x = if x = h.prev_ d then e else if x = e then h.next_ (h.prev_ d)
      else h.next_ x) : List.Iterates g d (s ++ [e]) := by
  have hes : e ∉ s := Chain.not_mem_of_self he hed hs
  have hte : e ≠ h.prev_ d := by
    intro e1
    have : h.next_ e = d := (hw.next_eq_iff e d).2 e1
    rw [he] at this
    exact hed this
  have hge : g.next_ e = d := by
    rw [hg, if_neg hte, if_pos rfl, hw.2.1]
  have hc := Chain.push_back (g := g) hed hge hs (fun x hx => by
    have hxe : x ≠ e := fun e1 => hes (e1 ▸ hx)
    rw [hg]
    by_cases hp : x = h.prev_ d
    · rw [if_pos hp, if_pos ((hw.next_eq_iff x d).2 hp)]
    · rw [if_neg hp, if_neg hxe, if_neg (fun e1 => hp ((hw.next_eq_iff x d).1 e1))])
  unfold List.Iterates
  rw [hg]
  by_cases hp : d = h.prev_ d
  · rw [if_pos hp]
    rw [if_pos ((hw.next_eq_iff d d).2 hp)] at hc
    exact hc
  · rw [if_neg hp, if_neg (Ne.symm hed)]
    rw [if_neg (fun e1 => hp ((hw.next_eq_iff d d).1 e1))] at hc
    exact hc

/-- The effect on a list of linking the unlinked element `e` after its
sentinel. -/
theorem Iterates.after_push_front {h g : Heap} {d e : Nat} {s : List Nat}
    (hs : List.Iterates h d s) (he : h.next_ e = e) (hed : e ≠ d)
    (hg : ∀ x, g.next_ x = if x = d then e else if x = e then h.next_ d else h.next_ x) :
    List.Iterates g d (e :: s) := by
  have hes : e ∉ s := Chain.not_mem_of_self he hed hs
  unfold List.Iterates
  rw [hg, if_pos rfl]
  refine ⟨rfl, hed, ?_⟩
  rw [hg, if_neg hed, if_pos rfl]
  refine Chain.congr (fun x hx => ?_) hs
  have hxe : x ≠ e := fun e1 => hes (e1 ▸ hx)
  rw [hg, if_neg (Chain.ne_dummy hs x hx), if_neg hxe]

/-- A list none of whose hooks has its `next_` changed iterates as before. -/
theorem Iterates.frame {h g : Heap} {d : Nat} {s : List Nat} (hs : List.Iterates h d s)
    (hd : g.next_ d = h.next_ d) (hg : ∀ x, x ∈ s → g.next_ x = h.next_ x) :
    List.Iterates g d s := by
  unfold List.Iterates
  rw [hd]
  exact Chain.congr hg hs

theorem Unlink_unlinked {h : Heap} (hw : h.WF) {e : Nat} (he : h.next_ e = e) :
    (∀ x, (ListHook.Unlink h e).next_ x = h.next_ x) ∧
    (∀ x, (ListHook.Unlink h e).prev_ x = h.prev_ x) := by
  have hp : h.prev_ e = e := ((hw.next_eq_iff e e).1 he).symm
  constructor
  · intro x
    rw [Unlink_next, hp, he]
    by_cases hx : x = e
    · rw [if_pos hx, hx, he]
    · rw [if_neg hx, if_neg hx]
  · intro x
    rw [Unlink_prev, hp, he]
    by_cases hx : x = e
    · rw [if_pos hx, hx, hp]
    · rw [if_neg hx, if_neg hx]

theorem Iterates.head_mem {h : Heap} {d : Nat} {s : List Nat} (hs : List.Iterates h d s) :
    h.next_ d ∈ s ∨ h.next_ d = d := by
  cases s with
  | nil => right; exact hs
  | cons x s => left; rw [hs.1]; exact List.mem_cons_self _ _

theorem Chain.suffix {h : Heap} {d : Nat} : ∀ {s : List Nat} {k : Nat},
    Chain h d k s → ∀ x, x ∈ s → ∃ t, Chain h d x t
  | [], _, _, x, hx => by simp at hx
  | y :: s, k, hc, x, hx => by
    rcases List.mem_cons.1 hx with e | e
    · exact ⟨y :: s, ⟨e, hc.2.1, hc.2.2⟩⟩
    · exact Chain.suffix hc.2.2 x e

theorem Chain.closed {h : Heap} {d : Nat} (S : Nat → Prop)
    (hS : ∀ x, S x → S (h.next_ x)) : ∀ {s : List Nat} {k : Nat}, Chain h d k s → S k → S d
  | [], k, hc, hk => by
    have e : k = d := hc
    rw [← e]; exact hk
  | y :: s, k, hc, hk => by
    refine Chain.closed S hS hc.2.2 (hS y ?_)
    rw [← hc.1]; exact hk

/-- Two lists with different sentinels, the second sentinel not an element of
the first list, have no element in common. -/
theorem Iterates.disjoint {h : Heap} {d1 d2 : Nat} {s1 s2 : List Nat}
    (h1 : List.Iterates h d1 s1) (h2 : List.Iterates h d2 s2) (hd : d1 ≠ d2)
    (hd2 : d2 ∉ s1) : ∀ x, x ∈ s1 → x ∉ s2 := by
  intro x hx1 hx2
  obtain ⟨t, ht⟩ := Chain.suffix h2 x hx2
  have hS : ∀ y, (y ∈ s1 ∨ y = d1) → (h.next_ y ∈ s1 ∨ h.next_ y = d1) := by
    intro y hy
    rcases hy with hy | hy
    · exact Chain.next_mem h1 y hy
    · rw [hy]; exact Iterates.head_mem h1
  rcases Chain.closed (fun y => y ∈ s1 ∨ y = d1) hS ht (Or.inl hx1) with m | m
  · exact hd2 m
  · exact hd m.symm

theorem unlinkAll_spec : ∀ (s : List Nat) (h : Heap) (d : Nat), h.WF → List.Iterates h d s →
    (∀ m, m ≤ s.length → List.unlinkAll d m h = none) ∧
    ∃ g, (∀ extra, List.unlinkAll d (s.length + 1 + extra) h = some g) ∧ g.WF ∧
      g.next_ d = d ∧
      (∀ x, x ∈ s → g.next_ x = x ∧ g.prev_ x = x) ∧
      (∀ x, x ∉ s → x ≠ d → g.next_ x = h.next_ x ∧ g.prev_ x = h.prev_ x)
  | [], h, d, hw, hs => by
    have he : h.next_ d = d := hs
    refine ⟨?_, h, ?_, hw, he, ?_, ?_⟩
    · intro m hm
      have : m = 0 := by simpa using hm
      subst this
      rfl
    · intro extra
      simp [List.unlinkAll, he, Nat.add_comm 1 extra]
    · intro x hx; simp at hx
    · intro x _ _; exact ⟨rfl, rfl⟩
  | f :: rest, h, d, hw, hs => by
    have hf : h.next_ d = f := hs.1
    have hfd : f ≠ d := hs.2.1
    have hnd := Iterates.elems_nodup hw hs
    obtain ⟨hfr, _⟩ := List.nodup_cons.1 hnd
    have hs2 : List.Iterates (ListHook.Unlink h f) d rest := by
      have := Iterates.after_unlink hw hfd hs
      rwa [List.erase_cons_head] at this
    obtain ⟨ihn, g, ihs, hgw, hgd, hgs, hgf⟩ :=
      unlinkAll_spec rest (ListHook.Unlink h f) d (Unlink_WF h f hw) hs2
    have hcond : h.next_ d ≠ d := by rw [hf]; exact hfd
    obtain ⟨usn, usp⟩ := Unlink_self h f
    refine ⟨?_, g, ?_, hgw, hgd, ?_, ?_⟩
    · intro m hm
      cases m with
      | zero => rfl
      | succ m =>
        rw [List.unlinkAll, if_pos hcond, hf]
        exact ihn m (by simp only [List.length_cons] at hm; omega)
    · intro extra
      have e : (f :: rest).length + 1 + extra = (rest.length + 1 + extra) + 1 := by
        simp only [List.length_cons]; omega
      rw [e, List.unlinkAll, if_pos hcond, hf]
      exact ihs extra
    · intro x hx
      rcases List.mem_cons.1 hx with e | e
      · subst e
        obtain ⟨a, b⟩ := hgf x hfr hfd
        exact ⟨a.trans usn, b.trans usp⟩
      · exact hgs x e
    · intro x hx hxd
      have hxf : x ≠ f := fun e => hx (e ▸ List.mem_cons_self _ _)
      have hxr : x ∉ rest := fun m => hx (List.mem_cons_of_mem _ m)
      obtain ⟨a, b⟩ := hgf x hxr hxd
      have hpf : h.prev_ f = d := ((hw.next_eq_iff d f).1 hf).symm
      have hnf : x ≠ h.next_ f := by
        intro e
        rcases Chain.next_mem hs f (List.mem_cons_self _ _) with m | m
        · exact hx (e ▸ m)
        · exact hxd (e.trans m)
      refine ⟨a.trans ?_, b.trans ?_⟩
      · rw [Unlink_next, if_neg hxf, hpf, if_neg hxd]
      · rw [Unlink_prev, if_neg hxf, if_neg hnf]

/-! ## The intrusive list: claims -/

/-- C4, the code at a failing input: moving from an empty list.  With the
empty list `other` at address 0 and the new list at address 1, the move
constructor leaves the new sentinel with `next_ == &other.dummy_` and
`prev_ == &dummy_`: the destination is not self-linked, `IsEmpty()` is false
and the loop of `Size()` never reaches the sentinel.  The move assignment
does the same. -/
theorem C4_move_from_empty :
    (List.moveCtor Heap.init 1 0).next_ 1 = 0 ∧
    (List.moveCtor Heap.init 1 0).prev_ 1 = 1 ∧
    (List.moveCtor Heap.init 1 0).next_ 0 = 0 ∧
    List.IsEmpty (List.moveCtor Heap.init 1 0) 1 = false ∧
    (∀ fuel, List.Size (List.moveCtor Heap.init 1 0) 1 fuel = none) ∧
    (List.moveAssign Heap.init 1 0 1).map (fun h => (h.next_ 1, h.prev_ 1, List.IsEmpty h 1)) =
      some (0, 1, false) := by
  refine ⟨by decide, by decide, by decide, by decide, ?_, by decide⟩
  have key : ∀ fuel c, List.SizeLoop (List.moveCtor Heap.init 1 0) 1 fuel 0 c = none := by
    intro fuel
    induction fuel with
    | zero => intro c; rfl
    | succ n ih =>
      intro c
      have e : (List.moveCtor Heap.init 1 0).next_ 0 = 0 := by decide
      simp only [List.SizeLoop, e]
      simpa using ih (c + 1)
  intro fuel
  have e : (List.moveCtor Heap.init 1 0).next_ 1 = 0 := by decide
  simp only [List.Size, e]
  exact key fuel 0

/-- C5, the code at a failing input: `PushBack(e)` of the element that is
already the last one.  With the list at address 0 holding the single element
at address 1, `PushBack` of that element leaves the list empty and the
element unlinked; with the elements 1, 2 in the list, `PushBack(2)` leaves
the list holding 1 alone, `Back()` being 1 and element 2 unlinked. -/
theorem C5_PushBack_last :
    List.Iterates (List.PushBack Heap.init 0 1) 0 [1] ∧
    List.Iterates (List.PushBack (List.PushBack Heap.init 0 1) 0 1) 0 [] ∧
    ListHook.IsLinked (List.PushBack (List.PushBack Heap.init 0 1) 0 1) 1 = false ∧
    List.Iterates (List.PushBack (List.PushBack Heap.init 0 1) 0 2) 0 [1, 2] ∧
    List.Iterates (List.PushBack (List.PushBack (List.PushBack Heap.init 0 1) 0 2) 0 2) 0 [1] ∧
    List.Back (List.PushBack (List.PushBack (List.PushBack Heap.init 0 1) 0 2) 0 2) 0 = 1 ∧
    ListHook.IsLinked (List.PushBack (List.PushBack (List.PushBack Heap.init 0 1) 0 2) 0 2) 2 =
      false := by
  refine ⟨by decide, by decide, by decide, by decide, by decide, by decide, by decide⟩

/-- C6: ring closure is an invariant.  In the state reached from empty lists
and unlinked elements by any finite sequence of `PushBack`, `PushFront`,
`PopBack`, `PopFront` and element `Unlink` calls (on any lists and elements),
for every list, given by its sentinel `d`: `Size()` returns some `n`
(whenever the loop is given at least `n + 1` tests of its condition),
following `next_` from the sentinel `n + 1` times returns to the sentinel and
no smaller positive number of steps does, and following `prev_` from the
sentinel `n + 1` times returns to the sentinel. -/
theorem C6_ring_closure (ops : List Op) (d : Nat) :
    ∃ n, (∀ extra, List.Size (run ops) d (n + 1 + extra) = some n) ∧
      (run ops).next_^[n + 1] d = d ∧
      (∀ j, 0 < j → j ≤ n → (run ops).next_^[j] d ≠ d) ∧
      (run ops).prev_^[n + 1] d = d := by
  have hw := run_WF ops
  obtain ⟨s, hs⟩ := hw.exists_iterates d
  obtain ⟨i1, i2⟩ := Chain.iterate hs
  have hnext : (run ops).next_^[s.length + 1] d = d := by
    rw [Function.iterate_succ_apply]; exact i1
  refine ⟨s.length, ?_, hnext, ?_, ?_⟩
  · intro extra
    have := SizeLoop_of_chain 0 extra hs
    simpa [List.Size] using this
  · intro j hj hjn
    obtain ⟨q, rfl⟩ : ∃ q, j = q + 1 := ⟨j - 1, by omega⟩
    rw [Function.iterate_succ_apply]
    exact i2 q (by omega)
  · have hli : Function.LeftInverse (run ops).prev_ (run ops).next_ := hw.1
    have := (hli.iterate (s.length + 1)) d
    rwa [hnext] at this

/-- C12: the list refines a sequence.  In a state whose hooks form rings,
for a list (sentinel `d`) whose iteration from `Begin()` to `End()` yields
`s`: `PushBack(e)` of an unlinked element `e` yields `s ++ [e]` and
`PushFront(e)` yields `e :: s`; on a non-empty list `PopFront()` yields `s`
without its first element and `PopBack()` yields `s` without its last
element; and `Unlink()` called on a member `x` yields `s` with `x` removed,
every other element `y` still present (in the same relative order), with
`*IteratorTo(y)` still `y`. -/
theorem C12_list_refines_sequence (h : Heap) (d : Nat) (s : List Nat) (hw : h.WF)
    (hs : List.Iterates h d s) :
    (∀ e, e ≠ d → ListHook.IsLinked h e = false →
      List.Iterates (List.PushBack h d e) d (s ++ [e]) ∧
      List.Iterates (List.PushFront h d e) d (e :: s)) ∧
    (s ≠ [] → List.Iterates (List.PopFront h d) d s.tail ∧
      List.Iterates (List.PopBack h d) d s.dropLast) ∧
    (∀ x, x ∈ s → List.Iterates (ListHook.Unlink h x) d (s.erase x) ∧
      ∀ y, y ∈ s → y ≠ x → y ∈ s.erase x ∧ List.deref (List.IteratorTo y) = y) := by
  refine ⟨?_, ?_, ?_⟩
  · intro e hed hl
    have he : h.next_ e = e := by simpa [ListHook.IsLinked] using hl
    obtain ⟨un, up⟩ := Unlink_unlinked hw he
    constructor
    · refine Iterates.after_push_back hw hs he hed (fun x => ?_)
      rw [List.PushBack, LinkAfter_next, un, un]
    · refine Iterates.after_push_front hs he hed (fun x => ?_)
      rw [List.PushFront, LinkAfter_next, un, un]
  · intro hne
    constructor
    · cases s with
      | nil => exact absurd rfl hne
      | cons f rest =>
        have hf : h.next_ d = f := hs.1
        have := Iterates.after_unlink hw hs.2.1 hs
        rw [List.erase_cons_head] at this
        rw [List.PopFront, hf]
        exact this
    · have hsplit := List.dropLast_concat_getLast hne
      have hnd := Iterates.elems_nodup hw hs
      rw [← hsplit] at hs hnd
      have hl : h.next_ (s.getLast hne) = d := Chain.last hs
      have hp : h.prev_ d = s.getLast hne := ((hw.next_eq_iff _ _).1 hl).symm
      have hld : s.getLast hne ≠ d := Chain.ne_dummy hs _ (by simp)
      have hnot : s.getLast hne ∉ s.dropLast := by
        intro hm
        have := List.nodup_append.1 hnd
        exact this.2.2 hm (List.mem_singleton_self _)
      have := Iterates.after_unlink hw hld hs
      rw [List.erase_append_right _ hnot, List.erase_cons_head, List.append_nil] at this
      rw [List.PopBack, hp]
      exact this
  · intro x hx
    refine ⟨Iterates.after_unlink hw (Chain.ne_dummy hs x hx) hs, fun y hy hyx => ?_⟩
    exact ⟨(List.mem_erase_of_ne hyx).2 hy, rfl⟩

/-- Witness of C12, the scenario of the specification: `PushBack` of the
elements A, B, C (addresses 1, 2, 3) on the list at address 0 iterates as
A, B, C; `PopFront` gives B, C; unlinking B gives C. -/
theorem C12_list_refines_sequence_witness :
    ((∀ e, e ≠ 0 → ListHook.IsLinked (run [Op.PushBack 0 1, Op.PushBack 0 2,
          Op.PushBack 0 3]) e = false →
        List.Iterates (List.PushBack (run [Op.PushBack 0 1, Op.PushBack 0 2,
          Op.PushBack 0 3]) 0 e) 0 ([1, 2, 3] ++ [e]) ∧
        List.Iterates (List.PushFront (run [Op.PushBack 0 1, Op.PushBack 0 2,
          Op.PushBack 0 3]) 0 e) 0 (e :: [1, 2, 3])) ∧
      (([1, 2, 3] : List Nat) ≠ [] →
        List.Iterates (List.PopFront (run [Op.PushBack 0 1, Op.PushBack 0 2,
          Op.PushBack 0 3]) 0) 0 ([1, 2, 3] : List Nat).tail ∧
        List.Iterates (List.PopBack (run [Op.PushBack 0 1, Op.PushBack 0 2,
          Op.PushBack 0 3]) 0) 0 ([1, 2, 3] : List Nat).dropLast) ∧
      (∀ x, x ∈ ([1, 2, 3] : List Nat) →
        List.Iterates (ListHook.Unlink (run [Op.PushBack 0 1, Op.PushBack 0 2,
          Op.PushBack 0 3]) x) 0 (([1, 2, 3] : List Nat).erase x) ∧
        ∀ y, y ∈ ([1, 2, 3] : List Nat) → y ≠ x →
          y ∈ ([1, 2, 3] : List Nat).erase x ∧ List.deref (List.IteratorTo y) = y)) ∧
    List.Iterates (run [Op.PushBack 0 1, Op.PushBack 0 2, Op.PushBack 0 3]) 0 [1, 2, 3] ∧
    List.Iterates (run [Op.PushBack 0 1, Op.PushBack 0 2, Op.PushBack 0 3, Op.PopFront 0]) 0
      [2, 3] ∧
    List.Iterates (run [Op.PushBack 0 1, Op.PushBack 0 2, Op.PushBack 0 3, Op.PopFront 0,
      Op.Unlink 2]) 0 [3] ∧
    List.walk (run [Op.PushBack 0 1, Op.PushBack 0 2, Op.PushBack 0 3]) 0 4
      ((run [Op.PushBack 0 1, Op.PushBack 0 2, Op.PushBack 0 3]).next_ 0) = some [1, 2, 3] :=
  ⟨C12_list_refines_sequence (run [Op.PushBack 0 1, Op.PushBack 0 2, Op.PushBack 0 3]) 0
      [1, 2, 3] (run_WF _) (by decide),
    by decide, by decide, by decide, by decide⟩

/-- C13: `Unlink` is idempotent.  In a state whose hooks form rings, after
`t.Unlink()` the hook `t` is a self-linked singleton (`prev_ == next_ == t`,
`IsLinked()` false) and, when `t` was linked, its former neighbours are
linked to each other; `Unlink()` on a hook that is already unlinked changes
no `prev_` or `next_` of any hook; so `Unlink` twice leaves every hook as a
single `Unlink` does. -/
theorem C13_Unlink_idempotent (h : Heap) (t : Nat) (hw : h.WF) :
    ((ListHook.Unlink h t).prev_ t = t ∧ (ListHook.Unlink h t).next_ t = t ∧
      ListHook.IsLinked (ListHook.Unlink h t) t = false) ∧
    (ListHook.IsLinked h t = true →
      (ListHook.Unlink h t).next_ (h.prev_ t) = h.next_ t ∧
      (ListHook.Unlink h t).prev_ (h.next_ t) = h.prev_ t) ∧
    (ListHook.IsLinked h t = false →
      ∀ x, (ListHook.Unlink h t).next_ x = h.next_ x ∧
        (ListHook.Unlink h t).prev_ x = h.prev_ x) ∧
    (∀ x, (ListHook.Unlink (ListHook.Unlink h t) t).next_ x = (ListHook.Unlink h t).next_ x ∧
      (ListHook.Unlink (ListHook.Unlink h t) t).prev_ x = (ListHook.Unlink h t).prev_ x) := by
  obtain ⟨hn, hp⟩ := Unlink_self h t
  refine ⟨⟨hp, hn, by simp [ListHook.IsLinked, hn]⟩, ?_, ?_, ?_⟩
  · intro hl
    have hne : h.next_ t ≠ t := by simpa [ListHook.IsLinked] using hl
    have hpe : h.prev_ t ≠ t := by
      intro e
      exact hne ((hw.next_eq_iff t t).2 e.symm)
    constructor
    · rw [Unlink_next, if_neg hpe, if_pos rfl]
    · rw [Unlink_prev, if_neg hne, if_pos rfl]
  · intro hl
    have he : h.next_ t = t := by simpa [ListHook.IsLinked] using hl
    obtain ⟨un, up⟩ := Unlink_unlinked hw he
    exact fun x => ⟨un x, up x⟩
  · obtain ⟨un, up⟩ := Unlink_unlinked (Unlink_WF h t hw) hn
    exact fun x => ⟨un x, up x⟩

/-- Witness of C13: unlinking the first of two elements of a list. -/
theorem C13_Unlink_idempotent_witness :
    (run [Op.PushBack 0 1, Op.PushBack 0 2]).WF ∧
    (((ListHook.Unlink (run [Op.PushBack 0 1, Op.PushBack 0 2]) 1).prev_ 1 = 1 ∧
      (ListHook.Unlink (run [Op.PushBack 0 1, Op.PushBack 0 2]) 1).next_ 1 = 1 ∧
      ListHook.IsLinked (ListHook.Unlink (run [Op.PushBack 0 1, Op.PushBack 0 2]) 1) 1 =
        false) ∧
    (ListHook.IsLinked (run [Op.PushBack 0 1, Op.PushBack 0 2]) 1 = true →
      (ListHook.Unlink (run [Op.PushBack 0 1, Op.PushBack 0 2]) 1).next_
          ((run [Op.PushBack 0 1, Op.PushBack 0 2]).prev_ 1) =
        (run [Op.PushBack 0 1, Op.PushBack 0 2]).next_ 1 ∧
      (ListHook.Unlink (run [Op.PushBack 0 1, Op.PushBack 0 2]) 1).prev_
          ((run [Op.PushBack 0 1, Op.PushBack 0 2]).next_ 1) =
        (run [Op.PushBack 0 1, Op.PushBack 0 2]).prev_ 1) ∧
    (ListHook.IsLinked (run [Op.PushBack 0 1, Op.PushBack 0 2]) 1 = false →
      ∀ x, (ListHook.Unlink (run [Op.PushBack 0 1, Op.PushBack 0 2]) 1).next_ x =
          (run [Op.PushBack 0 1, Op.PushBack 0 2]).next_ x ∧
        (ListHook.Unlink (run [Op.PushBack 0 1, Op.PushBack 0 2]) 1).prev_ x =
          (run [Op.PushBack 0 1, Op.PushBack 0 2]).prev_ x) ∧
    (∀ x, (ListHook.Unlink (ListHook.Unlink (run [Op.PushBack 0 1, Op.PushBack 0 2]) 1) 1).next_
          x = (ListHook.Unlink (run [Op.PushBack 0 1, Op.PushBack 0 2]) 1).next_ x ∧
      (ListHook.Unlink (ListHook.Unlink (run [Op.PushBack 0 1, Op.PushBack 0 2]) 1) 1).prev_
          x = (ListHook.Unlink (run [Op.PushBack 0 1, Op.PushBack 0 2]) 1).prev_ x)) :=
  ⟨run_WF _, C13_Unlink_idempotent (run [Op.PushBack 0 1, Op.PushBack 0 2]) 1 (run_WF _)⟩

/-- C18: in the state reached from empty lists and unlinked elements by any
finite sequence of `PushBack`, `PushFront`, `PopBack`, `PopFront` and element
`Unlink` calls, every list (sentinel `d`) iterates over some elements `s`,
`Size()` returns their number, and `IsEmpty()` is true if and only if there
is no linked element, that is if and only if `Size()` is 0; a list as
constructed has `IsEmpty()` true. -/
theorem C18_IsEmpty_iff_Size_zero (ops : List Op) (d : Nat) :
    ∃ s, List.Iterates (run ops) d s ∧
      (∀ extra, List.Size (run ops) d (s.length + 1 + extra) = some s.length) ∧
      (List.IsEmpty (run ops) d = true ↔ s = []) ∧
      (List.IsEmpty (run ops) d = true ↔ s.length = 0) ∧
      List.IsEmpty Heap.init d = true := by
  obtain ⟨s, hs⟩ := (run_WF ops).exists_iterates d
  have hiff : List.IsEmpty (run ops) d = true ↔ s = [] := by
    simp only [List.IsEmpty, ListHook.IsLinked, Bool.not_eq_true', bne_eq_false_iff_eq]
    constructor
    · intro he
      cases s with
      | nil => rfl
      | cons x s =>
        exfalso
        exact hs.2.1 (hs.1.symm.trans he)
    · intro he
      subst he
      exact hs
  refine ⟨s, hs, ?_, hiff, ?_, ?_⟩
  · intro extra
    have := SizeLoop_of_chain 0 extra hs
    simpa [List.Size] using this
  · rw [hiff]; exact List.length_eq_zero.symm
  · simp [List.IsEmpty, ListHook.IsLinked, Heap.init]

/-- C17: in a state whose hooks form rings, destroying a list (sentinel `d`)
that holds the `n` elements `s` terminates: the unlink loop does not end
within `n` tests of its condition and ends at test `n + 1`, that is after
exactly `n` calls of `Unlink`.  Afterwards every element that was in the list
is a self-linked singleton (`prev_ == next_ ==` itself, `IsLinked()` false),
and every hook that was not in the list (and is not its sentinel) has its
`prev_` and `next_` unchanged. -/
theorem C17_destroy (h : Heap) (d : Nat) (s : List Nat) (hw : h.WF)
    (hs : List.Iterates h d s) :
    (∀ m, m ≤ s.length → List.destroy d m h = none) ∧
    ∃ g, (∀ extra, List.destroy d (s.length + 1 + extra) h = some g) ∧
      (∀ x, x ∈ s → g.next_ x = x ∧ g.prev_ x = x ∧ ListHook.IsLinked g x = false) ∧
      (∀ x, x ∉ s → x ≠ d → g.next_ x = h.next_ x ∧ g.prev_ x = h.prev_ x) := by
  obtain ⟨hnone, g, hg, hgw, hgd, hgs, hgf⟩ := unlinkAll_spec s h d hw hs
  obtain ⟨un, up⟩ := Unlink_unlinked hgw hgd
  refine ⟨fun m hm => by simp [List.destroy, hnone m hm], ListHook.Unlink g d, ?_, ?_, ?_⟩
  · intro extra
    simp [List.destroy, hg extra]
  · intro x hx
    obtain ⟨a, b⟩ := hgs x hx
    refine ⟨(un x).trans a, (up x).trans b, ?_⟩
    simp [ListHook.IsLinked, (un x).trans a]
  · intro x hx hxd
    obtain ⟨a, b⟩ := hgf x hx hxd
    exact ⟨(un x).trans a, (up x).trans b⟩

/-- Witness of C17: destroying the list at address 0 that holds the elements
1, 2, while the list at address 5 holds the element 6. -/
theorem C17_destroy_witness :
    (∀ m, m ≤ [1, 2].length →
      List.destroy 0 m (run [Op.PushBack 0 1, Op.PushBack 0 2, Op.PushBack 5 6]) = none) ∧
    ∃ g, (∀ extra, List.destroy 0 ([1, 2].length + 1 + extra)
        (run [Op.PushBack 0 1, Op.PushBack 0 2, Op.PushBack 5 6]) = some g) ∧
      (∀ x, x ∈ [1, 2] → g.next_ x = x ∧ g.prev_ x = x ∧ ListHook.IsLinked g x = false) ∧
      (∀ x, x ∉ [1, 2] → x ≠ 0 →
        g.next_ x = (run [Op.PushBack 0 1, Op.PushBack 0 2, Op.PushBack 5 6]).next_ x ∧
        g.prev_ x = (run [Op.PushBack 0 1, Op.PushBack 0 2, Op.PushBack 5 6]).prev_ x) :=
  C17_destroy (run [Op.PushBack 0 1, Op.PushBack 0 2, Op.PushBack 5 6]) 0 [1, 2] (run_WF _)
    (by decide)

/-- C11: in a state whose hooks form rings, for two different lists (sentinels
`d1 ≠ d2`, `d2` not an element of the first list) that iterate over `s1` and
`s2`, and every element `e` of the first list: after `L2.PushBack(e)` the
first list iterates over `s1` without `e`, the second over `s2` followed by
`e`; `e` is no longer a member of the first list and is a member of the
second; `Size()` of the first list is its previous size minus one and
`Size()` of the second its previous size plus one. -/
theorem C11_relink (h : Heap) (d1 d2 e : Nat) (s1 s2 : List Nat) (hw : h.WF)
    (h1 : List.Iterates h d1 s1) (h2 : List.Iterates h d2 s2) (hd : d1 ≠ d2)
    (hd2 : d2 ∉ s1) (he : e ∈ s1) :
    List.Iterates (List.PushBack h d2 e) d1 (s1.erase e) ∧
    List.Iterates (List.PushBack h d2 e) d2 (s2 ++ [e]) ∧
    e ∉ s1.erase e ∧ e ∈ s2 ++ [e] ∧
    (∀ extra, List.Size h d1 (s1.length + 1 + extra) = some s1.length) ∧
    (∀ extra, List.Size h d2 (s2.length + 1 + extra) = some s2.length) ∧
    (∀ extra, List.Size (List.PushBack h d2 e) d1 (s1.length + extra) =
      some (s1.length - 1)) ∧
    (∀ extra, List.Size (List.PushBack h d2 e) d2 (s2.length + 2 + extra) =
      some (s2.length + 1)) := by
  have hnd1 := Iterates.elems_nodup hw h1
  have hed1 : e ≠ d1 := Chain.ne_dummy h1 e he
  have hed2 : e ≠ d2 := fun e1 => hd2 (e1 ▸ he)
  have hes2 : e ∉ s2 := Iterates.disjoint h1 h2 hd hd2 e he
  have hw1 := Unlink_WF h e hw
  obtain ⟨usn, _⟩ := Unlink_self h e
  have i1 : List.Iterates (ListHook.Unlink h e) d1 (s1.erase e) :=
    Iterates.after_unlink hw hed1 h1
  have i2 : List.Iterates (ListHook.Unlink h e) d2 s2 := by
    have := Iterates.after_unlink hw hed2 h2
    rwa [List.erase_of_not_mem hes2] at this
  have hne : h.next_ e ≠ d2 := by
    intro e1
    rcases Chain.next_mem h1 e he with m | m
    · exact hd2 (e1 ▸ m)
    · exact hd (m.symm.trans e1)
  have hpt : (ListHook.Unlink h e).prev_ d2 = h.prev_ d2 := by
    rw [Unlink_prev, if_neg (Ne.symm hed2), if_neg (Ne.symm hne)]
  have hg : ∀ x, (List.PushBack h d2 e).next_ x =
      if x = (ListHook.Unlink h e).prev_ d2 then e
      else if x = e then (ListHook.Unlink h e).next_ ((ListHook.Unlink h e).prev_ d2)
      else (ListHook.Unlink h e).next_ x := by
    intro x
    rw [hpt, List.PushBack, LinkAfter_next]
  have j2 : List.Iterates (List.PushBack h d2 e) d2 (s2 ++ [e]) :=
    Iterates.after_push_back hw1 i2 usn hed2 hg
  have hmem : ∀ x, x ∈ s1.erase e → x ≠ e ∧ x ∈ s1 := fun x hx =>
    (List.Nodup.mem_erase_iff hnd1).1 hx
  have hnt : ∀ x, (x ∈ s1 ∨ x = d1) → x ≠ h.prev_ d2 := by
    intro x hx e1
    have hn : h.next_ x = d2 := (hw.next_eq_iff x d2).2 e1
    rcases hx with hx | hx
    · rcases Chain.next_mem h1 x hx with m | m
      · exact hd2 (hn ▸ m)
      · exact hd (m.symm.trans hn)
    · rcases Iterates.head_mem h1 with m | m
      · exact hd2 (by rw [← hn, hx]; exact m)
      · exact hd (by rw [← hn, hx]; exact m.symm)
  have j1 : List.Iterates (List.PushBack h d2 e) d1 (s1.erase e) := by
    refine Iterates.frame i1 ?_ ?_
    · rw [hg, hpt, if_neg (hnt d1 (Or.inr rfl)), if_neg (Ne.symm hed1)]
    · intro x hx
      obtain ⟨hxe, hxs⟩ := hmem x hx
      rw [hg, hpt, if_neg (hnt x (Or.inl hxs)), if_neg hxe]
  have hlen : (s1.erase e).length = s1.length - 1 := List.length_erase_of_mem he
  have hpos : 0 < s1.length := List.length_pos_of_mem he
  refine ⟨j1, j2, fun hm => (hmem e hm).1 rfl, by simp, ?_, ?_, ?_, ?_⟩
  · intro extra
    simpa [List.Size] using SizeLoop_of_chain 0 extra h1
  · intro extra
    simpa [List.Size] using SizeLoop_of_chain 0 extra h2
  · intro extra
    have := SizeLoop_of_chain 0 extra j1
    rw [hlen] at this
    have e2 : s1.length - 1 + 1 + extra = s1.length + extra := by omega
    rw [e2] at this
    simpa [List.Size] using this
  · intro extra
    have := SizeLoop_of_chain 0 extra j2
    have e2 : (s2 ++ [e]).length + 1 + extra = s2.length + 2 + extra := by
      simp only [List.length_append, List.length_singleton]
    rw [e2] at this
    simpa [List.Size] using this

/-- Witness of C11: the list at address 0 holds 1, 2, the list at address 5
holds 6, and the element 1 is pushed back on the second list. -/
theorem C11_relink_witness :
    List.Iterates (List.PushBack (run [Op.PushBack 0 1, Op.PushBack 0 2, Op.PushBack 5 6]) 5 1)
      0 ([1, 2].erase 1) ∧
    List.Iterates (List.PushBack (run [Op.PushBack 0 1, Op.PushBack 0 2, Op.PushBack 5 6]) 5 1)
      5 ([6] ++ [1]) ∧
    1 ∉ [1, 2].erase 1 ∧ 1 ∈ [6] ++ [1] ∧
    (∀ extra, List.Size (run [Op.PushBack 0 1, Op.PushBack 0 2, Op.PushBack 5 6]) 0
      ([1, 2].length + 1 + extra) = some [1, 2].length) ∧
    (∀ extra, List.Size (run [Op.PushBack 0 1, Op.PushBack 0 2, Op.PushBack 5 6]) 5
      ([6].length + 1 + extra) = some [6].length) ∧
    (∀ extra, List.Size
      (List.PushBack (run [Op.PushBack 0 1, Op.PushBack 0 2, Op.PushBack 5 6]) 5 1) 0
      ([1, 2].length + extra) = some ([1, 2].length - 1)) ∧
    (∀ extra, List.Size
      (List.PushBack (run [Op.PushBack 0 1, Op.PushBack 0 2, Op.PushBack 5 6]) 5 1) 5
      ([6].length + 2 + extra) = some ([6].length + 1)) :=
  C11_relink (run [Op.PushBack 0 1, Op.PushBack 0 2, Op.PushBack 5 6]) 0 5 1 [1, 2] [6]
    (run_WF _) (by decide) (by decide) (by decide) (by decide) (by decide)

/-! ## The calculator: lemmas -/

namespace Calculator

theorem dropWhile_spaces (k : Nat) (s : List Char)
    (hs : ∀ c, s.head? = some c → c ≠ ' ') :
    (List.replicate k ' ' ++ s).dropWhile (fun c => c = ' ') = s := by
  induction k with
  | zero =>
    cases s with
    | nil => rfl
    | cons c s =>
      have : c ≠ ' ' := hs c rfl
      simp [List.dropWhile, this]
  | succ k ih =>
    simp only [List.replicate_succ, List.cons_append, List.dropWhile_cons, decide_True,
      if_true]
    exact ih

theorem takeWhile_run (p : Char → Bool) (ds s : List Char) (hd : ∀ c, c ∈ ds → p c = true)
    (hs : ∀ c, s.head? = some c → p c = false) :
    (ds ++ s).takeWhile p = ds ∧ (ds ++ s).dropWhile p = s := by
  induction ds with
  | nil =>
    cases s with
    | nil => exact ⟨rfl, rfl⟩
    | cons c s =>
      have : p c = false := hs c rfl
      simp [List.takeWhile, List.dropWhile, this]
  | cons d ds ih =>
    have hp : p d = true := hd d (List.mem_cons_self _ _)
    obtain ⟨i1, i2⟩ := ih (fun c hc => hd c (List.mem_cons_of_mem _ hc))
    simp [List.takeWhile, List.dropWhile, hp, i1, i2]

theorem consume_holds_aux (T : List Tok) (s : List Char) (hs : Spelled T s) :
    ∀ t : Tokenizer, t.in_ = s → Holds t.Consume T := by
  cases hs with
  | nil k =>
    intro t heq
    have hd : t.in_.dropWhile (fun c => c = ' ') = [] := by
      rw [heq]
      have := dropWhile_spaces k [] (by simp)
      rwa [List.append_nil] at this
    simp only [Tokenizer.Consume, hd, Holds]
    exact ⟨trivial, Spelled.nil 0⟩
  | num k ds T2 s hne hdig hfit hnext hrest =>
    intro t heq
    obtain ⟨d, ds2, rfl⟩ : ∃ d ds2, ds = d :: ds2 := by
      cases ds with
      | nil => exact absurd rfl hne
      | cons d ds2 => exact ⟨d, ds2, rfl⟩
    have hdd : d.isDigit = true := hdig d (List.mem_cons_self _ _)
    have hd : t.in_.dropWhile (fun c => c = ' ') = d :: (ds2 ++ s) := by
      rw [heq]
      refine dropWhile_spaces k _ ?_
      intro c hc
      simp only [List.cons_append, List.head?_cons, Option.some.injEq] at hc
      subst hc
      intro e
      rw [e] at hdd
      exact absurd hdd (by decide)
    obtain ⟨tw, dw⟩ := takeWhile_run Char.isDigit (d :: ds2) s hdig hnext
    simp only [List.cons_append] at tw dw
    simp only [Tokenizer.Consume, hd, hdd, if_true, tw, dw, hfit, Holds]
    exact ⟨trivial, trivial, hrest⟩
  | sym k c T2 s hnd hns hrest =>
    intro t heq
    have hc : c ≠ ' ' := by
      intro e
      rw [e] at hns
      exact absurd hns (by decide)
    have hd : t.in_.dropWhile (fun c => c = ' ') = c :: s := by
      rw [heq]
      refine dropWhile_spaces k _ ?_
      intro x hx
      simp only [List.head?_cons, Option.some.injEq] at hx
      subst hx
      exact hc
    have hw : (c :: s).dropWhile isspace = c :: s := by
      simp [List.dropWhile, hns]
    simp only [Tokenizer.Consume, hd, hnd, hw, Holds, Bool.false_eq_true, if_false]
    exact ⟨trivial, trivial, hrest⟩

theorem consume_holds (t : Tokenizer) (T : List Tok) (hs : Spelled T t.in_) :
    Holds t.Consume T :=
  consume_holds_aux T t.in_ hs t rfl

theorem make_holds (input : List Char) (T : List Tok) (hs : Spelled T input) :
    Holds (Tokenizer.make input) T :=
  consume_holds _ T hs

theorem fuel_mono : ∀ fuel : Nat,
    (∀ t r, Mult fuel t = some r → Mult (fuel + 1) t = some r) ∧
    (∀ a t r, ItemLoop fuel a t = some r → ItemLoop (fuel + 1) a t = some r) ∧
    (∀ t r, Item fuel t = some r → Item (fuel + 1) t = some r) ∧
    (∀ a t r, ExprLoop fuel a t = some r → ExprLoop (fuel + 1) a t = some r) ∧
    (∀ t r, Expr fuel t = some r → Expr (fuel + 1) t = some r) := by
  intro fuel
  induction fuel with
  | zero =>
    refine ⟨?_, ?_, ?_, ?_, ?_⟩
    · intro t r h; simp [Mult] at h
    · intro a t r h; simp [ItemLoop] at h
    · intro t r h; simp [Item] at h
    · intro a t r h; simp [ExprLoop] at h
    · intro t r h; simp [Expr] at h
  | succ n ih =>
    obtain ⟨iM, iIL, iI, iEL, iE⟩ := ih
    refine ⟨?_, ?_, ?_, ?_, ?_⟩
    · intro t r h
      rw [Mult] at h ⊢
      by_cases c1 : t.GetType = TokenType.kNumber
      · rw [if_pos c1] at h ⊢; exact h
      · rw [if_neg c1] at h ⊢
        by_cases c2 : t.GetSymbol = '-' ∨ t.GetSymbol = '+'
        · rw [if_pos c2] at h ⊢
          cases hm : Mult n t.Consume with
          | none => rw [hm] at h; cases h
          | some p => rw [hm] at h; rw [iM _ _ hm]; exact h
        · rw [if_neg c2] at h ⊢
          cases hm : Expr n t.Consume with
          | none => rw [hm] at h; cases h
          | some p => rw [hm] at h; rw [iE _ _ hm]; exact h
    · intro a t r h
      rw [ItemLoop] at h ⊢
      by_cases c1 : t.GetType = TokenType.kSymbol ∧ (t.GetSymbol = '*' ∨ t.GetSymbol = '/')
      · rw [if_pos c1] at h ⊢
        cases hm : Mult n t.Consume with
        | none => rw [hm] at h; cases h
        | some p =>
          rw [hm] at h
          rw [iM _ _ hm]
          exact iIL _ _ _ h
      · rw [if_neg c1] at h ⊢; exact h
    · intro t r h
      rw [Item] at h ⊢
      cases hm : Mult n t with
      | none => rw [hm] at h; cases h
      | some p =>
        rw [hm] at h
        rw [iM _ _ hm]
        exact iIL _ _ _ h
    · intro a t r h
      rw [ExprLoop] at h ⊢
      by_cases c1 : t.GetType = TokenType.kSymbol ∧ (t.GetSymbol = '+' ∨ t.GetSymbol = '-')
      · rw [if_pos c1] at h ⊢
        cases hm : Item n t.Consume with
        | none => rw [hm] at h; cases h
        | some p =>
          rw [hm] at h
          rw [iI _ _ hm]
          exact iEL _ _ _ h
      · rw [if_neg c1] at h ⊢; exact h
    · intro t r h
      rw [Expr] at h ⊢
      cases hm : Item n t with
      | none => rw [hm] at h; cases h
      | some p =>
        rw [hm] at h
        rw [iI _ _ hm]
        exact iEL _ _ _ h

theorem ItemLoop_mono (k : Nat) : ∀ fuel a t r, ItemLoop fuel a t = some r →
    ItemLoop (fuel + k) a t = some r := by
  induction k with
  | zero => intro fuel a t r h; exact h
  | succ k ih => intro fuel a t r h; exact (fuel_mono (fuel + k)).2.1 a t r (ih fuel a t r h)

theorem ExprLoop_mono (k : Nat) : ∀ fuel a t r, ExprLoop fuel a t = some r →
    ExprLoop (fuel + k) a t = some r := by
  induction k with
  | zero => intro fuel a t r h; exact h
  | succ k ih => intro fuel a t r h; exact (fuel_mono (fuel + k)).2.2.2.1 a t r (ih fuel a t r h)

theorem ItemLoop_stop (fuel : Nat) (a : Expression) (t : Tokenizer) (rest : List Tok)
    (ht : Holds t rest) (hn : NotAhead '*' '/' rest) :
    ItemLoop (fuel + 1) a t = some (a, t) := by
  rw [ItemLoop]
  have hc : ¬ (t.GetType = TokenType.kSymbol ∧ (t.GetSymbol = '*' ∨ t.GetSymbol = '/')) := by
    rintro ⟨h1, h2⟩
    cases rest with
    | nil => rw [Tokenizer.GetType, ht.1] at h1; cases h1
    | cons x rest =>
      cases x with
      | num n => rw [Tokenizer.GetType, ht.1] at h1; cases h1
      | sym c =>
        obtain ⟨n1, n2⟩ := hn c rfl
        rw [Tokenizer.GetSymbol, ht.2.1] at h2
        rcases h2 with e | e
        · exact n1 e
        · exact n2 e
  rw [if_neg hc]

theorem ExprLoop_stop (fuel : Nat) (a : Expression) (t : Tokenizer) (rest : List Tok)
    (ht : Holds t rest) (hn : NotAhead '+' '-' rest) :
    ExprLoop (fuel + 1) a t = some (a, t) := by
  rw [ExprLoop]
  have hc : ¬ (t.GetType = TokenType.kSymbol ∧ (t.GetSymbol = '+' ∨ t.GetSymbol = '-')) := by
    rintro ⟨h1, h2⟩
    cases rest with
    | nil => rw [Tokenizer.GetType, ht.1] at h1; cases h1
    | cons x rest =>
      cases x with
      | num n => rw [Tokenizer.GetType, ht.1] at h1; cases h1
      | sym c =>
        obtain ⟨n1, n2⟩ := hn c rfl
        rw [Tokenizer.GetSymbol, ht.2.1] at h2
        rcases h2 with e | e
        · exact n1 e
        · exact n2 e
  rw [if_neg hc]

theorem item_done (i : GItem) (t : Tokenizer) (rest : List Tok)
    (h : ∃ k t2, Holds t2 rest ∧
      ∀ fuel r, ItemLoop fuel i.tree t2 = some r → Item (fuel + k) t = some r)
    (hn : NotAhead '*' '/' rest) :
    ∃ k t2, Holds t2 rest ∧ ∀ fuel, Item (fuel + k) t = some (i.tree, t2) := by
  obtain ⟨k, t2, ht2, hk⟩ := h
  refine ⟨1 + k, t2, ht2, fun fuel => ?_⟩
  have := hk (fuel + 1) _ (ItemLoop_stop fuel i.tree t2 rest ht2 hn)
  rwa [Nat.add_assoc] at this

theorem Mult_sign (fuel : Nat) (t t2 : Tokenizer) (c : Char) (T : List Tok) (b : Expression)
    (ht : Holds t (Tok.sym c :: T)) (hc : c = '-' ∨ c = '+')
    (hm : Mult fuel t.Consume = some (b, t2)) :
    Mult (fuel + 1) t = some (Expression.UnaryExpression b c, t2) := by
  have h1 : ¬ t.GetType = TokenType.kNumber := by
    rw [Tokenizer.GetType, ht.1]; intro e; cases e
  have h2 : t.GetSymbol = c := ht.2.1
  rw [Mult, if_neg h1, h2, if_pos hc, hm]

theorem Mult_paren (fuel : Nat) (t t2 : Tokenizer) (c : Char) (T : List Tok) (b : Expression)
    (ht : Holds t (Tok.sym c :: T)) (hc : ¬ (c = '-' ∨ c = '+'))
    (hm : Expr fuel t.Consume = some (b, t2)) :
    Mult (fuel + 1) t = some (b, t2.Consume) := by
  have h1 : ¬ t.GetType = TokenType.kNumber := by
    rw [Tokenizer.GetType, ht.1]; intro e; cases e
  have h2 : t.GetSymbol = c := ht.2.1
  rw [Mult, if_neg h1, h2, if_neg hc, hm]

theorem ItemLoop_step (fuel : Nat) (a b : Expression) (t t2 : Tokenizer) (c : Char)
    (T : List Tok) (ht : Holds t (Tok.sym c :: T)) (hc : c = '*' ∨ c = '/')
    (hm : Mult fuel t.Consume = some (b, t2)) :
    ItemLoop (fuel + 1) a t = ItemLoop fuel (Expression.BinaryExpression a b c) t2 := by
  have h1 : t.GetType = TokenType.kSymbol := ht.1
  have h2 : t.GetSymbol = c := ht.2.1
  rw [ItemLoop, h2, if_pos ⟨h1, hc⟩, hm]

theorem ExprLoop_step (fuel : Nat) (a b : Expression) (t t2 : Tokenizer) (c : Char)
    (T : List Tok) (ht : Holds t (Tok.sym c :: T)) (hc : c = '+' ∨ c = '-')
    (hm : Item fuel t.Consume = some (b, t2)) :
    ExprLoop (fuel + 1) a t = ExprLoop fuel (Expression.BinaryExpression a b c) t2 := by
  have h1 : t.GetType = TokenType.kSymbol := ht.1
  have h2 : t.GetSymbol = c := ht.2.1
  rw [ExprLoop, h2, if_pos ⟨h1, hc⟩, hm]

theorem notAhead_sym (a b c : Char) (T : List Tok) (h1 : c ≠ a) (h2 : c ≠ b) :
    NotAhead a b (Tok.sym c :: T) := by
  intro x hx
  simp only [List.head?_cons, Option.some.injEq, Tok.sym.injEq] at hx
  subst hx
  exact ⟨h1, h2⟩

theorem Item_start (fuel : Nat) (t t2 : Tokenizer) (a : Expression)
    (hm : Mult fuel t = some (a, t2)) : Item (fuel + 1) t = ItemLoop fuel a t2 := by
  rw [Item, hm]

theorem Expr_start (fuel : Nat) (t t2 : Tokenizer) (a : Expression)
    (hm : Item fuel t = some (a, t2)) : Expr (fuel + 1) t = ExprLoop fuel a t2 := by
  rw [Expr, hm]

theorem item_binary (a b : Expression) (c : Char) (hc : c = '*' ∨ c = '/')
    (t t1 t2 : Tokenizer) (k1 k2 : Nat) (T : List Tok) (ht1 : Holds t1 (Tok.sym c :: T))
    (hk1 : ∀ fuel r, ItemLoop fuel a t1 = some r → Item (fuel + k1) t = some r)
    (hk2 : ∀ fuel, Mult (fuel + k2) t1.Consume = some (b, t2)) :
    ∀ fuel r, ItemLoop fuel (Expression.BinaryExpression a b c) t2 = some r →
      Item (fuel + (k2 + 1 + k1)) t = some r := by
  intro fuel r hr
  have h3 : ItemLoop (fuel + k2 + 1) a t1 = some r := by
    rw [ItemLoop_step (fuel + k2) a b t1 t2 c T ht1 hc (hk2 fuel)]
    exact ItemLoop_mono k2 fuel _ _ _ hr
  have h4 := hk1 _ _ h3
  have e : fuel + (k2 + 1 + k1) = fuel + k2 + 1 + k1 := by omega
  rw [e]; exact h4

theorem expr_binary (a b : Expression) (c : Char) (hc : c = '+' ∨ c = '-')
    (t t1 t2 : Tokenizer) (k1 k2 : Nat) (T : List Tok) (ht1 : Holds t1 (Tok.sym c :: T))
    (hk1 : ∀ fuel r, ExprLoop fuel a t1 = some r → Expr (fuel + k1) t = some r)
    (hk2 : ∀ fuel, Item (fuel + k2) t1.Consume = some (b, t2)) :
    ∀ fuel r, ExprLoop fuel (Expression.BinaryExpression a b c) t2 = some r →
      Expr (fuel + (k2 + 1 + k1)) t = some r := by
  intro fuel r hr
  have h3 : ExprLoop (fuel + k2 + 1) a t1 = some r := by
    rw [ExprLoop_step (fuel + k2) a b t1 t2 c T ht1 hc (hk2 fuel)]
    exact ExprLoop_mono k2 fuel _ _ _ hr
  have h4 := hk1 _ _ h3
  have e : fuel + (k2 + 1 + k1) = fuel + k2 + 1 + k1 := by omega
  rw [e]; exact h4

mutual

theorem parse_mult : ∀ (m : GMult) (t : Tokenizer) (rest : List Tok),
    Holds t (m.toks ++ rest) →
    ∃ k t2, Holds t2 rest ∧ ∀ fuel, Mult (fuel + k) t = some (m.tree, t2)
  | GMult.num n, t, rest, ht => by
    have e1 : (GMult.num n).toks ++ rest = Tok.num n :: rest := by simp [GMult.toks]
    rw [e1] at ht
    refine ⟨1, t.Consume, consume_holds t rest ht.2.2, fun fuel => ?_⟩
    have h1 : t.GetType = TokenType.kNumber := ht.1
    have h2 : t.GetNumber = (n : Int) := ht.2.1
    rw [Mult, if_pos h1, h2, GMult.tree]
  | GMult.pos m, t, rest, ht => by
    have e1 : (GMult.pos m).toks ++ rest = Tok.sym '+' :: (m.toks ++ rest) := by
      simp [GMult.toks]
    rw [e1] at ht
    obtain ⟨k, t2, ht2, hk⟩ := parse_mult m t.Consume rest (consume_holds t _ ht.2.2)
    refine ⟨k + 1, t2, ht2, fun fuel => ?_⟩
    rw [← Nat.add_assoc, GMult.tree]
    exact Mult_sign _ t t2 '+' _ _ ht (Or.inr rfl) (hk fuel)
  | GMult.neg m, t, rest, ht => by
    have e1 : (GMult.neg m).toks ++ rest = Tok.sym '-' :: (m.toks ++ rest) := by
      simp [GMult.toks]
    rw [e1] at ht
    obtain ⟨k, t2, ht2, hk⟩ := parse_mult m t.Consume rest (consume_holds t _ ht.2.2)
    refine ⟨k + 1, t2, ht2, fun fuel => ?_⟩
    rw [← Nat.add_assoc, GMult.tree]
    exact Mult_sign _ t t2 '-' _ _ ht (Or.inl rfl) (hk fuel)
  | GMult.paren e, t, rest, ht => by
    have e1 : (GMult.paren e).toks ++ rest =
        Tok.sym '(' :: (e.toks ++ (Tok.sym ')' :: rest)) := by
      simp [GMult.toks]
    rw [e1] at ht
    obtain ⟨k, t2, ht2, hk⟩ := parse_expr e t.Consume _ (consume_holds t _ ht.2.2)
      (notAhead_sym _ _ _ _ (by decide) (by decide))
    refine ⟨1 + k + 1, t2.Consume, consume_holds t2 rest ht2.2.2, fun fuel => ?_⟩
    have h3 := hk (fuel + 1) _ (ExprLoop_stop fuel e.tree t2 _ ht2
      (notAhead_sym _ _ _ _ (by decide) (by decide)))
    have h4 := Mult_paren _ t t2 '(' _ _ ht (by decide) h3
    have e2 : fuel + (1 + k + 1) = fuel + 1 + k + 1 := by omega
    rw [GMult.tree, e2]; exact h4

theorem parse_item : ∀ (i : GItem) (t : Tokenizer) (rest : List Tok),
    Holds t (i.toks ++ rest) →
    ∃ k t2, Holds t2 rest ∧
      ∀ fuel r, ItemLoop fuel i.tree t2 = some r → Item (fuel + k) t = some r
  | GItem.mult m, t, rest, ht => by
    have e1 : (GItem.mult m).toks ++ rest = m.toks ++ rest := by simp [GItem.toks]
    rw [e1] at ht
    obtain ⟨k, t2, ht2, hk⟩ := parse_mult m t rest ht
    refine ⟨k + 1, t2, ht2, fun fuel r hr => ?_⟩
    rw [GItem.tree] at hr
    rw [← Nat.add_assoc, Item_start _ t t2 _ (hk fuel)]
    exact ItemLoop_mono k fuel _ _ _ hr
  | GItem.mul i m, t, rest, ht => by
    have e1 : (GItem.mul i m).toks ++ rest =
        i.toks ++ (Tok.sym '*' :: (m.toks ++ rest)) := by simp [GItem.toks]
    rw [e1] at ht
    obtain ⟨k1, t1, ht1, hk1⟩ := parse_item i t _ ht
    obtain ⟨k2, t2, ht2, hk2⟩ := parse_mult m t1.Consume rest (consume_holds t1 _ ht1.2.2)
    refine ⟨k2 + 1 + k1, t2, ht2, ?_⟩
    rw [GItem.tree]
    exact item_binary _ _ '*' (Or.inl rfl) t t1 t2 k1 k2 _ ht1 hk1 hk2
  | GItem.div i m, t, rest, ht => by
    have e1 : (GItem.div i m).toks ++ rest =
        i.toks ++ (Tok.sym '/' :: (m.toks ++ rest)) := by simp [GItem.toks]
    rw [e1] at ht
    obtain ⟨k1, t1, ht1, hk1⟩ := parse_item i t _ ht
    obtain ⟨k2, t2, ht2, hk2⟩ := parse_mult m t1.Consume rest (consume_holds t1 _ ht1.2.2)
    refine ⟨k2 + 1 + k1, t2, ht2, ?_⟩
    rw [GItem.tree]
    exact item_binary _ _ '/' (Or.inr rfl) t t1 t2 k1 k2 _ ht1 hk1 hk2

theorem parse_expr : ∀ (e : GExpr) (t : Tokenizer) (rest : List Tok),
    Holds t (e.toks ++ rest) → NotAhead '*' '/' rest →
    ∃ k t2, Holds t2 rest ∧
      ∀ fuel r, ExprLoop fuel e.tree t2 = some r → Expr (fuel + k) t = some r
  | GExpr.item i, t, rest, ht, hn => by
    have e1 : (GExpr.item i).toks ++ rest = i.toks ++ rest := by simp [GExpr.toks]
    rw [e1] at ht
    obtain ⟨k, t2, ht2, hk⟩ := item_done i t rest (parse_item i t rest ht) hn
    refine ⟨k + 1, t2, ht2, fun fuel r hr => ?_⟩
    rw [GExpr.tree] at hr
    rw [← Nat.add_assoc, Expr_start _ t t2 _ (hk fuel)]
    exact ExprLoop_mono k fuel _ _ _ hr
  | GExpr.add e i, t, rest, ht, hn => by
    have e1 : (GExpr.add e i).toks ++ rest =
        e.toks ++ (Tok.sym '+' :: (i.toks ++ rest)) := by simp [GExpr.toks]
    rw [e1] at ht
    obtain ⟨k1, t1, ht1, hk1⟩ := parse_expr e t _ ht
      (notAhead_sym _ _ _ _ (by decide) (by decide))
    obtain ⟨k2, t2, ht2, hk2⟩ := item_done i t1.Consume rest
      (parse_item i t1.Consume rest (consume_holds t1 _ ht1.2.2)) hn
    refine ⟨k2 + 1 + k1, t2, ht2, ?_⟩
    rw [GExpr.tree]
    exact expr_binary _ _ '+' (Or.inl rfl) t t1 t2 k1 k2 _ ht1 hk1 hk2
  | GExpr.sub e i, t, rest, ht, hn => by
    have e1 : (GExpr.sub e i).toks ++ rest =
        e.toks ++ (Tok.sym '-' :: (i.toks ++ rest)) := by simp [GExpr.toks]
    rw [e1] at ht
    obtain ⟨k1, t1, ht1, hk1⟩ := parse_expr e t _ ht
      (notAhead_sym _ _ _ _ (by decide) (by decide))
    obtain ⟨k2, t2, ht2, hk2⟩ := item_done i t1.Consume rest
      (parse_item i t1.Consume rest (consume_holds t1 _ ht1.2.2)) hn
    refine ⟨k2 + 1 + k1, t2, ht2, ?_⟩
    rw [GExpr.tree]
    exact expr_binary _ _ '-' (Or.inr rfl) t t1 t2 k1 k2 _ ht1 hk1 hk2

end

mutual

theorem exprTree_value : ∀ e : GExpr, e.tree.Evaluate = e.value
  | GExpr.item i => by rw [GExpr.tree, GExpr.value]; exact itemTree_value i
  | GExpr.add e i => by
    rw [GExpr.tree, GExpr.value, Expression.Evaluate, exprTree_value e, itemTree_value i]
    simp
  | GExpr.sub e i => by
    rw [GExpr.tree, GExpr.value, Expression.Evaluate, exprTree_value e, itemTree_value i]
    simp

theorem itemTree_value : ∀ i : GItem, i.tree.Evaluate = i.value
  | GItem.mult m => by rw [GItem.tree, GItem.value]; exact multTree_value m
  | GItem.mul i m => by
    rw [GItem.tree, GItem.value, Expression.Evaluate, itemTree_value i, multTree_value m]
    simp
  | GItem.div i m => by
    rw [GItem.tree, GItem.value, Expression.Evaluate, itemTree_value i, multTree_value m]
    simp

theorem multTree_value : ∀ m : GMult, m.tree.Evaluate = m.value
  | GMult.num n => by rw [GMult.tree, GMult.value, Expression.Evaluate]
  | GMult.pos m => by
    rw [GMult.tree, GMult.value, Expression.Evaluate, multTree_value m]
    simp
  | GMult.neg m => by
    rw [GMult.tree, GMult.value, Expression.Evaluate, multTree_value m]
    simp
  | GMult.paren e => by rw [GMult.tree, GMult.value]; exact exprTree_value e

end

theorem parse_all (g : GExpr) (input : List Char) (hs : Spelled g.toks input) :
    ∃ k t, Holds t [] ∧
      ∀ fuel, ParseExpression (fuel + k) (Tokenizer.make input) = some (g.tree, t) := by
  have ht : Holds (Tokenizer.make input) (g.toks ++ []) := by
    rw [List.append_nil]; exact make_holds input _ hs
  have hn : ∀ a b : Char, NotAhead a b [] := by
    intro a b c hc; simp at hc
  obtain ⟨k, t2, ht2, hk⟩ := parse_expr g _ [] ht (hn _ _)
  refine ⟨1 + k, t2, ht2, fun fuel => ?_⟩
  have := hk (fuel + 1) _ (ExprLoop_stop fuel g.tree t2 [] ht2 (hn _ _))
  rw [ParseExpression, ← Nat.add_assoc]; exact this

/-- The spelling `7 - 2 - 3` of the tokens `7`, `-`, `2`, `-`, `3`. -/
theorem spelled_7_2_3 :
    Spelled [Tok.num 7, Tok.sym '-', Tok.num 2, Tok.sym '-', Tok.num 3] "7 - 2 - 3".toList := by
  have h3 : Spelled [Tok.num 3] [' ', '3'] :=
    Spelled.num 1 ['3'] [] [] (by decide) (by decide) (by decide) (by simp) (Spelled.nil 0)
  have h2 : Spelled [Tok.sym '-', Tok.num 3] [' ', '-', ' ', '3'] :=
    Spelled.sym 1 '-' _ _ (by decide) (by decide) h3
  have h1 : Spelled [Tok.num 2, Tok.sym '-', Tok.num 3] [' ', '2', ' ', '-', ' ', '3'] :=
    Spelled.num 1 ['2'] _ _ (by decide) (by decide) (by decide) (by simp) h2
  have h0 : Spelled [Tok.sym '-', Tok.num 2, Tok.sym '-', Tok.num 3]
      [' ', '-', ' ', '2', ' ', '-', ' ', '3'] :=
    Spelled.sym 1 '-' _ _ (by decide) (by decide) h1
  exact Spelled.num 0 ['7'] _ _ (by decide) (by decide) (by decide) (by simp) h0

/-- The examples of the specification, and a division by zero. -/
theorem calculate_examples :
    calculate 20 "7 - 2 - 3" = some (some 2) ∧
    calculate 20 "2 + 3 * 4" = some (some 14) ∧
    calculate 20 "8 / 4 / 2" = some (some 1) ∧
    calculate 20 "(1 + 2) * 3" = some (some 9) ∧
    calculate 20 "-7 / 2" = some (some (-3)) ∧
    calculate 20 "2*(3+4)-5" = some (some 9) ∧
    calculate 20 "1 / 0" = some none := by
  refine ⟨?_, ?_, ?_, ?_, ?_, ?_, ?_⟩ <;> decide

end Calculator

/-! ## The calculator: claims -/

/-- C20: for every expression `g` of the grammar (numbers, binary `+ - * /`,
unary `+ -`, parentheses) and every input that spells the tokens of `g`, with
any number of spaces around them and numerals that fit `int64_t`,
`ParseExpression` on a tokenizer over the input followed by `Evaluate()`
returns, for all sufficient fuel, the value of `g`: `*` and `/` bind tighter
than `+` and `-`, operators of one tier associate to the left, a sign applies
to the operand that follows it, the arithmetic is that of `int64_t` and
division truncates toward zero.  Where that arithmetic overflows or divides by
zero both sides are `none`. -/
theorem C20_calculator (g : Calculator.GExpr) (input : String)
    (hs : Calculator.Spelled g.toks input.toList) :
    ∃ k, ∀ fuel, Calculator.calculate (fuel + k) input = some g.value := by
  obtain ⟨k, t, _, hk⟩ := Calculator.parse_all g input.toList hs
  refine ⟨k, fun fuel => ?_⟩
  rw [Calculator.calculate, hk fuel, Option.map_some', Calculator.exprTree_value]

/-- C20 at the input `7 - 2 - 3`, whose value is `(7 - 2) - 3 = 2`. -/
theorem C20_calculator_witness :
    Calculator.Spelled
      (Calculator.GExpr.sub
        (Calculator.GExpr.sub (Calculator.GExpr.item (Calculator.GItem.mult (Calculator.GMult.num 7)))
          (Calculator.GItem.mult (Calculator.GMult.num 2)))
        (Calculator.GItem.mult (Calculator.GMult.num 3))).toks "7 - 2 - 3".toList ∧
    ∃ k, ∀ fuel, Calculator.calculate (fuel + k) "7 - 2 - 3" = some (some 2) :=
  ⟨Calculator.spelled_7_2_3,
    C20_calculator
      (Calculator.GExpr.sub
        (Calculator.GExpr.sub (Calculator.GExpr.item (Calculator.GItem.mult (Calculator.GMult.num 7)))
          (Calculator.GItem.mult (Calculator.GMult.num 2)))
        (Calculator.GItem.mult (Calculator.GMult.num 3)))
      "7 - 2 - 3" Calculator.spelled_7_2_3⟩

/-! ## The dynamic array with addresses: lemmas -/

namespace Addr

theorem load_put (S : Store) (p q : Nat) (c : List Cell) :
    Store.load (Store.put S p c) q = if p = q then some c else Store.load S q := by
  simp [Store.put, Store.load]

theorem load_free (S : Store) (p q : Nat) :
    Store.load (Store.free S p) q = if q = p then none else Store.load S q := by
  induction S with
  | nil => simp [Store.free, Store.load]
  | cons e S ih =>
    obtain ⟨r, c⟩ := e
    unfold Store.free at ih ⊢
    rw [List.filter_cons]
    by_cases h : r = p
    · subst h
      simp only [bne_self_eq_false, Bool.false_eq_true, if_false, ih, Store.load]
      by_cases h2 : q = r
      · simp [h2]
      · have h3 : ¬ r = q := fun e => h2 e.symm
        simp [h2, h3]
    · have h1 : (r != p) = true := by simp [h]
      simp only [h1, if_true, Store.load, ih]
      by_cases h2 : r = q
      · subst h2; simp [h]
      · simp [h2]

theorem load_none_of_lt (S : Store) (p : Nat) (h : (S.map (fun e => e.1)).sum < p) :
    Store.load S p = none := by
  induction S with
  | nil => rfl
  | cons e S ih =>
    obtain ⟨r, c⟩ := e
    simp only [List.map_cons, List.sum_cons] at h
    have h1 : ¬ r = p := by omega
    simp only [Store.load, h1, if_false]
    exact ih (by omega)

theorem bump_fresh : Allocator.Fresh bump := by
  intro S n
  exact load_none_of_lt S _ (Nat.lt_succ_self _)

theorem spanStoreAt_some (S S2 : Store) (p : Option Nat) (ext i : Nat) (x : Cell)
    (h : spanStoreAt S p ext i x = some S2) :
    ∃ a c, p = some a ∧ Store.load S a = some c ∧ S2 = Store.put S a (c.set i x) := by
  unfold spanStoreAt at h
  cases p with
  | none => cases h
  | some a =>
    cases hl : Store.load S a with
    | none => simp [hl] at h
    | some c =>
      simp only [hl] at h
      by_cases hc : i < ext ∧ i < c.length
      · rw [if_pos hc] at h
        exact ⟨a, c, rfl, hl, (Option.some.inj h).symm⟩
      · rw [if_neg hc] at h; cases h

theorem spanStoreAt_frame (S S2 : Store) (p : Option Nat) (ext i : Nat) (x : Cell)
    (h : spanStoreAt S p ext i x = some S2) (r : Nat) (hr : p ≠ some r) :
    Store.load S2 r = Store.load S r := by
  obtain ⟨a, c, hp, _, h2⟩ := spanStoreAt_some S S2 p ext i x h
  subst hp
  have h3 : ¬ a = r := fun e => hr (by rw [e])
  rw [h2, load_put, if_neg h3]

theorem copyLoopAt_frame (src : Option Nat) (sext : Nat) (dst : Option Nat) (dext : Nat)
    (r : Nat) (hr : dst ≠ some r) :
    ∀ n S S2, copyLoopAt src sext dst dext n S = some S2 → Store.load S2 r = Store.load S r
  | 0, S, S2, h => by
    simp only [copyLoopAt] at h
    rw [← Option.some.inj h]
  | n + 1, S, S2, h => by
    simp only [copyLoopAt, Option.bind_eq_bind, Option.bind_eq_some] at h
    obtain ⟨S1, h1, x, _, h2⟩ := h
    rw [spanStoreAt_frame S1 S2 dst dext n x h2 r hr]
    exact copyLoopAt_frame src sext dst dext r hr n S S1 h1

theorem copyLoopAt_some (S : Store) (q p : Nat) (sc dc : List Cell) (sext dext : Nat)
    (hq : Store.load S q = some sc) (hp : Store.load S p = some dc) (hne : q ≠ p) :
    ∀ n, n ≤ sext → n ≤ sc.length → n ≤ dext → n ≤ dc.length →
      ∃ S2, copyLoopAt (some q) sext (some p) dext n S = some S2 ∧
        Store.load S2 p = some (sc.take n ++ dc.drop n) ∧
        ∀ r, r ≠ p → Store.load S2 r = Store.load S r
  | 0, _, _, _, _ => ⟨S, rfl, by simpa using hp, fun _ _ => rfl⟩
  | n + 1, h1, h2, h3, h4 => by
    obtain ⟨S1, e1, l1, f1⟩ :=
      copyLoopAt_some S q p sc dc sext dext hq hp hne n (by omega) (by omega) (by omega)
        (by omega)
    have hx : sc[n]? = some sc[n] := List.getElem?_eq_getElem (by omega)
    have hl : n < (sc.take n ++ dc.drop n).length := by
      simp only [List.length_append, List.length_take, List.length_drop]; omega
    have hq1 : Store.load S1 q = some sc := by rw [f1 q hne, hq]
    refine ⟨Store.put S1 p ((sc.take n ++ dc.drop n).set n sc[n]), ?_, ?_, ?_⟩
    · simp only [copyLoopAt, e1, Option.bind_eq_bind, Option.some_bind, spanLoadAt, hq1,
        show n < sext from by omega, if_true, hx, spanStoreAt, l1,
        show n < dext from by omega, hl, and_self]
    · rw [load_put, if_pos rfl, set_take_drop sc dc n _ hx (by omega)]
    · intro r hr
      have h5 : ¬ p = r := fun e => hr e.symm
      rw [load_put, if_neg h5, f1 r hr]

theorem deleteAt_frame (S S2 : Store) (p : Option Nat) (h : deleteAt S p = some S2)
    (r : Nat) (hr : p ≠ some r) : Store.load S2 r = Store.load S r := by
  cases p with
  | none =>
    simp only [deleteAt] at h
    rw [← Option.some.inj h]
  | some a =>
    simp only [deleteAt] at h
    have h3 : ¬ r = a := fun e => hr (by rw [e])
    by_cases hc : (Store.load S a).isSome = true
    · rw [if_pos hc] at h
      rw [← Option.some.inj h, load_free, if_neg h3]
    · rw [if_neg hc] at h; cases h

theorem fresh_ne (alloc : Allocator) (hf : alloc.Fresh) (S : Store) (n q : Nat)
    (hq : (Store.load S q).isSome = true) : alloc S n ≠ q := by
  intro e
  rw [← e, hf S n] at hq
  cases hq

theorem Reserve_frame (alloc : Allocator) (hf : alloc.Fresh) (S S2 : Store) (v v2 : Vector)
    (c : Nat) (h : Vector.Reserve alloc S v c = some (S2, v2)) (q : Nat)
    (hq : (Store.load S q).isSome = true) (hne : v.begin_ ≠ some q) :
    Store.load S2 q = Store.load S q ∧ v2.begin_ ≠ some q := by
  unfold Vector.Reserve at h
  by_cases hc : c > v.capacity_
  · rw [if_pos hc] at h
    simp only [newIntsAt, Option.bind_eq_bind, Option.bind_eq_some, Option.pure_def,
      Option.some.injEq, Prod.mk.injEq] at h
    obtain ⟨S1, h1, S3, h3, h4, h5⟩ := h
    have hp : alloc S c ≠ q := fresh_ne alloc hf S c q hq
    have hp2 : some (alloc S c) ≠ some q := fun e => hp (Option.some.inj e)
    refine ⟨?_, ?_⟩
    · rw [← h4, deleteAt_frame S1 S3 v.begin_ h3 q hne,
        copyLoopAt_frame _ _ _ _ q hp2 _ _ _ h1, load_put, if_neg hp]
    · rw [← h5]; exact hp2
  · rw [if_neg hc] at h
    simp only [Option.pure_def, Option.some.injEq, Prod.mk.injEq] at h
    rw [← h.1, ← h.2]
    exact ⟨rfl, hne⟩

theorem store_frame (S1 S2 : Store) (v1 v2 : Vector) (x : Int) (q : Nat)
    (h : ((spanStoreAt S1 v1.begin_ v1.capacity_ v1.size_ (some x)).bind fun S =>
      some (S, Vector.mk v1.begin_ ((v1.size_ + 1) % SIZE_MOD) v1.capacity_)) =
        some (S2, v2))
    (hne : v1.begin_ ≠ some q) :
    Store.load S2 q = Store.load S1 q ∧ v2.begin_ ≠ some q := by
  simp only [Option.bind_eq_some, Option.some.injEq, Prod.mk.injEq] at h
  obtain ⟨S3, h3, h4, h5⟩ := h
  refine ⟨?_, ?_⟩
  · rw [← h4, spanStoreAt_frame S1 S3 _ _ _ _ h3 q hne]
  · rw [← h5]; exact hne

theorem PushBack_frame (alloc : Allocator) (hf : alloc.Fresh) (S S2 : Store) (v v2 : Vector)
    (x : Int) (h : Vector.PushBack alloc S v x = some (S2, v2)) (q : Nat)
    (hq : (Store.load S q).isSome = true) (hne : v.begin_ ≠ some q) :
    Store.load S2 q = Store.load S q ∧ v2.begin_ ≠ some q := by
  unfold Vector.PushBack at h
  simp only [Option.bind_eq_bind, Option.pure_def] at h
  by_cases c1 : v.size_ = v.capacity_
  · rw [if_pos c1] at h
    rw [Option.bind_eq_some] at h
    obtain ⟨⟨S1, v1⟩, h1, h2⟩ := h
    have h6 : Store.load S1 q = Store.load S q ∧ v1.begin_ ≠ some q := by
      by_cases c2 : v.capacity_ = 0
      · rw [if_pos c2] at h1
        exact Reserve_frame alloc hf S S1 v v1 _ h1 q hq hne
      · rw [if_neg c2] at h1
        exact Reserve_frame alloc hf S S1 v v1 _ h1 q hq hne
    obtain ⟨h7, h8⟩ := store_frame S1 S2 v1 v2 x q h2 h6.2
    exact ⟨by rw [h7, h6.1], h8⟩
  · rw [if_neg c1, Option.some_bind] at h
    exact store_frame S S2 v v2 x q h hne

theorem set_frame (S S2 : Store) (v v2 : Vector) (i : Nat) (x : Int)
    (h : Vector.set S v i x = some (S2, v2)) (q : Nat) (hne : v.begin_ ≠ some q) :
    Store.load S2 q = Store.load S q ∧ v2.begin_ ≠ some q := by
  unfold Vector.set at h
  simp only [Option.bind_eq_bind, Option.bind_eq_some, Option.pure_def, Option.some.injEq,
    Prod.mk.injEq] at h
  obtain ⟨S3, h3, h4, h5⟩ := h
  refine ⟨?_, ?_⟩
  · rw [← h4, spanStoreAt_frame S S3 _ _ _ _ h3 q hne]
  · rw [← h5]; exact hne

/-- Replacing the object at `this` and the store by the outcome of a call
that leaves the arrays of other buffers alone keeps another object and its
buffer. -/
theorem update_frame (σ : Memory) (this o : Nat) (ho : o ≠ this) (r : Store × Vector)
    (hap : Apart σ o this)
    (hfr : ∀ q, (Store.load σ.store q).isSome = true → (σ.objs this).begin_ ≠ some q →
      Store.load r.1 q = Store.load σ.store q ∧ r.2.begin_ ≠ some q) :
    (σ.update this r).objs o = σ.objs o ∧
    (∀ q, (σ.objs o).begin_ = some q →
      Store.load (σ.update this r).store q = Store.load σ.store q) ∧
    Apart (σ.update this r) o this := by
  have e1 : (σ.update this r).objs o = σ.objs o := by
    simp only [Memory.update, if_neg ho]
  have e2 : (σ.update this r).objs this = r.2 := by
    simp only [Memory.update, if_true]
  refine ⟨e1, ?_, ?_⟩
  · intro q hq
    obtain ⟨a1, a2⟩ := hap q hq
    exact (hfr q a1 a2).1
  · intro q hq
    rw [e1] at hq
    obtain ⟨a1, a2⟩ := hap q hq
    obtain ⟨f1, f2⟩ := hfr q a1 a2
    rw [e2]
    refine ⟨?_, f2⟩
    show (Store.load r.1 q).isSome = true
    rw [f1]; exact a1

theorem apply_frame (alloc : Allocator) (hf : alloc.Fresh) (this o : Nat) (ho : o ≠ this)
    (m : Mutation) (σ τ : Memory) (hap : Apart σ o this)
    (h : m.apply alloc this σ = some τ) :
    τ.objs o = σ.objs o ∧
    (∀ q, (σ.objs o).begin_ = some q → Store.load τ.store q = Store.load σ.store q) ∧
    Apart τ o this := by
  cases m with
  | write i x =>
    simp only [Mutation.apply, Memory.set, Option.map_eq_some'] at h
    obtain ⟨r, h1, h2⟩ := h
    rw [← h2]
    exact update_frame σ this o ho r hap
      (fun q _ hne => set_frame σ.store r.1 _ r.2 i x h1 q hne)
  | PushBack x =>
    simp only [Mutation.apply, Memory.PushBack, Option.map_eq_some'] at h
    obtain ⟨r, h1, h2⟩ := h
    rw [← h2]
    exact update_frame σ this o ho r hap
      (fun q hq hne => PushBack_frame alloc hf σ.store r.1 _ r.2 x h1 q hq hne)
  | PopBack =>
    simp only [Mutation.apply, Option.some.injEq] at h
    rw [← h]
    exact update_frame σ this o ho _ hap (fun q _ hne => ⟨rfl, hne⟩)
  | Clear =>
    simp only [Mutation.apply, Option.some.injEq] at h
    rw [← h]
    exact update_frame σ this o ho _ hap (fun q _ hne => ⟨rfl, hne⟩)

theorem mutate_frame (alloc : Allocator) (hf : alloc.Fresh) (this o : Nat) (ho : o ≠ this) :
    ∀ (ms : List Mutation) (σ τ : Memory), Apart σ o this →
      mutate alloc this ms σ = some τ →
      τ.objs o = σ.objs o ∧
      (∀ q, (σ.objs o).begin_ = some q → Store.load τ.store q = Store.load σ.store q)
  | [], σ, τ, _, h => by
    simp only [mutate, Option.some.injEq] at h
    rw [← h]
    exact ⟨rfl, fun _ _ => rfl⟩
  | m :: ms, σ, τ, hap, h => by
    simp only [mutate, Option.bind_eq_some] at h
    obtain ⟨ρ, h1, h2⟩ := h
    obtain ⟨a1, a2, a3⟩ := apply_frame alloc hf this o ho m σ ρ hap h1
    obtain ⟨b1, b2⟩ := mutate_frame alloc hf this o ho ms ρ τ a3 h2
    refine ⟨by rw [b1, a1], fun q hq => ?_⟩
    rw [b2 q (by rw [a1]; exact hq), a2 q hq]

theorem unchanged_of (σ τ : Memory) (o : Nat) (h1 : τ.objs o = σ.objs o)
    (h2 : ∀ q, (σ.objs o).begin_ = some q → Store.load τ.store q = Store.load σ.store q) :
    Unchanged σ τ o := by
  refine ⟨by simp only [Memory.Size, h1], by simp only [Memory.Capacity, h1], fun i => ?_⟩
  simp only [Memory.get, Vector.get, h1]
  cases hb : (σ.objs o).begin_ with
  | none => simp only [spanLoadAt]
  | some q => simp only [spanLoadAt, h2 q hb]

theorem spanStoreAt_alive (S S2 : Store) (p : Option Nat) (ext i : Nat) (x : Cell)
    (h : spanStoreAt S p ext i x = some S2) (q : Nat) (hq : p = some q) :
    (Store.load S2 q).isSome = true := by
  obtain ⟨a, c, hp, _, h2⟩ := spanStoreAt_some S S2 p ext i x h
  have e : a = q := Option.some.inj (hp.symm.trans hq)
  rw [h2, load_put, if_pos e]; rfl

theorem set_alive (S S2 : Store) (v v2 : Vector) (i : Nat) (x : Int)
    (h : Vector.set S v i x = some (S2, v2)) (q : Nat) (hq : v2.begin_ = some q) :
    (Store.load S2 q).isSome = true := by
  unfold Vector.set at h
  simp only [Option.bind_eq_bind, Option.bind_eq_some, Option.pure_def, Option.some.injEq,
    Prod.mk.injEq] at h
  obtain ⟨S3, h3, h4, h5⟩ := h
  rw [← h5] at hq
  rw [← h4]
  exact spanStoreAt_alive S S3 _ _ _ _ h3 q hq

theorem store_alive (S1 S2 : Store) (v1 v2 : Vector) (x : Int) (q : Nat)
    (h : ((spanStoreAt S1 v1.begin_ v1.capacity_ v1.size_ (some x)).bind fun S =>
      some (S, Vector.mk v1.begin_ ((v1.size_ + 1) % SIZE_MOD) v1.capacity_)) =
        some (S2, v2))
    (hq : v2.begin_ = some q) : (Store.load S2 q).isSome = true := by
  simp only [Option.bind_eq_some, Option.some.injEq, Prod.mk.injEq] at h
  obtain ⟨S3, h3, h4, h5⟩ := h
  rw [← h5] at hq
  rw [← h4]
  exact spanStoreAt_alive S1 S3 _ _ _ _ h3 q hq

theorem PushBack_alive (alloc : Allocator) (S S2 : Store) (v v2 : Vector) (x : Int)
    (h : Vector.PushBack alloc S v x = some (S2, v2)) (q : Nat) (hq : v2.begin_ = some q) :
    (Store.load S2 q).isSome = true := by
  unfold Vector.PushBack at h
  simp only [Option.bind_eq_bind, Option.pure_def] at h
  by_cases c1 : v.size_ = v.capacity_
  · rw [if_pos c1] at h
    rw [Option.bind_eq_some] at h
    obtain ⟨⟨S1, v1⟩, _, h2⟩ := h
    exact store_alive S1 S2 v1 v2 x q h2 hq
  · rw [if_neg c1, Option.some_bind] at h
    exact store_alive S S2 v v2 x q h hq

/-- A call on the object at `this` whose buffer, if any, is allocated leaves
it with a buffer that is allocated. -/
theorem apply_alive (alloc : Allocator) (this : Nat) (m : Mutation) (σ τ : Memory)
    (hal : ∀ q, (σ.objs this).begin_ = some q → (Store.load σ.store q).isSome = true)
    (h : m.apply alloc this σ = some τ) :
    ∀ q, (τ.objs this).begin_ = some q → (Store.load τ.store q).isSome = true := by
  have e2 : ∀ r : Store × Vector, (σ.update this r).objs this = r.2 := by
    intro r; simp only [Memory.update, if_true]
  cases m with
  | write i x =>
    simp only [Mutation.apply, Memory.set, Option.map_eq_some'] at h
    obtain ⟨r, h1, h2⟩ := h
    rw [← h2]
    intro q hq
    rw [e2] at hq
    exact set_alive σ.store r.1 _ r.2 i x h1 q hq
  | PushBack x =>
    simp only [Mutation.apply, Memory.PushBack, Option.map_eq_some'] at h
    obtain ⟨r, h1, h2⟩ := h
    rw [← h2]
    intro q hq
    rw [e2] at hq
    exact PushBack_alive alloc σ.store r.1 _ r.2 x h1 q hq
  | PopBack =>
    simp only [Mutation.apply, Option.some.injEq] at h
    rw [← h]
    intro q hq
    simp only [Memory.PopBack, e2] at hq
    exact hal q hq
  | Clear =>
    simp only [Mutation.apply, Option.some.injEq] at h
    rw [← h]
    intro q hq
    simp only [Memory.Clear, e2] at hq
    exact hal q hq

/-- Two objects with buffers apart keep them apart under a call on one. -/
theorem apply_apart (alloc : Allocator) (hf : alloc.Fresh) (this o : Nat) (ho : o ≠ this)
    (m : Mutation) (σ τ : Memory) (h1 : Apart σ o this) (h2 : Apart σ this o)
    (h : m.apply alloc this σ = some τ) : Apart τ o this ∧ Apart τ this o := by
  obtain ⟨a1, _, a3⟩ := apply_frame alloc hf this o ho m σ τ h1 h
  refine ⟨a3, fun q hq => ⟨?_, ?_⟩⟩
  · exact apply_alive alloc this m σ τ (fun q hq => (h2 q hq).1) h q hq
  · intro e
    exact (a3 q e).2 hq

theorem mutateEach_apart (alloc : Allocator) (hf : alloc.Fresh) (a b : Nat) (hab : a ≠ b) :
    ∀ (ms : List (Nat × Mutation)) (σ τ : Memory), Apart σ a b → Apart σ b a →
      (∀ e, e ∈ ms → e.1 = a ∨ e.1 = b) → mutateEach alloc ms σ = some τ →
      Apart τ a b ∧ Apart τ b a
  | [], σ, τ, h1, h2, _, h => by
    simp only [mutateEach, Option.some.injEq] at h
    rw [← h]
    exact ⟨h1, h2⟩
  | (o, m) :: ms, σ, τ, h1, h2, ht, h => by
    simp only [mutateEach, Option.bind_eq_some] at h
    obtain ⟨ρ, e1, e2⟩ := h
    have ht2 : ∀ e, e ∈ ms → e.1 = a ∨ e.1 = b := fun e he => ht e (List.mem_cons_of_mem _ he)
    rcases ht (o, m) (List.mem_cons_self _ _) with e | e
    · simp only at e
      subst e
      obtain ⟨c1, c2⟩ := apply_apart alloc hf o b (fun e => hab e.symm) m σ ρ h2 h1 e1
      exact mutateEach_apart alloc hf o b hab ms ρ τ c2 c1 ht2 e2
    · simp only at e
      subst e
      obtain ⟨c1, c2⟩ := apply_apart alloc hf o a hab m σ ρ h1 h2 e1
      exact mutateEach_apart alloc hf a o hab ms ρ τ c1 c2 ht2 e2

theorem owned_isSome (S : Store) (v : Vector) (ho : v.OwnedAt S) (q : Nat)
    (hq : v.begin_ = some q) : (Store.load S q).isSome = true := by
  unfold Vector.OwnedAt at ho
  rw [hq] at ho
  simp only [Option.map_eq_some'] at ho
  obtain ⟨c, hc, _⟩ := ho
  rw [hc]; rfl

theorem copy_at (alloc : Allocator) (hf : alloc.Fresh) (S : Store) (v : Vector)
    (ho : v.OwnedAt S) (hs : v.size_ ≤ v.capacity_) :
    ∃ S1, Vector.copy alloc S v =
        some (S1, Vector.mk (some (alloc S v.capacity_)) v.size_ v.capacity_) ∧
      (Store.load S1 (alloc S v.capacity_)).isSome = true ∧
      (∀ r, r ≠ alloc S v.capacity_ → Store.load S1 r = Store.load S r) ∧
      ∀ i, i < v.size_ →
        spanLoadAt S1 (some (alloc S v.capacity_)) v.capacity_ i =
          spanLoadAt S v.begin_ v.capacity_ i := by
  cases hb : v.begin_ with
  | none =>
    have hc : v.capacity_ = 0 := by
      unfold Vector.OwnedAt at ho
      rw [hb] at ho
      exact ho
    have h0 : v.size_ = 0 := by omega
    refine ⟨Store.put S (alloc S v.capacity_) (List.replicate v.capacity_ none), ?_, ?_, ?_, ?_⟩
    · simp only [Vector.copy, newIntsAt, h0, copyLoopAt, Option.bind_eq_bind,
        Option.some_bind, Option.pure_def]
    · rw [load_put, if_pos rfl]; rfl
    · intro r hr
      rw [load_put, if_neg (fun e => hr e.symm)]
    · intro i hi
      omega
  | some q =>
    have hq : (Store.load S q).isSome = true := owned_isSome S v ho q hb
    unfold Vector.OwnedAt at ho
    rw [hb] at ho
    simp only [Option.map_eq_some'] at ho
    obtain ⟨sc, hsc, hlen⟩ := ho
    have hpq : alloc S v.capacity_ ≠ q := fresh_ne alloc hf S _ q hq
    have hq0 : Store.load (Store.put S (alloc S v.capacity_)
        (List.replicate v.capacity_ none)) q = some sc := by
      rw [load_put, if_neg hpq, hsc]
    have hp0 : Store.load (Store.put S (alloc S v.capacity_)
        (List.replicate v.capacity_ none)) (alloc S v.capacity_) =
        some (List.replicate v.capacity_ none) := by
      rw [load_put, if_pos rfl]
    obtain ⟨S1, e1, l1, f1⟩ := copyLoopAt_some _ q (alloc S v.capacity_) sc
      (List.replicate v.capacity_ none) v.capacity_ v.capacity_ hq0 hp0
      (fun e => hpq e.symm) v.size_ hs (by omega) hs (by simp only [List.length_replicate]; omega)
    refine ⟨S1, ?_, ?_, ?_, ?_⟩
    · simp only [Vector.copy, newIntsAt, hb, e1, Option.bind_eq_bind, Option.some_bind,
        Option.pure_def]
    · rw [l1]; rfl
    · intro r hr
      rw [f1 r hr, load_put, if_neg (fun e => hr e.symm)]
    · intro i hi
      have hi2 : i < v.capacity_ := by omega
      have hi3 : i < (sc.take v.size_).length := by
        simp only [List.length_take]; omega
      simp only [spanLoadAt, l1, hsc, hi2, if_true]
      rw [List.getElem?_append_left hi3, List.getElem?_take_of_lt hi]

theorem copyAssign_eq (alloc : Allocator) (S : Store) (self data : Vector) :
    Vector.copyAssign alloc S self data =
      (deleteAt S self.begin_).bind (fun S1 => Vector.copy alloc S1 data) := rfl

theorem copyOf_of (alloc : Allocator) (hf : alloc.Fresh) (σ τ : Memory) (S : Store)
    (a b p : Nat) (hab : a ≠ b) (ho : (σ.objs a).OwnedAt S)
    (hS : ∀ q, (σ.objs a).begin_ = some q → Store.load S q = Store.load σ.store q)
    (hp : Store.load S p = none)
    (oa : τ.objs a = σ.objs a)
    (ob : τ.objs b = Vector.mk (some p) (σ.objs a).size_ (σ.objs a).capacity_)
    (p1 : (Store.load τ.store p).isSome = true)
    (f1 : ∀ r, r ≠ p → Store.load τ.store r = Store.load S r)
    (g1 : ∀ i, i < (σ.objs a).size_ →
      spanLoadAt τ.store (some p) (σ.objs a).capacity_ i =
        spanLoadAt S (σ.objs a).begin_ (σ.objs a).capacity_ i) :
    CopyOf alloc σ τ a b := by
  have hne : ∀ q, (σ.objs a).begin_ = some q → q ≠ p := by
    intro q hq e
    have := owned_isSome S _ ho q hq
    rw [e, hp] at this
    cases this
  have la : ∀ q, (σ.objs a).begin_ = some q → Store.load τ.store q = Store.load σ.store q :=
    fun q hq => by rw [f1 q (hne q hq), hS q hq]
  have hSl : ∀ i, spanLoadAt S (σ.objs a).begin_ (σ.objs a).capacity_ i =
      spanLoadAt σ.store (σ.objs a).begin_ (σ.objs a).capacity_ i := by
    intro i
    cases hb : (σ.objs a).begin_ with
    | none => simp only [spanLoadAt]
    | some q => simp only [spanLoadAt, hS q hb]
  have ap1 : Apart τ a b := by
    intro q hq
    rw [oa] at hq
    rw [ob]
    refine ⟨?_, ?_⟩
    · rw [f1 q (hne q hq)]
      exact owned_isSome S _ ho q hq
    · intro e
      exact hne q hq (Option.some.inj e).symm
  have ap2 : Apart τ b a := by
    intro q hq
    rw [ob] at hq
    rw [oa]
    have e : p = q := Option.some.inj hq
    refine ⟨?_, ?_⟩
    · rw [← e]; exact p1
    · intro e2
      exact hne q e2 e.symm
  refine ⟨?_, ?_, ?_, ?_, ?_, ?_, ?_⟩
  · simp only [Memory.Size, ob]
  · simp only [Memory.Capacity, ob]
  · intro i hi
    simp only [Memory.get, Vector.get, ob]
    rw [g1 i hi, hSl i]
  · exact unchanged_of _ _ a oa la
  · intro ms ρ hm
    obtain ⟨b1, b2⟩ := mutate_frame alloc hf b a hab ms _ ρ ap1 hm
    exact unchanged_of _ _ a b1 b2
  · intro ms ρ hm
    obtain ⟨b1, b2⟩ := mutate_frame alloc hf a b (fun e => hab e.symm) ms _ ρ ap2 hm
    exact unchanged_of _ _ b b1 b2
  · intro ms ρ ht hm m ρ2
    obtain ⟨c1, c2⟩ := mutateEach_apart alloc hf a b hab ms τ ρ ap1 ap2 ht hm
    refine ⟨fun h => ?_, fun h => ?_⟩
    · obtain ⟨b1, b2, _⟩ := apply_frame alloc hf b a hab m ρ ρ2 c1 h
      exact unchanged_of _ _ a b1 b2
    · obtain ⟨b1, b2, _⟩ := apply_frame alloc hf a b (fun e => hab e.symm) m ρ ρ2 c2 h
      exact unchanged_of _ _ b b1 b2

/-- The outcome of the copy loop into a fresh array, entered in place of the
object at `b`, is a copy of the object at `a` and independent of it. -/
theorem copied (alloc : Allocator) (hf : alloc.Fresh) (σ : Memory) (S : Store) (a b : Nat)
    (hab : a ≠ b) (ho : (σ.objs a).OwnedAt S)
    (hs : (σ.objs a).size_ ≤ (σ.objs a).capacity_)
    (hS : ∀ q, (σ.objs a).begin_ = some q → Store.load S q = Store.load σ.store q) :
    ∃ r, Vector.copy alloc S (σ.objs a) = some r ∧ CopyOf alloc σ (σ.update b r) a b := by
  obtain ⟨S1, e1, p1, f1, g1⟩ := copy_at alloc hf S (σ.objs a) ho hs
  refine ⟨_, e1, ?_⟩
  refine copyOf_of alloc hf σ _ S a b (alloc S (σ.objs a).capacity_) hab ho hS (hf S _)
    ?_ ?_ p1 f1 g1
  · simp only [Memory.update, if_neg hab]
  · simp only [Memory.update, if_true]

theorem owned_congr (S S2 : Store) (v : Vector)
    (h : ∀ q, v.begin_ = some q → Store.load S2 q = Store.load S q) (ho : v.OwnedAt S) :
    v.OwnedAt S2 := by
  unfold Vector.OwnedAt at ho ⊢
  cases hb : v.begin_ with
  | none => rw [hb] at ho; exact ho
  | some q =>
    rw [hb] at ho
    simp only at ho ⊢
    rw [h q hb]; exact ho

theorem deleteAt_apart (σ : Memory) (a b : Nat) (hap : Apart σ b a) :
    ∃ S, deleteAt σ.store (σ.objs b).begin_ = some S ∧
      ∀ q, (σ.objs a).begin_ = some q → Store.load S q = Store.load σ.store q := by
  cases hb : (σ.objs b).begin_ with
  | none => exact ⟨σ.store, rfl, fun _ _ => rfl⟩
  | some pb =>
    obtain ⟨h1, h2⟩ := hap pb hb
    refine ⟨Store.free σ.store pb, by simp only [deleteAt, h1, if_true], fun q hq => ?_⟩
    have h3 : ¬ q = pb := fun e => h2 (by rw [hq, e])
    rw [load_free, if_neg h3]

/-- The copy of the example and calls on it: the calls are defined, the copy
ends with size 0 and capacity 6, the original keeps its elements 1, 2, its
size 2 and its capacity 3. -/
theorem mutate_example :
    ((exampleMemory.copy bump 2 0).bind
      (mutate bump 2 [Mutation.write 0 9, Mutation.PushBack 5, Mutation.PushBack 6,
        Mutation.PopBack, Mutation.Clear])).map
      (fun ρ => (ρ.get 0 0, ρ.get 0 1, ρ.Size 0, ρ.Capacity 0, ρ.Size 2, ρ.Capacity 2)) =
      some (some 1, some 2, 2, 3, 0, 6) := by
  decide

end Addr

/-! ## The dynamic array with addresses: claims -/

/-- C16: copy is deep and independent.  For a vector `a` whose buffer is the
array of `capacity_` cells it allocated (or null with capacity 0) and whose
size is at most its capacity, the copy construction of another object `b`
from `a` returns, and so does the copy assignment `b = a` to an existing `b`
whose buffer, if any, is an allocated array other than that of `a`.
Afterwards `b.Size() == a.Size()`, `b.Capacity() == a.Capacity()` and
`b[i] == a[i]` for every `i < Size()`, `a` is as before, and every sequence of
writes `b[i] = x`, `PushBack`, `PopBack` and `Clear` on `b` with defined
behaviour leaves `Size()`, `Capacity()` and every element of `a` unchanged;
likewise calls on `a` leave `b` unchanged, and the same holds for a single
call in any state reached by calls on `a` and `b` in any order.  The
allocator is any function returning unallocated addresses. -/
theorem C16_copy_independent (alloc : Addr.Allocator) (hf : alloc.Fresh) (σ : Addr.Memory)
    (a b : Nat) (hab : a ≠ b) (ha : (σ.objs a).OwnedAt σ.store)
    (hs : σ.Size a ≤ σ.Capacity a) :
    (∃ τ, σ.copy alloc b a = some τ ∧ Addr.CopyOf alloc σ τ a b) ∧
    (Addr.Apart σ b a →
      ∃ τ, σ.copyAssign alloc b a = some τ ∧ Addr.CopyOf alloc σ τ a b) := by
  refine ⟨?_, ?_⟩
  · obtain ⟨r, h1, h2⟩ := Addr.copied alloc hf σ σ.store a b hab ha hs (fun _ _ => rfl)
    exact ⟨σ.update b r, by simp only [Addr.Memory.copy, h1, Option.map_some'], h2⟩
  · intro hap
    obtain ⟨S, hd, hS⟩ := Addr.deleteAt_apart σ a b hap
    obtain ⟨r, h1, h2⟩ := Addr.copied alloc hf σ S a b hab
      (Addr.owned_congr σ.store S _ hS ha) hs hS
    refine ⟨σ.update b r, ?_, h2⟩
    simp only [Addr.Memory.copyAssign, if_pos hab, Addr.copyAssign_eq, hd, Option.some_bind,
      h1, Option.map_some', ne_eq, not_false_eq_true]

/-- C16 at the example state: the vector at 1 becomes a copy of the vector
at 0, by construction and by assignment. -/
theorem C16_copy_independent_witness :
    (0 : Nat) ≠ 1 ∧ (Addr.exampleMemory.objs 0).OwnedAt Addr.exampleMemory.store ∧
    Addr.exampleMemory.Size 0 ≤ Addr.exampleMemory.Capacity 0 ∧
    Addr.Apart Addr.exampleMemory 1 0 ∧
    (∃ τ, Addr.exampleMemory.copy Addr.bump 1 0 = some τ ∧
      Addr.CopyOf Addr.bump Addr.exampleMemory τ 0 1) ∧
    (∃ τ, Addr.exampleMemory.copyAssign Addr.bump 1 0 = some τ ∧
      Addr.CopyOf Addr.bump Addr.exampleMemory τ 0 1) :=
  have hap : Addr.Apart Addr.exampleMemory 1 0 := by
    intro q hq
    have e : q = 9 := (Option.some.inj hq).symm
    subst e
    exact ⟨rfl, by decide⟩
  ⟨by decide, rfl, by decide, hap,
    (C16_copy_independent Addr.bump Addr.bump_fresh Addr.exampleMemory 0 1 (by decide) rfl
      (by decide)).1,
    (C16_copy_independent Addr.bump Addr.bump_fresh Addr.exampleMemory 0 1 (by decide) rfl
      (by decide)).2 hap⟩

end CodeExamples
